import Mathlib

/-!
# Verification of the dicompare core

A shallow embedding, in Lean 4, of the parts of the `dicompare` repository
that the verified claims are about:

* `dcm_check/session_mapping.py` — the fuzzy field-distance metric
  (`levenshtein_distance`, `calculate_field_score`, `calculate_match_score`)
  and the session matcher (`map_session`);
* `dicompare/acquisition.py` — acquisition-signature construction and the
  acquisition/run assignment pipeline;
* `dicompare/compliance.py` — the declarative (JSON-reference) compliance
  engine and the python-module compliance path;
* `dicompare/validation.py` — `BaseValidationModel.validate`.

Modelling conventions:

* Python scalar values are modelled by `Value` below: numbers as rationals
  (`ℚ`), strings as `String`, Python `list` and `tuple` as separate
  constructors (they are distinct types, never `==`-equal in Python), and
  Python `None` as `Value.none`.  Floating-point NaN is not modelled; the
  missing-value role is played by `Value.none`.
* Fallible Python code (operations that can raise) is modelled with
  `Option`/`Except`: a `none`/`.error` result means the Python code raises.
* Python `str()` of a value is modelled by `pyStr`; for non-integral
  rationals the rendering abstracts CPython float formatting (no theorem
  below depends on its exact output, only on its self-equality).
-/

/-- Python values as they appear in record tables and schema field entries:
numbers (ints and floats, modelled exactly as rationals), strings, lists,
tuples and `None`. -/
inductive Value where
  | num : ℚ → Value
  | str : String → Value
  | vlist : List Value → Value
  | tup : List Value → Value
  | none : Value
deriving Repr

mutual

/-- Decidable structural (Python `==`) equality on `Value`.  A Python
`list` is never `==` to a `tuple`, and numbers compare by numeric
value. -/
def Value.decEq : (a b : Value) → Decidable (a = b)
  | .num a, .num b =>
      match inferInstanceAs (Decidable (a = b)) with
      | isTrue h => isTrue (by rw [h])
      | isFalse h => isFalse fun hc => h (Value.num.inj hc)
  | .str a, .str b =>
      match inferInstanceAs (Decidable (a = b)) with
      | isTrue h => isTrue (by rw [h])
      | isFalse h => isFalse fun hc => h (Value.str.inj hc)
  | .vlist a, .vlist b =>
      match Value.decEqList a b with
      | isTrue h => isTrue (by rw [h])
      | isFalse h => isFalse fun hc => h (Value.vlist.inj hc)
  | .tup a, .tup b =>
      match Value.decEqList a b with
      | isTrue h => isTrue (by rw [h])
      | isFalse h => isFalse fun hc => h (Value.tup.inj hc)
  | .none, .none => isTrue rfl
  | .num _, .str _ | .num _, .vlist _ | .num _, .tup _ | .num _, .none
  | .str _, .num _ | .str _, .vlist _ | .str _, .tup _ | .str _, .none
  | .vlist _, .num _ | .vlist _, .str _ | .vlist _, .tup _ | .vlist _, .none
  | .tup _, .num _ | .tup _, .str _ | .tup _, .vlist _ | .tup _, .none
  | .none, .num _ | .none, .str _ | .none, .vlist _ | .none, .tup _ =>
      isFalse (by intro h; exact Value.noConfusion h)

/-- Decidable elementwise equality of value lists. -/
def Value.decEqList : (a b : List Value) → Decidable (a = b)
  | [], [] => isTrue rfl
  | a :: as', b :: bs =>
      match Value.decEq a b, Value.decEqList as' bs with
      | isTrue h1, isTrue h2 => isTrue (by rw [h1, h2])
      | isFalse h1, _ => isFalse fun hc => h1 (List.head_eq_of_cons_eq hc)
      | _, isFalse h2 => isFalse fun hc => h2 (List.tail_eq_of_cons_eq hc)
  | [], _ :: _ => isFalse (by intro h; exact List.noConfusion h)
  | _ :: _, [] => isFalse (by intro h; exact List.noConfusion h)

end

instance : DecidableEq Value := Value.decEq

/-- Decimal rendering of a natural number (most significant digit first),
modelling Python `str()` on a non-negative integer. -/
def natStr (n : Nat) : String :=
  if n = 0 then "0"
  else ⟨((Nat.digits 10 n).map fun d => Char.ofNat (48 + d)).reverse⟩

/-- Decimal rendering of an integer, modelling Python `str()` on an `int`. -/
def intStr (i : Int) : String :=
  if i < 0 then "-" ++ natStr i.natAbs else natStr i.natAbs

mutual

/-- Python `str()` on a `Value`.  Integers render exactly as Python does;
the rendering of a non-integral rational abstracts CPython float
formatting (digits of numerator and denominator).  No theorem depends on
the exact text of a rendered list or float, only on `pyStr` being a
function. -/
def pyStr : Value → String
  | .num q => if q.den = 1 then intStr q.num else intStr q.num ++ "/" ++ natStr q.den
  | .str s => s
  | .vlist l => "[" ++ String.intercalate ", " (pyStrList l) ++ "]"
  | .tup l => "(" ++ String.intercalate ", " (pyStrList l) ++ ")"
  | .none => "None"

/-- Element renderings used inside list/tuple rendering (Python `repr` of
elements; strings are quoted). -/
def pyStrList : List Value → List String
  | [] => []
  | .str s :: vs => ("'" ++ s ++ "'") :: pyStrList vs
  | v :: vs => pyStr v :: pyStrList vs

end

/-- Python truthiness of a `Value` (`if contains:` style tests). -/
def pyTruthy : Value → Bool
  | .num q => decide (q ≠ 0)
  | .str s => decide (s ≠ "")
  | .vlist l => !l.isEmpty
  | .tup l => !l.isEmpty
  | .none => false

/-- `isinstance(v, (int, float))` — `Value.num` is the numeric constructor. -/
def Value.isNum : Value → Bool
  | .num _ => true
  | _ => false

/-- `isinstance(v, str)`. -/
def Value.isStr : Value → Bool
  | .str _ => true
  | _ => false

/-- `isinstance(v, (list, tuple))`. -/
def Value.isSeq : Value → Bool
  | .vlist _ => true
  | .tup _ => true
  | _ => false

/-- `isinstance(v, (str, list, tuple))`. -/
def Value.isContainer : Value → Bool
  | .str _ => true
  | .vlist _ => true
  | .tup _ => true
  | _ => false

/-- The numeric payload of a `Value.num` (meaningful only when `isNum`). -/
def Value.asNum : Value → ℚ
  | .num q => q
  | _ => 0

/-- The element list of a Python list or tuple (meaningful only when `isSeq`). -/
def Value.elems : Value → List Value
  | .vlist l => l
  | .tup l => l
  | _ => []

/-!
## `dcm_check/session_mapping.py` — `levenshtein_distance`

The source computes the Levenshtein distance with a rolling-row dynamic
programme after swapping the arguments so that the first is at least as
long as the second.  `levInner` is the inner `for j, c2 in enumerate(s2)`
loop (carrying the last entry of `current_row` as `left`), `levOuter` the
outer `for i, c1 in enumerate(s1)` loop.
-/

/-- Inner DP loop: given the previous row (`p0 :: p1 :: …`) and the last
entry `left` already appended to the current row, produce the remaining
entries of the current row. -/
def levInner (c1 : Char) : List Char → List Nat → Nat → List Nat
  | c2 :: s2, p0 :: p1 :: ps, left =>
      min (p1 + 1) (min (left + 1) (p0 + if c1 = c2 then 0 else 1)) ::
        levInner c1 s2 (p1 :: ps)
          (min (p1 + 1) (min (left + 1) (p0 + if c1 = c2 then 0 else 1)))
  | _, _, _ => []

/-- Outer DP loop: `prev` is `previous_row`, `i` the index of the next
character of `s1`.  Returns the final `previous_row`. -/
def levOuter (s2 : List Char) : List Char → List Nat → Nat → List Nat
  | [], prev, _ => prev
  | c1 :: s1, prev, i =>
      levOuter s2 s1 ((i + 1) :: levInner c1 s2 prev (i + 1)) (i + 1)

/-- One pass of the DP with `s1` the longer string: `previous_row[-1]`
after the outer loop, starting from `range(len(s2) + 1)`. -/
def levCore (s1 s2 : List Char) : Nat :=
  (levOuter s2 s1 (List.range (s2.length + 1)) 0).getLastD 0

/-- `levenshtein_distance(s1, s2)` from `dcm_check/session_mapping.py`
(the body recurses once, swapping so `len(s1) ≥ len(s2)`). -/
def levenshtein_distance (s1 s2 : String) : Nat :=
  if s1.data.length < s2.data.length then levCore s2.data s1.data
  else levCore s1.data s2.data

/-!
## `dcm_check/session_mapping.py` — `calculate_field_score`

The wildcard branch compiles `"^" + expected.replace("*", ".*").replace("?", ".") + "$"`
as a Python regular expression and matches `actual` against it.  We model
the fragment of Python `re` that such translated patterns can use: literal
characters, `.` (any character except newline, arising from a literal `.`
or a translated `?`), `.*` (from a translated `*`), and the zero-width
anchors `^` and `$` (`$` also matches just before a trailing newline).
Characters that would be parsed as further regex syntax (`\`, `+`, `(`,
`)`, `[`, `]`, braces, `|`) are outside the modelled fragment: on them the
translation returns `none`, as it does where Python would raise
`re.error`.  Matching a non-string raises `TypeError` in Python, hence
`none`.
-/

/-- One token of a translated wildcard pattern. -/
inductive RTok where
  | lit : Char → RTok
  | anyOne : RTok
  | star : RTok
  | caret : RTok
  | dollar : RTok
deriving DecidableEq, Repr

/-- Translate one character of the wildcard `expected` into a pattern
token (`none` for unmodelled regex metacharacters). -/
def rtokOfChar (c : Char) : Option RTok :=
  if c = '*' then some .star
  else if c = '?' then some .anyOne
  else if c = '.' then some .anyOne
  else if c = '^' then some .caret
  else if c = '$' then some .dollar
  else if c ∈ ['\\', '+', '(', ')', '[', ']', Char.ofNat 123, Char.ofNat 125, '|']
    then Option.none
  else some (.lit c)

/-- Translate the full wildcard string. -/
def translatePattern (s : String) : Option (List RTok) :=
  s.data.mapM rtokOfChar

/-- Anchored matching of a translated pattern against the remaining
subject characters; `atStart` records whether we are still at position 0
(for `^`). -/
def reMatch : List RTok → Bool → List Char → Bool
  | [], _, [] => true
  | [], _, _ :: _ => false
  | .lit c :: ts, _, x :: xs => x = c && reMatch ts false xs
  | .lit _ :: _, _, [] => false
  | .anyOne :: ts, _, x :: xs => x ≠ '\n' && reMatch ts false xs
  | .anyOne :: _, _, [] => false
  | .star :: ts, atStart, s =>
      reMatch ts atStart s ||
        (match s with
          | [] => false
          | x :: xs => x ≠ '\n' && reMatch (.star :: ts) false xs)
  | .caret :: ts, atStart, s => atStart && reMatch ts atStart s
  | .dollar :: ts, atStart, s =>
      decide (s = [] ∨ s = ['\n']) && reMatch ts atStart s
termination_by ts _ s => (s.length, ts.length)

/-- `"*" in expected or "?" in expected`. -/
def isWildcardPattern (e : String) : Bool :=
  e.data.contains '*' || e.data.contains '?'

/-- `MAX_DIFF_SCORE = 10`. -/
def MAX_DIFF_SCORE : ℚ := 10

/-- Python `contains in actual` under the isinstance guards of the
`contains` branch: substring test on strings (`TypeError`, i.e. `none`,
when `contains` is not a string), membership on lists/tuples, and `False`
for non-container actuals (the guards short-circuit before `in`). -/
def containsCheck (c : Value) : Value → Option Bool
  | .str s =>
      match c with
      | .str cs => some (decide (cs.data <:+: s.data))
      | _ => Option.none
  | .vlist l => some (l.contains c)
  | .tup l => some (l.contains c)
  | _ => some false

/-- `tuple(v)` as used to coerce `expected`/`actual` in the sequence
branch: identity on lists/tuples, the character tuple on strings,
`TypeError` (`none`) otherwise. -/
def toTupleElems : Value → Option (List Value)
  | .tup l => some l
  | .vlist l => some l
  | .str s => some (s.data.map fun ch => Value.str ch.toString)
  | _ => Option.none

/-- `isinstance(expected, str) and ("*" in expected or "?" in expected)`. -/
def isWildcardValue : Value → Bool
  | .str e => isWildcardPattern e
  | _ => false

/-- Truthiness of the `contains` argument (`if contains:`). -/
def containsTruthy : Option Value → Bool
  | some v => pyTruthy v
  | Option.none => false

/-- `calculate_field_score(expected, actual, tolerance, contains)` from
`dcm_check/session_mapping.py` (identical in `dcm_check/mapping.py`).
`none` models a raised exception or an unmodelled regex pattern. -/
def calculate_field_score (expected actual : Value) (tolerance : Option ℚ)
    (contains : Option Value) : Option ℚ :=
  -- wildcard-pattern branch
  if isWildcardValue expected then
    match expected, actual with
    | .str e, .str a =>
        (match translatePattern e with
          | some toks =>
              some (if reMatch toks true a.data then 0 else min MAX_DIFF_SCORE 5)
          | Option.none => Option.none)
    | _, _ => Option.none
  -- `if contains:` (truthiness, not an `is not None` test)
  else if containsTruthy contains then
    match contains with
    | some c =>
        (match containsCheck c actual with
          | some b => some (if b then 0 else min MAX_DIFF_SCORE 5)
          | Option.none => Option.none)
    | Option.none => Option.none
  else if expected.isSeq || actual.isSeq then
    match toTupleElems expected, toTupleElems actual with
    | some es, some as' =>
        if (es.all Value.isNum && as'.all Value.isNum && es.length == as'.length)
            && tolerance.isSome then
          (match tolerance with
            | some tol =>
                some (min MAX_DIFF_SCORE
                  (((es.zip as').map fun p =>
                      if abs (p.1.asNum - p.2.asNum) > tol then abs (p.1.asNum - p.2.asNum)
                      else 0).sum))
            | Option.none => Option.none)
        else
          -- pad with "" to equal length, sum pairwise Levenshtein of str()
          some (min MAX_DIFF_SCORE
            ((((es ++ List.replicate (max es.length as'.length - es.length) (Value.str "")).zip
                (as' ++ List.replicate (max es.length as'.length - as'.length) (Value.str ""))).map
                fun p => (levenshtein_distance (pyStr p.1) (pyStr p.2) : ℚ)).sum))
    | _, _ => Option.none
  else if expected.isNum && actual.isNum then
    match tolerance with
    | some tol =>
        if abs (expected.asNum - actual.asNum) ≤ tol then some 0
        else some (min MAX_DIFF_SCORE (abs (expected.asNum - actual.asNum)))
    | Option.none => some (min MAX_DIFF_SCORE (abs (expected.asNum - actual.asNum)))
  else
    some (min MAX_DIFF_SCORE (levenshtein_distance (pyStr expected) (pyStr actual) : ℚ))

/-!
## `dcm_check/session_mapping.py` — `calculate_match_score` and `map_session`

Sessions are dictionaries `{"acquisitions": {...}}`; each acquisition has
`"fields"` and `"series"` lists, each series a `"name"` and `"fields"`.
A schema field entry carries optional `value`, `tolerance` and `contains`
(`.get(...)` returns Python `None` when absent).
-/

/-- One `{"field": ..., "value": ..., "tolerance": ..., "contains": ...}`
entry. -/
structure FieldDef where
  field : String
  value : Option Value := Option.none
  tolerance : Option ℚ := Option.none
  contains : Option Value := Option.none
deriving Repr, DecidableEq

/-- One named series with its field list. -/
structure SeriesDef where
  name : String
  fields : List FieldDef := []
deriving Repr, DecidableEq

/-- One acquisition: acquisition-level fields plus named series. -/
structure AcqDef where
  fields : List FieldDef := []
  series : List SeriesDef := []
deriving Repr, DecidableEq

/-- A session: the `"acquisitions"` dictionary as an ordered association
list (Python dicts preserve insertion order). -/
structure Session where
  acquisitions : List (String × AcqDef)
deriving Repr, DecidableEq

/-- Floor of a rational (kept as an explicit `Int.fdiv` so that concrete
matcher runs reduce inside the kernel). -/
def ratFloor (q : ℚ) : ℤ := Int.fdiv q.num q.den

/-- Python `round(x, 2)`.  Python rounds floats half-to-even in binary;
this model rounds half-up in exact arithmetic.  No theorem below depends
on the tie behaviour of the rounding. -/
def round2 (q : ℚ) : ℚ := (ratFloor (q * 100 + 1 / 2) : ℤ) / 100

/-- The summation loop of `calculate_match_score`: for every reference
field, look up the input field of the same name (`{}` when absent, so the
actual value is Python `None`) and add its `calculate_field_score`.
An exception in any field score propagates. -/
def sumFieldScores (inFields : List FieldDef) : List FieldDef → Option ℚ
  | [] => some 0
  | rf :: rest =>
      match calculate_field_score (rf.value.getD Value.none)
          ((inFields.find? fun f => f.field = rf.field).bind (·.value) |>.getD Value.none)
          rf.tolerance rf.contains with
      | some d => (sumFieldScores inFields rest).map (fun s => d + s)
      | Option.none => Option.none

/-- `calculate_match_score(ref_row, in_row)`: summed per-field scores over
the reference-side fields, rounded to two decimals. -/
def calculate_match_score (refFields inFields : List FieldDef) : Option ℚ :=
  (sumFieldScores inFields refFields).map round2

/-- Flattened `(acquisition name, acquisition, series)` traversal of a
session, in dictionary/list order. -/
def sessionEntries (s : Session) : List (String × AcqDef × SeriesDef) :=
  s.acquisitions.flatMap fun p => p.2.series.map fun sd => (p.1, p.2, sd)

/-- `input_keys`: one `(acquisition name, series name)` per input series,
in traversal order. -/
def inputKeysOf (s : Session) : List (String × String) :=
  (sessionEntries s).map fun e => (e.1, e.2.2.name)

/-- First-occurrence deduplication (the `if ref_key not in reference_keys`
append pattern). -/
def dedupFirst {α : Type} [DecidableEq α] (l : List α) : List α :=
  go [] l
where
  /-- Worker carrying the already-seen elements. -/
  go (seen : List α) : List α → List α
  | [] => []
  | x :: xs => if x ∈ seen then go seen xs else x :: go (x :: seen) xs

/-- `reference_keys`: deduplicated `(acquisition name, series name)` pairs
of the reference session in traversal order. -/
def refKeysOf (s : Session) : List (String × String) :=
  dedupFirst ((sessionEntries s).map fun e => (e.1, e.2.2.name))

/-- Option-valued traversal of a list (exception propagation through a
loop). -/
def traverseOpt {α β : Type} (f : α → Option β) : List α → Option (List β)
  | [] => some []
  | x :: xs =>
      match f x, traverseOpt f xs with
      | some y, some ys => some (y :: ys)
      | _, _ => Option.none

/-- One row of the cost matrix: the input series against every reference
series, each cell `acq_score + series_score`. -/
def costRowOf (refS : Session) (inAcq : AcqDef) (inSer : SeriesDef) : Option (List ℚ) :=
  traverseOpt
    (fun e => do
      let acqScore ← calculate_match_score e.2.1.fields inAcq.fields
      let serScore ← calculate_match_score e.2.2.fields inSer.fields
      pure (acqScore + serScore))
    (sessionEntries refS)

/-- The full cost matrix, one row per input series. -/
def costMatrixOf (inS refS : Session) : Option (List (List ℚ)) :=
  traverseOpt (fun e => costRowOf refS e.2.1 e.2.2) (sessionEntries inS)

/-- First element attaining the minimum of `f` (ties broken towards the
front of the list). -/
def argminFirst {α : Type} (f : α → ℚ) : List α → Option α
  | [] => Option.none
  | x :: xs =>
      match argminFirst f xs with
      | Option.none => some x
      | some y => if f y < f x then some y else some x

/-- All ways of inserting `x` into a list (helper for the permutation
enumeration). -/
def insertEverywhere {α : Type} (x : α) : List α → List (List α)
  | [] => [[x]]
  | y :: ys => (x :: y :: ys) :: (insertEverywhere x ys).map (y :: ·)

/-- All permutations of a list (structurally recursive enumeration). -/
def permsOf {α : Type} : List α → List (List α)
  | [] => [[]]
  | x :: xs => (permsOf xs).flatMap (insertEverywhere x)

/-- All candidate one-to-one assignments of `min n m` rows to columns of
an `n × m` matrix, as `(row, col)` pair lists. -/
def assignmentCandidates (n m : Nat) : List (List (Nat × Nat)) :=
  if n ≤ m then (permsOf (List.range m)).map fun p => (List.range n).zip (p.take n)
  else (permsOf (List.range n)).map fun p => (p.take m).zip (List.range m)

/-- Cost of an assignment on a cost matrix. -/
def assignmentCost (cost : List (List ℚ)) (pairs : List (Nat × Nat)) : ℚ :=
  (pairs.map fun rc => ((cost.getD rc.1 []).getD rc.2 0)).sum

/-- Modelled from the spec: the external assignment routine
(`scipy.optimize.linear_sum_assignment`, not part of this repository)
solves the rectangular minimum-cost bipartite assignment over the cost
matrix and raises `ValueError` when the input is not a two-dimensional
matrix — which is what `np.array([])`, the conversion of an empty list of
rows, produces.  The model enumerates all one-to-one assignments and
returns a minimum-cost one; the spec documents the tie-break among
equal-cost solutions as solver-dependent, and no theorem below depends on
which minimiser is returned, only on it being a valid assignment. -/
def linear_sum_assignment (cost : List (List ℚ)) : Except String (List (Nat × Nat)) :=
  if cost.isEmpty then .error "expected a matrix (2-D array)"
  else
    match argminFirst (assignmentCost cost)
        (assignmentCandidates cost.length (cost.headD []).length) with
    | some pairs => .ok pairs
    | Option.none => .error "infeasible cost matrix"

/-- Python-dict insertion on an ordered association list: overwrite in
place if the key exists, else append. -/
def dictInsert {K V : Type} [DecidableEq K] (m : List (K × V)) (k : K) (v : V) :
    List (K × V) :=
  if m.any fun p => p.1 = k then m.map fun p => if p.1 = k then (k, v) else p
  else m ++ [(k, v)]

/-- One step of the mapping-construction loop: add
`mapping[input_keys[row]] = reference_keys[col]` when both indices are in
range, else skip the pair. -/
def mappingStep (inKeys refKeys : List (String × String))
    (acc : List ((String × String) × (String × String))) (rc : Nat × Nat) :
    List ((String × String) × (String × String)) :=
  match inKeys.get? rc.1, refKeys.get? rc.2 with
  | some ik, some rk => dictInsert acc ik rk
  | _, _ => acc

/-- The mapping-construction loop of `map_session`. -/
def buildMapping (inKeys refKeys : List (String × String))
    (pairs : List (Nat × Nat)) : List ((String × String) × (String × String)) :=
  pairs.foldl (mappingStep inKeys refKeys) []

/-- `map_session(in_session, ref_session)` from
`dcm_check/session_mapping.py`: build the cost matrix over all
(input series, reference series) pairs, solve the assignment problem and
read the mapping off the chosen pairs.  `.error` models a raised
exception. -/
def map_session (inS refS : Session) :
    Except String (List ((String × String) × (String × String))) :=
  match costMatrixOf inS refS with
  | some cost =>
      match linear_sum_assignment cost with
      | .ok pairs => .ok (buildMapping (inputKeysOf inS) (refKeysOf refS) pairs)
      | .error e => .error e
  | Option.none => .error "TypeError in calculate_field_score"

/-- A one-acquisition, one-series reference session used as concrete data
in the matcher theorems. -/
def refSessionEx : Session :=
  ⟨[("T1w", { fields := [{ field := "SeriesDescription", value := some (.str "T1w") }],
              series := [{ name := "Series 1" }] })]⟩

/-- A two-series input session used as concrete data in the matcher
theorems. -/
def inSessionEx : Session :=
  ⟨[("acqA", { fields := [{ field := "SeriesDescription", value := some (.str "T1w") }],
               series := [{ name := "a" }, { name := "b" }] })]⟩

/-- A two-series reference session used as concrete data in the matcher
theorems. -/
def refSessionEx2 : Session :=
  ⟨[("T1w", { fields := [{ field := "SeriesDescription", value := some (.str "T1w") }],
              series := [{ name := "s1" }, { name := "s2" }] })]⟩

/-- Decidable equality for `Except` results (needed to evaluate matcher
runs on concrete sessions inside proofs). -/
instance {e a : Type} [DecidableEq e] [DecidableEq a] : DecidableEq (Except e a)
  | .ok x, .ok y =>
      match inferInstanceAs (Decidable (x = y)) with
      | isTrue h => isTrue (by rw [h])
      | isFalse h => isFalse fun hc => h (by cases hc; rfl)
  | .error x, .error y =>
      match inferInstanceAs (Decidable (x = y)) with
      | isTrue h => isTrue (by rw [h])
      | isFalse h => isFalse fun hc => h (by cases hc; rfl)
  | .ok _, .error _ => isFalse fun hc => by cases hc
  | .error _, .ok _ => isFalse fun hc => by cases hc

/-!
## `dicompare/compliance.py` — `check_session_compliance_with_json_reference`

The input session is a pandas DataFrame; the reference session reuses the
`Session`/`AcqDef`/`SeriesDef`/`FieldDef` shapes above (the JSON wire
format).  Compliance records are dictionaries whose `expected` and
`message` entries are f-strings; the model keeps them as structured data
(the interpolated payloads) instead of rendered text.
-/

/-- A DataFrame: a fixed column list and rows of cells aligned with it. -/
structure DFrame where
  cols : List String
  rows : List (List Value)
deriving Repr, DecidableEq

/-- Index of a column name. -/
def DFrame.colIdx (df : DFrame) (c : String) : Option Nat :=
  df.cols.indexOf? c

/-- The cell of row `r` in column `c` (meaningful when `c ∈ df.cols` and
rows are aligned). -/
def DFrame.cell (df : DFrame) (r : List Value) (c : String) : Value :=
  match df.colIdx c with
  | some i => r.getD i Value.none
  | Option.none => Value.none

/-- All values of column `c`, in row order. -/
def DFrame.colValues (df : DFrame) (c : String) : List Value :=
  df.rows.map fun r => df.cell r c

/-- `df[df["Acquisition"] == name]`. -/
def DFrame.filterAcquisition (df : DFrame) (name : String) : DFrame :=
  ⟨df.cols, df.rows.filter fun r => df.cell r "Acquisition" = Value.str name⟩

mutual

/-- Python-set hashability of a value (`set(...)` raises `TypeError` on a
list element). -/
def Value.isHashable : Value → Bool
  | .vlist _ => false
  | .tup l => Value.allHashable l
  | _ => true

/-- Hashability of every element of a tuple. -/
def Value.allHashable : List Value → Bool
  | [] => true
  | v :: vs => Value.isHashable v && Value.allHashable vs

end

/-- `contains in val` for a container `val` (`TypeError`, i.e. `none`,
for a substring test with a non-string needle). -/
def pyIn (c : Value) : Value → Option Bool
  | .str s =>
      match c with
      | .str cs => some (decide (cs.data <:+: s.data))
      | _ => Option.none
  | .vlist l => some (l.contains c)
  | .tup l => some (l.contains c)
  | _ => some false

/-- `_row_passes_constraint(actual_value, expected_value, tolerance,
contains)` from `dicompare/compliance.py` (`none` models a raised
`TypeError`). -/
def _row_passes_constraint (actual : Value) (expected : Option Value)
    (tolerance : Option ℚ) (contains : Option Value) : Option Bool :=
  match contains with
  | some c =>
      if actual.isContainer then pyIn c actual else some false
  | Option.none =>
  match tolerance with
  | some tol =>
      if actual.isNum then
        match expected with
        | some e =>
            if e.isNum then
              some (decide (e.asNum - tol ≤ actual.asNum ∧ actual.asNum ≤ e.asNum + tol))
            else Option.none
        | Option.none => Option.none
      else some false
  | Option.none =>
  match expected with
  | some (.vlist el) =>
      (match actual with
        | .vlist al =>
            if Value.allHashable al && Value.allHashable el then
              some (decide (al.toFinset = el.toFinset))
            else Option.none
        | _ => some false)
  | some e => some (decide (actual = e))
  | Option.none => some true

/-- The `value` entry of a compliance record: `None`, a list of distinct
values, or the per-field aggregation of the series phase. -/
inductive RecValue where
  | noneV : RecValue
  | vals : List Value → RecValue
  | agg : List (String × List Value) → RecValue
deriving Repr, DecidableEq

/-- One piece of a series-phase constraint descriptor
(`"value=e ± t"`, `"value(list)=e"`, `"value=e"`, `"contains='c'"`). -/
inductive ConstraintDesc where
  | tolPiece : Value → ℚ → ConstraintDesc
  | listPiece : Value → ConstraintDesc
  | valuePiece : Value → ConstraintDesc
  | containsPiece : Value → ConstraintDesc
deriving Repr, DecidableEq

/-- The `expected` entry of a compliance record (the payloads of the
f-strings built by the source). -/
inductive ExpectedDesc where
  | triple : Option Value → Option ℚ → Option Value → ExpectedDesc
  | containsDesc : Value → ExpectedDesc
  | tolDesc : Value → ℚ → ExpectedDesc
  | valueDesc : Value → ExpectedDesc
  | mappedRequired : ExpectedDesc
  | fieldsRepr : List FieldDef → ExpectedDesc
  | aggDesc : List (String × List ConstraintDesc) → ExpectedDesc
deriving Repr, DecidableEq

/-- One per-field failure message of the series second pass. -/
inductive SeriesFieldMsg where
  | containsFail : String → Value → List Value → SeriesFieldMsg
  | nonNumeric : String → List Value → SeriesFieldMsg
  | tolFail : String → Value → ℚ → List Value → SeriesFieldMsg
  | listFail : String → Value → List Value → SeriesFieldMsg
  | exactFail : String → Value → List Value → SeriesFieldMsg
deriving Repr, DecidableEq

/-- The `message` entry of a compliance record. -/
inductive Msg where
  | fieldNotFound : Msg
  | expectedContains : Value → List Value → Msg
  | mustBeNumeric : List Value → Msg
  | invalidValues : List Value → List Value → Msg
  | listMismatch : List Value → Msg
  | mismatch : List Value → Msg
  | passedMsg : Msg
  | seriesFieldNotFound : String → String → Msg
  | seriesNotFound : String → Msg
  | notMapped : String → Msg
  | seriesFail : List SeriesFieldMsg → Msg
  | seriesPassed : Msg
deriving Repr, DecidableEq

/-- One compliance record. -/
structure CRecord where
  refAcq : Option String
  inAcq : Option String
  series : Option String
  field : Option String
  expected : ExpectedDesc
  value : RecValue
  message : Msg
  passed : Bool
deriving Repr, DecidableEq

/-- Filter by an `Option Bool` predicate (`none` = the row predicate
raised). -/
def optionFilter {α : Type} (p : α → Option Bool) : List α → Option (List α)
  | [] => some []
  | x :: xs =>
      match p x, optionFilter p xs with
      | some b, some ys => some (if b then x :: ys else ys)
      | _, _ => Option.none

/-- The `invalid_values` collection of a `contains` constraint:
`not isinstance(val, (str, list, tuple)) or (contains not in val)`. -/
def containsInvalid (c : Value) : List Value → Option (List Value)
  | [] => some []
  | v :: vs =>
      if v.isContainer then
        match pyIn c v with
        | some b => (containsInvalid c vs).map fun rest => if b then rest else v :: rest
        | Option.none => Option.none
      else (containsInvalid c vs).map fun rest => v :: rest

/-- The `invalid_values` collection of a tolerance constraint (to be run
on all-numeric values): `expected_value - tolerance <= val <=
expected_value + tolerance`; a missing or non-numeric `expected_value`
raises on the first iteration. -/
def tolInvalid (e : Option Value) (tol : ℚ) : List Value → Option (List Value)
  | [] => some []
  | v :: vs =>
      match e with
      | some ev =>
          if ev.isNum then
            (tolInvalid e tol vs).map fun rest =>
              if ev.asNum - tol ≤ v.asNum ∧ v.asNum ≤ ev.asNum + tol then rest
              else v :: rest
          else Option.none
      | Option.none => Option.none

/-- The `invalid_values` collection of a list constraint:
`not isinstance(val, list) or set(val) != set(expected_value)`. -/
def listInvalid (el : List Value) : List Value → Option (List Value)
  | [] => some []
  | v :: vs =>
      match v with
      | .vlist al =>
          if Value.allHashable al && Value.allHashable el then
            (listInvalid el vs).map fun rest =>
              if al.toFinset = el.toFinset then rest else v :: rest
          else Option.none
      | _ => (listInvalid el vs).map fun rest => v :: rest

/-- `series.unique().tolist()`: the distinct values in first-occurrence
order. pandas hashes every cell, so a single unhashable cell (a Python
list, or a tuple containing one) raises `TypeError` (`none`). -/
def uniqueVals (vals : List Value) : Option (List Value) :=
  if vals.all Value.isHashable then some (dedupFirst vals) else Option.none

/-- One iteration of the acquisition-level field loop of
`_check_acquisition_fields`: exactly one record per field definition
(`none` models a raised `TypeError`, including the `unique()` call on a
column holding an unhashable cell). -/
def checkAcqField (refAcqName inAcqName : String) (inAcq : DFrame)
    (fdef : FieldDef) : Option CRecord :=
  if fdef.field ∈ inAcq.cols then
    match uniqueVals (inAcq.colValues fdef.field) with
    | Option.none => Option.none
    | some actualValues =>
        let passRec : CRecord :=
          ⟨some refAcqName, some inAcqName, Option.none, some fdef.field,
            .triple fdef.value fdef.tolerance fdef.contains, .vals actualValues,
            .passedMsg, true⟩
        match fdef.contains with
        | some c =>
            (match containsInvalid c actualValues with
              | some invalid =>
                  if invalid.isEmpty then some passRec
                  else some ⟨some refAcqName, some inAcqName, Option.none, some fdef.field,
                    .containsDesc c, .vals actualValues,
                    .expectedContains c invalid, false⟩
              | Option.none => Option.none)
        | Option.none =>
        match fdef.tolerance with
        | some tol =>
            let nonNumeric := actualValues.filter fun v => !v.isNum
            if ¬ nonNumeric.isEmpty then
              some ⟨some refAcqName, some inAcqName, Option.none, some fdef.field,
                .tolDesc (fdef.value.getD Value.none) tol, .vals actualValues,
                .mustBeNumeric nonNumeric, false⟩
            else
              (match tolInvalid fdef.value tol actualValues with
                | some invalid =>
                    if invalid.isEmpty then some passRec
                    else some ⟨some refAcqName, some inAcqName, Option.none, some fdef.field,
                      .tolDesc (fdef.value.getD Value.none) tol, .vals actualValues,
                      .invalidValues invalid actualValues, false⟩
                | Option.none => Option.none)
        | Option.none =>
        match fdef.value with
        | some (.vlist el) =>
            (match listInvalid el actualValues with
              | some invalid =>
                  if invalid.isEmpty then some passRec
                  else some ⟨some refAcqName, some inAcqName, Option.none, some fdef.field,
                    .valueDesc (.vlist el), .vals actualValues,
                    .listMismatch invalid, false⟩
              | Option.none => Option.none)
        | some e =>
            let invalid := actualValues.filter fun v => !(decide (v = e))
            if invalid.isEmpty then some passRec
            else some ⟨some refAcqName, some inAcqName, Option.none, some fdef.field,
              .valueDesc e, .vals actualValues, .mismatch invalid, false⟩
        | Option.none => some passRec
  else
    some ⟨some refAcqName, some inAcqName, Option.none, some fdef.field,
      .triple fdef.value fdef.tolerance fdef.contains, .noneV,
      .fieldNotFound, false⟩

/-- Outcome of the sequential series-row filter. -/
inductive SeriesFilterOutcome where
  | missing : FieldDef → SeriesFilterOutcome
  | rows : List (List Value) → SeriesFilterOutcome
deriving Repr, DecidableEq

/-- Step 1 of `_check_series_fields`: filter the row set by each series
constraint in turn, stopping at a missing field or an emptied set. -/
def seriesFilterLoop (inAcq : DFrame) : List FieldDef → List (List Value) →
    Option SeriesFilterOutcome
  | [], rows => some (.rows rows)
  | fdef :: rest, rows =>
      if fdef.field ∈ inAcq.cols then
        match optionFilter
            (fun r => _row_passes_constraint (inAcq.cell r fdef.field)
              fdef.value fdef.tolerance fdef.contains) rows with
        | some kept =>
            if kept.isEmpty then some (.rows kept)
            else seriesFilterLoop inAcq rest kept
        | Option.none => Option.none
      else some (.missing fdef)

/-- The constraint-descriptor pieces of one series field. -/
def constraintPieces (fdef : FieldDef) : List ConstraintDesc :=
  (match fdef.value with
    | some e =>
        match fdef.tolerance with
        | some t => [.tolPiece e t]
        | Option.none =>
            match e with
            | .vlist _ => [.listPiece e]
            | _ => [.valuePiece e]
    | Option.none => []) ++
    (match fdef.contains with
      | some c => [.containsPiece c]
      | Option.none => [])

/-- Step 2 of `_check_series_fields` for one field: re-validate the
distinct surviving values, producing an optional failure message
(`none` in the outer `Option` models a raised `TypeError`). -/
def seriesFieldCheck (fdef : FieldDef) (values : List Value) :
    Option (Option SeriesFieldMsg) :=
  match fdef.contains with
  | some c =>
      (match containsInvalid c values with
        | some invalid =>
            some (if invalid.isEmpty then Option.none
              else some (.containsFail fdef.field c invalid))
        | Option.none => Option.none)
  | Option.none =>
  match fdef.tolerance with
  | some tol =>
      let nonNumeric := values.filter fun v => !v.isNum
      if ¬ nonNumeric.isEmpty then some (some (.nonNumeric fdef.field nonNumeric))
      else
        (match tolInvalid fdef.value tol values with
          | some invalid =>
              some (if invalid.isEmpty then Option.none
                else some (.tolFail fdef.field (fdef.value.getD Value.none) tol invalid))
          | Option.none => Option.none)
  | Option.none =>
  match fdef.value with
  | some (.vlist el) =>
      (match listInvalid el values with
        | some invalid =>
            some (if invalid.isEmpty then Option.none
              else some (.listFail fdef.field (.vlist el) invalid))
        | Option.none => Option.none)
  | some e =>
      let invalid := values.filter fun v => !(decide (v = e))
      some (if invalid.isEmpty then Option.none else some (.exactFail fdef.field e invalid))
  | Option.none => some Option.none

/-- `_check_series_fields`: one record per reference series. -/
def checkSeriesFields (refAcqName inAcqName : String) (inAcq : DFrame)
    (sdef : SeriesDef) : Option CRecord :=
  match seriesFilterLoop inAcq sdef.fields inAcq.rows with
  | Option.none => Option.none
  | some (.missing fdef) =>
      some ⟨some refAcqName, some inAcqName, some sdef.name, some fdef.field,
        .triple fdef.value fdef.tolerance fdef.contains, .noneV,
        .seriesFieldNotFound fdef.field sdef.name, false⟩
  | some (.rows kept) =>
      if kept.isEmpty then
        some ⟨some refAcqName, some inAcqName, some sdef.name,
          some (String.intercalate ", " (sdef.fields.map (·.field))),
          .fieldsRepr sdef.fields, .noneV, .seriesNotFound sdef.name, false⟩
      else
        let keptDf : DFrame := ⟨inAcq.cols, kept⟩
        match traverseOpt
            (fun fdef =>
              match uniqueVals (keptDf.colValues fdef.field) with
              | some uvals =>
                  (seriesFieldCheck fdef uvals).map fun m => (fdef, uvals, m)
              | Option.none => Option.none)
            sdef.fields with
        | some checks =>
            let failMsgs := checks.filterMap fun t => t.2.2
            let valueAgg := checks.map fun t => (t.1.field, t.2.1)
            let expAgg := checks.map fun t => (t.1.field, constraintPieces t.1)
            if failMsgs.isEmpty then
              some ⟨some refAcqName, some inAcqName, some sdef.name,
                some (String.intercalate ", " (sdef.fields.map (·.field))),
                .aggDesc expAgg, .agg valueAgg, .seriesPassed, true⟩
            else
              some ⟨some refAcqName, some inAcqName, some sdef.name,
                some (String.intercalate ", " (sdef.fields.map (·.field))),
                .aggDesc expAgg, .agg valueAgg, .seriesFail failMsgs, false⟩
        | Option.none => Option.none

/-- `check_session_compliance_with_json_reference(in_session, ref_session,
session_map)`: unmapped-reference records first, then per mapped pair the
acquisition-level records followed by one record per reference series. -/
def check_session_compliance_with_json_reference (inSession : DFrame)
    (refSession : Session) (sessionMap : List (String × String)) :
    Option (List CRecord) :=
  let unmapped := refSession.acquisitions.filterMap fun p =>
    if sessionMap.any fun q => q.1 = p.1 then Option.none
    else some ⟨some p.1, Option.none, Option.none, Option.none,
      .mappedRequired, .noneV, .notMapped p.1, false⟩
  match traverseOpt
      (fun (m : String × String) =>
        let refAcq := ((refSession.acquisitions.find? fun p => p.1 = m.1).map
          fun p => p.2).getD ⟨[], []⟩
        let inAcq := inSession.filterAcquisition m.2
        match traverseOpt (checkAcqField m.1 m.2 inAcq) refAcq.fields,
            traverseOpt (checkSeriesFields m.1 m.2 inAcq) refAcq.series with
        | some ars, some srs => some (ars ++ srs)
        | _, _ => Option.none)
      sessionMap with
  | some recss => some (unmapped ++ recss.flatten)
  | Option.none => Option.none

/-- Spec-side restatement of the series filter without the empty-set
short-circuit (used to state claim C4's "some filter step leaves the
surviving set empty" condition; filtering an empty set stays empty, so it
agrees with the short-circuiting loop on present fields). -/
def seqFilterAll (inAcq : DFrame) : List FieldDef → List (List Value) →
    Option (List (List Value))
  | [], rows => some rows
  | fdef :: rest, rows =>
      match optionFilter
          (fun r => _row_passes_constraint (inAcq.cell r fdef.field)
            fdef.value fdef.tolerance fdef.contains) rows with
      | some kept => seqFilterAll inAcq rest kept
      | Option.none => Option.none

/-- Is a series record one of the two "not found" failures (missing field
or emptied surviving set), as opposed to an aggregated verdict? -/
def recordIsNotFound (r : CRecord) : Bool :=
  match r.message with
  | .seriesFieldNotFound _ _ => true
  | .seriesNotFound _ => true
  | _ => false

/-- The per-field behaviour claimed for the acquisition-level phase: one
record per field definition; a missing field yields the failing
"field not found" record; a present field yields a record listing the
distinct values, failing exactly when some distinct value violates the
per-value constraint (the row-filter predicate). -/
def AcqFieldClaim (inAcq : DFrame) (fdef : FieldDef) (r : CRecord) : Prop :=
  (fdef.field ∉ inAcq.cols →
    r.passed = false ∧ r.message = .fieldNotFound ∧ r.value = .noneV) ∧
  (fdef.field ∈ inAcq.cols →
    r.value = .vals (dedupFirst (inAcq.colValues fdef.field)) ∧
      (r.passed = false ↔ ∃ v ∈ dedupFirst (inAcq.colValues fdef.field),
        _row_passes_constraint v fdef.value fdef.tolerance fdef.contains = some false))

/-- Schema-side well-formedness of one field definition: a tolerance
comes with a numeric expected value, a `contains` needle is a string, and
a list-valued expectation has hashable elements (the wire format of §6;
violations are the fatal `StructuralSchemaError` conditions, outside the
per-field claims). -/
def FieldDefWF (fdef : FieldDef) : Prop :=
  (∀ t, fdef.tolerance = some t → ∃ q, fdef.value = some (.num q)) ∧
  (∀ c, fdef.contains = some c → c.isStr = true) ∧
  (∀ el, fdef.value = some (.vlist el) → Value.allHashable el = true)

/-- Data-side safety of one field against a table: every cell of the
column is hashable (`series.unique()` hashes each cell, so a Python-list
cell raises `TypeError` before any constraint is checked). -/
def FieldDataOK (inAcq : DFrame) (fdef : FieldDef) : Prop :=
  ∀ v ∈ inAcq.colValues fdef.field, Value.isHashable v = true

/-- The concrete input acquisition of the C4 scenario: three rows with
`SliceThickness` values `1.0, 1.0, 3.0`. -/
def inAcqEx : DFrame :=
  ⟨["Acquisition", "SliceThickness"],
    [[.str "acq-a", .num 1], [.str "acq-a", .num 1], [.str "acq-a", .num 3]]⟩

/-- The C4 scenario field constraint: `SliceThickness = 1.0 ± 0`. -/
def fdefEx : FieldDef :=
  { field := "SliceThickness", value := some (.num 1), tolerance := some 0 }

/-- The C4 scenario series constraint: `SliceThickness = 1.0 ± 0`. -/
def sdefEx : SeriesDef :=
  ⟨"Series 1", [{ field := "SliceThickness", value := some (.num 1), tolerance := some 0 }]⟩

/-- The record the C4 scenario produces: the series is found and the
aggregated record passes on the surviving subset (distinct surviving
value `1.0` only). -/
def scenarioRec : CRecord :=
  ⟨some "T1", some "acq-a", some "Series 1", some "SliceThickness",
    .aggDesc [("SliceThickness", [.tolPiece (.num 1) 0])],
    .agg [("SliceThickness", [.num 1])], .seriesPassed, true⟩

/-- The per-value pass test of a list-valued expectation:
`isinstance(val, list) and set(val) == set(expected)` (on hashable
contents). -/
def listEqCheck (el : List Value) : Value → Bool
  | .vlist al => decide (al.toFinset = el.toFinset)
  | _ => false

/-!
### The python-module compliance path (`check_session_compliance_with_python_module`)
-/

/-- A raised Python exception of the python-module path. -/
inductive PyErr where
  | keyError : String → PyErr
  | valueError : String → PyErr
deriving Repr, DecidableEq

/-- `Except`-valued traversal, propagating the first raised exception. -/
def traverseExcept {ε α β : Type} (f : α → Except ε β) : List α → Except ε (List β)
  | [] => .ok []
  | x :: xs =>
      match f x with
      | .error e => .error e
      | .ok y =>
          match traverseExcept f xs with
          | .error e => .error e
          | .ok ys => .ok (y :: ys)

mutual

/-- `make_hashable` (dicompare/validation.py): lists and tuples become
tuples recursively; the other modelled values are already hashable
(dicts and sets do not occur among modelled cell values). -/
def make_hashable : Value → Value
  | .vlist l => .tup (makeHashableList l)
  | .tup l => .tup (makeHashableList l)
  | .num q => .num q
  | .str s => .str s
  | .none => .none

/-- `make_hashable` element-wise. -/
def makeHashableList : List Value → List Value
  | [] => []
  | v :: vs => make_hashable v :: makeHashableList vs

end

/-- Type rank used to totalize cross-type comparisons. -/
def Value.rank : Value → Nat
  | .num _ => 0
  | .str _ => 1
  | .tup _ => 2
  | .vlist _ => 3
  | .none => 4

mutual

/-- A total comparison on modelled values, used where pandas sorts group
keys. Python raises `TypeError` when ordering values of different types;
the model totalizes those cases by a fixed type rank (the theorems only
instantiate homogeneously-typed keys, where the model agrees with
Python). -/
def Value.cmp : Value → Value → Ordering
  | .num a, .num b => compare a b
  | .str a, .str b => compare a b
  | .tup a, .tup b => Value.cmpList a b
  | .vlist a, .vlist b => Value.cmpList a b
  | a, b => compare a.rank b.rank

/-- Lexicographic comparison of value tuples. -/
def Value.cmpList : List Value → List Value → Ordering
  | [], [] => .eq
  | [], _ :: _ => .lt
  | _ :: _, [] => .gt
  | a :: as, b :: bs =>
      match Value.cmp a b with
      | .eq => Value.cmpList as bs
      | o => o

end

/-- Insert into a `le`-sorted list. -/
def insertSorted {α : Type} (le : α → α → Bool) (x : α) : List α → List α
  | [] => [x]
  | y :: ys => if le x y then x :: y :: ys else y :: insertSorted le x ys

/-- Stable insertion sort by a boolean `le`. -/
def sortByLe {α : Type} (le : α → α → Bool) : List α → List α
  | [] => []
  | x :: xs => insertSorted le x (sortByLe le xs)

/-- `get_unique_combinations(data, fields)` (dicompare/validation.py):
every cell is made hashable, then the frame is reduced to one row per
distinct `fields`-tuple (group keys sorted, `dropna=False`), and every
non-key column is blanked to `None` when its values vary inside some
group of a second, `dropna=True` groupby, else filled positionally with
that groupby's per-group first values. A grouping column absent from the
frame raises `KeyError`; a positional fill whose length differs from the
frame length raises `ValueError`. -/
def get_unique_combinations (data : DFrame) (fields : List String) :
    Except PyErr DFrame :=
  match fields.find? fun f => !(data.cols.contains f) with
  | some f => .error (.keyError f)
  | Option.none =>
    let hashed : DFrame := ⟨data.cols, data.rows.map makeHashableList⟩
    let keyOf : List Value → List Value := fun r => fields.map fun f => hashed.cell r f
    let distinctKeys := sortByLe (fun a b => !(Value.cmpList a b == .gt))
      (dedupFirst (hashed.rows.map keyOf))
    let groupRows : List Value → List (List Value) := fun k =>
      hashed.rows.filter fun r => decide (keyOf r = k)
    let otherCols := data.cols.filter fun c => !(fields.contains c)
    let droppedKeys := distinctKeys.filter fun k =>
      k.all fun v => !(decide (v = Value.none))
    match traverseExcept
        (fun c =>
          let counts := droppedKeys.map fun k =>
            (dedupFirst ((groupRows k).map fun r => hashed.cell r c)).length
          if counts.foldl Nat.max 0 == 1 then
            let firsts := droppedKeys.map fun k =>
              hashed.cell ((groupRows k).headD []) c
            if firsts.length == distinctKeys.length then Except.ok firsts
            else .error (.valueError "Length of values does not match length of index")
          else .ok (distinctKeys.map fun _ => Value.none))
        otherCols with
    | .error e => .error e
    | .ok colVals =>
        .ok ⟨fields ++ otherCols,
          (List.range distinctKeys.length).map fun i =>
            (distinctKeys.getD i []) ++ colVals.map fun cv => cv.getD i Value.none⟩

/-- One dictionary value of a validation-result record. -/
inductive RVal where
  | noneR : RVal
  | s : String → RVal
  | v : Value → RVal
  | b : Bool → RVal
  | dictList : List (String × List Value) → RVal
deriving Repr, DecidableEq

/-- Python dict lookup by string key (`None` = `KeyError`). -/
def vlookup (r : List (String × RVal)) (k : String) : Option RVal :=
  (r.find? fun p => p.1 == k).map (·.2)

/-- One `@validator`-decorated callable of a validation model: its field
group, its rule message, and its behaviour on the filtered
unique-combination frame — `some msg` models raising
`ValidationError(msg)`, `none` a normal return (the callables are
user-supplied code, opaque to this repository). -/
structure FieldValidator where
  fieldNames : List String
  ruleMessage : String
  run : DFrame → Option String

/-- A `BaseValidationModel` subclass: its registered field validators in
definition order. -/
structure PModel where
  validators : List FieldValidator

/-- `BaseValidationModel.validate(data)`: per acquisition (first-seen
order of `data["Acquisition"].unique()`) and per field validator, build
the unique-combination frame and run the callable; a raised
`ValidationError` appends an error dict, a normal return a pass dict,
each with exactly the keys `acquisition`, `field`, `rule`, `value`,
`message`, `passed`. Returns (overall success, errors, passes); a missing
`Acquisition` column raises `KeyError`. -/
def PModel.validate (m : PModel) (data : DFrame) :
    Except PyErr (Bool × List (List (String × RVal)) × List (List (String × RVal))) :=
  if "Acquisition" ∈ data.cols then
    match traverseExcept
        (fun a =>
          let acqData : DFrame := ⟨data.cols, data.rows.filter fun r =>
            decide (data.cell r "Acquisition" = a)⟩
          traverseExcept
            (fun fv =>
              match get_unique_combinations acqData fv.fieldNames with
              | .error e => .error e
              | .ok filtered =>
                  let base : List (String × RVal) :=
                    [("acquisition", .v a),
                     ("field", .s (String.intercalate ", " fv.fieldNames)),
                     ("rule", .s fv.ruleMessage),
                     ("value", .dictList (fv.fieldNames.map fun f =>
                       (f, filtered.colValues f)))]
                  match fv.run filtered with
                  | some msg =>
                      .ok (false, base ++ [("message", .s msg), ("passed", .b false)])
                  | Option.none =>
                      .ok (true, base ++ [("message", .noneR), ("passed", .b true)]))
            m.validators)
        (dedupFirst (data.colValues "Acquisition")) with
    | .error e => .error e
    | .ok recss =>
        let recs := recss.flatten
        let errors := (recs.filter fun p => !p.1).map (·.2)
        let passes := (recs.filter fun p => p.1).map (·.2)
        .ok (errors.isEmpty, errors, passes)
  else .error (.keyError "Acquisition")

/-- The compliance record built from one `validate` result dict: the dict
literal reads `rec["field"]`, `rec["value"]`, `rec["expected"]`,
`rec["message"]` in key order, raising `KeyError` at the first absent
key. -/
def recordFromValidate (refA inn passedMark : String)
    (e : List (String × RVal)) : Except PyErr (List (String × RVal)) :=
  match vlookup e "field" with
  | Option.none => .error (.keyError "field")
  | some fv =>
  match vlookup e "value" with
  | Option.none => .error (.keyError "value")
  | some vv =>
  match vlookup e "expected" with
  | Option.none => .error (.keyError "expected")
  | some ev =>
  match vlookup e "message" with
  | Option.none => .error (.keyError "message")
  | some mv =>
    .ok [("reference acquisition", .s refA), ("reference series", .noneR),
      ("input acquisition", .s inn), ("input series", .noneR),
      ("field", fv), ("value", vv), ("expected", ev), ("message", mv),
      ("passed", .s passedMark)]

/-- The record for an input acquisition absent from the data. -/
def emptyAcqRec (refA inn : String) : List (String × RVal) :=
  [("reference acquisition", .s refA), ("input acquisition", .s inn),
   ("field", .s "Acquisition-Level Error"), ("value", .noneR),
   ("expected", .s "Specified input acquisition must be present."),
   ("message", .s ("Input acquisition '" ++ inn ++ "' not found in data.")),
   ("passed", .s "❌")]

/-- The record for a reference acquisition without a registered model. -/
def noModelRec (refA inn : String) : List (String × RVal) :=
  [("reference acquisition", .s refA), ("input acquisition", .s inn),
   ("field", .s "Model Error"), ("value", .noneR),
   ("expected", .s "Reference model must exist."),
   ("message", .s ("No model found for reference acquisition '" ++ refA ++ "'.")),
   ("passed", .s "❌")]

/-- The per-pair loop of `check_session_compliance_with_python_module`. -/
def pmComplianceLoop (inSession : DFrame) (refModels : List (String × PModel))
    (raiseErrors : Bool) :
    List (String × String) → Except PyErr (List (List (String × RVal)))
  | [] => .ok []
  | (refA, inn) :: rest =>
      let inAcq := inSession.filterAcquisition inn
      if inAcq.rows.isEmpty then
        match pmComplianceLoop inSession refModels raiseErrors rest with
        | .error e => .error e
        | .ok tail => .ok (emptyAcqRec refA inn :: tail)
      else
        match refModels.find? fun p => p.1 == refA with
        | Option.none =>
            match pmComplianceLoop inSession refModels raiseErrors rest with
            | .error e => .error e
            | .ok tail => .ok (noModelRec refA inn :: tail)
        | some pm =>
            match pm.2.validate inAcq with
            | .error e => .error e
            | .ok (success, errors, passes) =>
                match traverseExcept (recordFromValidate refA inn "❌") errors with
                | .error e => .error e
                | .ok errRecs =>
                match traverseExcept (recordFromValidate refA inn "✅") passes with
                | .error e => .error e
                | .ok passRecs =>
                    if raiseErrors && !success then
                      .error (.valueError
                        ("Validation failed for acquisition '" ++ inn ++ "'."))
                    else
                      match pmComplianceLoop inSession refModels raiseErrors rest with
                      | .error e => .error e
                      | .ok tail => .ok (errRecs ++ passRecs ++ tail)

/-- `check_session_compliance_with_python_module(in_session, ref_models,
session_map, raise_errors)`. -/
def check_session_compliance_with_python_module (inSession : DFrame)
    (refModels : List (String × PModel)) (sessionMap : List (String × String))
    (raiseErrors : Bool) : Except PyErr (List (List (String × RVal))) :=
  pmComplianceLoop inSession refModels raiseErrors sessionMap

/-- A validation model with one field validator on `SliceThickness` that
always raises `ValidationError` (an always-failing rule). -/
def pmodelEx : PModel :=
  ⟨[⟨["SliceThickness"], "SliceThickness must equal 1",
    fun _ => some "SliceThickness check failed"⟩]⟩

/-- A one-row input session for the C8 run. -/
def inSessionEx8 : DFrame :=
  ⟨["Acquisition", "SliceThickness"], [[.str "acq-a", .num 1]]⟩

/-!
### Acquisition labeling (`dicompare/acquisition.py`)
-/

/-- The forbidden characters of `clean_string` (backtick, punctuation,
brackets, backslash, space). -/
def forbidden_chars : String := "`~!@#$%^&*()_+-=[]\\\x7b\x7d|;':,.<>?/\\ "

/-- `clean_string(s)` — `dicompare/utils.py` is absent from the source
tree; the model follows the sibling implementation in
`dcm_check/utils.py` (the spec's `cleaned(...)`): every forbidden
character is removed and the result is lowercased (the Python loop
removes one character class per iteration and lowercases each time,
which amounts to one removal pass plus lowercasing, as no forbidden
character is a letter). -/
def clean_string (s : String) : String :=
  String.mk ((s.data.filter fun c => !(forbidden_chars.data.contains c)).map Char.toLower)

/-- `df[c] = vals`: replace column `c` positionally, creating it at the
right end when absent (pandas column assignment). -/
def DFrame.setCol (df : DFrame) (c : String) (vals : List Value) : DFrame :=
  match df.colIdx c with
  | some i => ⟨df.cols, (df.rows.zip vals).map fun p => p.1.set i p.2⟩
  | Option.none => ⟨df.cols ++ [c], (df.rows.zip vals).map fun p => p.1 ++ [p.2]⟩

/-- `_validate_and_setup_fields` as it acts on the frame: create
`ProtocolName` from `SeriesDescription` (or the scalar `"Unknown"`) when
absent, then `fillna("Unknown").astype(str)` it in place. -/
def _validate_and_setup_fields (df : DFrame) : DFrame :=
  let df1 :=
    if "ProtocolName" ∈ df.cols then df
    else if "SeriesDescription" ∈ df.cols then
      df.setCol "ProtocolName" (df.rows.map fun r => df.cell r "SeriesDescription")
    else df.setCol "ProtocolName" (df.rows.map fun _ => .str "Unknown")
  df1.setCol "ProtocolName" (df1.rows.map fun r =>
    match df1.cell r "ProtocolName" with
    | Value.none => .str "Unknown"
    | v => .str (pyStr v))

/-- The in-place `make_hashable` pass over every column of the frame. -/
def hashFrame (df : DFrame) : DFrame :=
  ⟨df.cols, df.rows.map makeHashableList⟩

/-- `"acq-" + clean_string("-".join(str(val) if notnull else "NA"))` over
the acquisition-field values of one row. -/
def baseAcqStr (df : DFrame) (acqF : List String) (r : List Value) : String :=
  "acq-" ++ clean_string (String.intercalate "-" (acqF.map fun f =>
    match df.cell r f with
    | Value.none => "NA"
    | v => pyStr v))

/-- The frame after the hashable pass and the `BaseAcquisition` column. -/
def withBase (df0 : DFrame) (acqF : List String) : DFrame :=
  (hashFrame df0).setCol "BaseAcquisition"
    ((hashFrame df0).rows.map fun r => .str (baseAcqStr (hashFrame df0) acqF r))

/-- The grouping fields of one protocol group: the reference (settings)
fields present in the columns, plus `CoilType` whenever that column
exists. -/
def groupingFieldsOf (cols : List String) (refF : List String) : List String :=
  refF.filter (· ∈ cols) ++ (if "CoilType" ∈ cols then ["CoilType"] else [])

/-- The grouping-key tuple of one row. -/
def keyTuple (df : DFrame) (gf : List String) (r : List Value) : List Value :=
  gf.map fun f => df.cell r f

/-- No component of the key is missing (pandas `groupby` drops rows whose
key contains `NaN`). -/
def noneFree (k : List Value) : Bool :=
  k.all fun v => !(decide (v = Value.none))

/-- The rows of one `ProtocolName` group, in frame order. -/
def protocolGroup (df : DFrame) (p : Value) : List (List Value) :=
  df.rows.filter fun q => decide (df.cell q "ProtocolName" = p)

/-- `list(protocol_group.groupby(grouping_fields))`: the distinct
none-free key tuples of the protocol group, in pandas sorted key
order. -/
def combosOf (df : DFrame) (gf : List String) (p : Value) : List (List Value) :=
  sortByLe (fun a b => !(Value.cmpList a b == .gt))
    (dedupFirst (((protocolGroup df p).map (keyTuple df gf)).filter noneFree))

/-- The `AcquisitionSignature` value the `build_acquisition_signatures`
loop assigns to one row of the (hashable-passed, `BaseAcquisition`-bearing)
frame: `none` when the loop never touches the row (missing protocol, or a
key containing a missing value). The counter of a combination is one plus
its position in the sorted enumeration of distinct combinations; the
suffix is attached only when the protocol group has more than one
combination. -/
def sigOf (df : DFrame) (gf : List String) (r : List Value) : Option Value :=
  let p := df.cell r "ProtocolName"
  if decide (p = Value.none) then Option.none
  else if gf.isEmpty then
    some (df.cell ((protocolGroup df p).headD []) "BaseAcquisition")
  else
    let k := keyTuple df gf r
    if noneFree k then
      let combos := combosOf df gf p
      let firstRow := ((protocolGroup df p).filter
        fun q => decide (keyTuple df gf q = k)).headD []
      if combos.length > 1 then
        let base := match df.cell firstRow "BaseAcquisition" with
          | .str s => s
          | v => pyStr v
        some (.str (base ++ "-" ++ natStr (1 + combos.indexOf k)))
      else some (df.cell firstRow "BaseAcquisition")
    else Option.none

/-- `build_acquisition_signatures(session_df, acquisition_fields,
reference_fields)`: hashable pass, `BaseAcquisition` column, then the
per-protocol signature loop; the `AcquisitionSignature` column comes into
being with the loop's first `.loc` assignment, so it exists exactly when
some row receives a signature. A missing acquisition or `ProtocolName`
column raises `KeyError` (`none`). -/
def build_acquisition_signatures (df0 : DFrame) (acqF refF : List String) :
    Option DFrame :=
  if acqF.all (· ∈ df0.cols) && decide ("ProtocolName" ∈ df0.cols) then
    let df2 := withBase df0 acqF
    let gf := groupingFieldsOf df2.cols refF
    if df2.rows.any fun r => (sigOf df2 gf r).isSome then
      some (df2.setCol "AcquisitionSignature"
        (df2.rows.map fun r => (sigOf df2 gf r).getD Value.none))
    else some df2
  else Option.none

/-- The first two steps of `assign_acquisition_and_run_numbers` — field
setup and signature building — which perform every in-place mutation of
the caller's frame other than the later `RunNumber` and `Acquisition`
column writes. -/
def setupAndBuildSignatures (df : DFrame) (refF : List String) : Option DFrame :=
  build_acquisition_signatures (_validate_and_setup_fields df) ["ProtocolName"] refF

/-- Spec-side numbering (claim C7's words): the signature of a row when
distinct settings-tuples are numbered 1-based in the order they are
first observed inside the protocol partition, instead of in sorted key
order. -/
def sigOfFirstObserved (df : DFrame) (gf : List String) (r : List Value) :
    Option Value :=
  let p := df.cell r "ProtocolName"
  if decide (p = Value.none) then Option.none
  else if gf.isEmpty then
    some (df.cell ((protocolGroup df p).headD []) "BaseAcquisition")
  else
    let k := keyTuple df gf r
    if noneFree k then
      let combos := dedupFirst
        (((protocolGroup df p).map (keyTuple df gf)).filter noneFree)
      let firstRow := ((protocolGroup df p).filter
        fun q => decide (keyTuple df gf q = k)).headD []
      if combos.length > 1 then
        let base := match df.cell firstRow "BaseAcquisition" with
          | .str s => s
          | v => pyStr v
        some (.str (base ++ "-" ++ natStr (1 + combos.indexOf k)))
      else some (df.cell firstRow "BaseAcquisition")
    else Option.none

/-- Rectangular frame: every row has one cell per column. -/
def DFrame.WF (df : DFrame) : Prop :=
  ∀ r ∈ df.rows, r.length = df.cols.length

/-- The label of record `i` of a frame carrying the signature column. -/
def acqLabel (out : DFrame) (i : Nat) : Value :=
  out.cell (out.rows.getD i []) "AcquisitionSignature"

/-- C1's counterexample frame: two records agreeing on the protocol and
on every settings field, differing only in `CoilType`. -/
def c1df : DFrame :=
  ⟨["ProtocolName", "SliceThickness", "CoilType"],
    [[.str "A", .num 1, .str "Combined"], [.str "A", .num 1, .str "Uncombined"]]⟩

/-- C7's counterexample frame: the settings-tuple observed first
(`SliceThickness = 2`) is not the smallest in sorted order. -/
def c7df : DFrame :=
  ⟨["ProtocolName", "SliceThickness"],
    [[.str "A", .num 2], [.str "A", .num 1]]⟩

/-- C9's counterexample frame: one record with a list-valued cell. -/
def c9df : DFrame :=
  ⟨["ProtocolName", "EchoTimes"],
    [[.str "A", .vlist [.num 1, .num 2]]]⟩

/-- The frame `build_acquisition_signatures` returns on `c1df`. -/
def c1out : DFrame :=
  ⟨["ProtocolName", "SliceThickness", "CoilType", "BaseAcquisition",
      "AcquisitionSignature"],
    [[.str "A", .num 1, .str "Combined", .str "acq-a", .str "acq-a-1"],
     [.str "A", .num 1, .str "Uncombined", .str "acq-a", .str "acq-a-2"]]⟩

/-- The frame `build_acquisition_signatures` returns on `c7df`. -/
def c7out : DFrame :=
  ⟨["ProtocolName", "SliceThickness", "BaseAcquisition", "AcquisitionSignature"],
    [[.str "A", .num 2, .str "acq-a", .str "acq-a-2"],
     [.str "A", .num 1, .str "acq-a", .str "acq-a-1"]]⟩

/-- The caller-visible frame after the setup and signature steps on
`c9df`. -/
def c9out : DFrame :=
  ⟨["ProtocolName", "EchoTimes", "BaseAcquisition", "AcquisitionSignature"],
    [[.str "A", .tup [.num 1, .num 2], .str "acq-a", .str "acq-a"]]⟩

/-- C3's counterexample frame: the constrained column holds a Python-list
cell, which `series.unique()` cannot hash. -/
def c3df : DFrame :=
  ⟨["Acquisition", "EchoTimes"], [[.str "acq-a", .vlist [.num 1, .num 2]]]⟩

/-- C3's counterexample constraint on the list-valued column. -/
def fdefEx3 : FieldDef :=
  { field := "EchoTimes", value := some (.vlist [.num 1, .num 2]) }
/-!
# Theorems

Everything below this point is a theorem about the definitions above.
-/

/-!
### Correctness of the DP on identical strings

For `s1 = s2 = s` the DP row after `i` outer steps is
`[dist i 0, dist i 1, …, dist i n]` (`Nat.dist`), because the Levenshtein
distance between two prefixes of the same string is the difference of
their lengths.
-/

theorem levInner_dist (c1 : Char) :
    ∀ (s2 : List Char) (i j0 : Nat),
      (∀ k c, j0 + k = i → s2.get? k = some c → c = c1) →
      levInner c1 s2 ((List.range' j0 (s2.length + 1)).map (Nat.dist i))
          (Nat.dist (i + 1) j0)
        = (List.range' (j0 + 1) s2.length).map (Nat.dist (i + 1))
  | [], i, j0, _ => by simp [levInner]
  | c2 :: rest, i, j0, hdiag => by
      have hcur : min (Nat.dist i (j0 + 1) + 1)
          (min (Nat.dist (i + 1) j0 + 1)
            (Nat.dist i j0 + if c1 = c2 then 0 else 1))
          = Nat.dist (i + 1) (j0 + 1) := by
        rcases eq_or_ne j0 i with h | h
        · have hc : c2 = c1 := hdiag 0 c2 (by omega) (by simp)
          subst hc h
          simp [Nat.dist]
        · rcases eq_or_ne c1 c2 with hc | hc <;> simp only [hc, Nat.dist] <;>
            split <;> omega
      have ih := levInner_dist c1 rest i (j0 + 1)
        (fun k c hk hg => hdiag (k + 1) c (by omega) (by simpa using hg))
      simp only [List.length_cons]
      rw [List.range'_succ j0 _ 1, List.range'_succ (j0 + 1) _ 1]
      simp only [List.map_cons, levInner]
      rw [hcur]
      rw [List.range'_succ (j0 + 1) _ 1] at ih
      simp only [List.map_cons] at ih
      rw [ih]

theorem levOuter_dist (s : List Char) :
    ∀ (suffix : List Char) (i : Nat), suffix = s.drop i → i + suffix.length = s.length →
      levOuter s suffix ((List.range' 0 (s.length + 1)).map (Nat.dist i)) i
        = (List.range' 0 (s.length + 1)).map (Nat.dist s.length)
  | [], i, _, hlen => by
      simp only [List.length_nil, Nat.add_zero] at hlen
      subst hlen; rfl
  | c1 :: rest, i, hsuf, hlen => by
      have hget : s.get? i = some c1 := by
        have h0 : (s.drop i).get? 0 = s.get? (i + 0) := List.get?_drop s i 0
        rw [← hsuf] at h0
        simpa using h0.symm
      have hd0 : Nat.dist (i + 1) 0 = i + 1 := by simp [Nat.dist]
      have hinner := levInner_dist c1 s i 0
        (fun k c hk hg => by
          have hki : k = i := by omega
          subst hki
          rw [hg] at hget
          exact (Option.some.injEq _ _).mp hget.symm |>.symm)
      rw [hd0] at hinner
      have hrest : rest = s.drop (i + 1) := by
        have ht := List.tail_drop s i
        rw [← hsuf] at ht
        simpa using ht
      show levOuter s rest
          ((i + 1) :: levInner c1 s ((List.range' 0 (s.length + 1)).map (Nat.dist i)) (i + 1))
          (i + 1)
        = (List.range' 0 (s.length + 1)).map (Nat.dist s.length)
      rw [hinner]
      have hcons : (List.range' 0 (s.length + 1)).map (Nat.dist (i + 1))
          = (i + 1) :: (List.range' (0 + 1) s.length).map (Nat.dist (i + 1)) := by
        rw [List.range'_succ 0 _ 1, List.map_cons, hd0]
      rw [← hcons]
      have hlen' : (i + 1) + rest.length = s.length := by
        simp only [List.length_cons] at hlen; omega
      exact levOuter_dist s rest (i + 1) hrest hlen'

theorem levCore_self (s : List Char) : levCore s s = 0 := by
  unfold levCore
  have hinit : List.range (s.length + 1)
      = (List.range' 0 (s.length + 1)).map (Nat.dist 0) := by
    rw [List.range_eq_range']
    rw [List.map_congr_left (fun a _ => Nat.dist_zero_left a)]
    simp
  rw [hinit, levOuter_dist s s 0 (by simp) (by simp)]
  have hsplit : List.range' 0 (s.length + 1) = List.range' 0 s.length ++ [s.length] := by
    have h : List.range' 0 (s.length + 1) 1 =
        List.range' 0 s.length 1 ++ [0 + 1 * s.length] :=
      List.range'_concat 0 s.length
    simpa using h
  rw [hsplit]
  simp [Nat.dist_self]

/-- The distance of a string to itself is `0` (needed for reflexivity of
the field score on non-wildcard values). -/
theorem levenshtein_self (s : String) : levenshtein_distance s s = 0 := by
  unfold levenshtein_distance
  simp [levCore_self]

/-!
### Claim C5 — reflexivity of the field score

The claim `score(x, x, tolerance=t) = 0` fails on wildcard strings: the
translated pattern need not match the string it was derived from (the
regex metacharacter `$` survives translation).  On every non-wildcard
value reflexivity holds.
-/

/-- Pairs drawn from `l.zip l` have equal components. -/
theorem zip_self_eq {α : Type} : ∀ (l : List α) (p : α × α), p ∈ l.zip l → p.1 = p.2
  | [], _, hp => by simp [List.zip] at hp
  | a :: rest, p, hp => by
      rw [List.zip_cons_cons] at hp
      rcases List.mem_cons.mp hp with h | h
      · subst h; rfl
      · exact zip_self_eq rest p h

/-- C5 (counterexample): the field-distance function is not reflexive as
claimed: on the wildcard string `"$*"` (whose translated pattern
`^$.*$` cannot match the two-character subject `"$*"`), the self-score is
the fixed pattern penalty `5`, not `0`, already at tolerance `0`. -/
theorem c5_wildcard_reflexivity_fails :
    calculate_field_score (.str "$*") (.str "$*") (some 0) Option.none = some 5 ∧
      (5 : ℚ) ≠ 0 := by
  constructor
  · have h : translatePattern "$*" = some [.dollar, .star] := rfl
    simp [calculate_field_score, isWildcardValue, isWildcardPattern, h, reMatch,
      MAX_DIFF_SCORE]
    norm_num
  · norm_num

/-- C5 (amended): `score(x, x, tolerance=t) = 0` for every `t ≥ 0` and
every value `x` that is *not* a string containing the wildcard characters
`*`/`?`; for wildcard strings the self-score is `0` only when the
translated pattern happens to match the string itself. -/
theorem c5_score_reflexive_amended (x : Value) (t : ℚ) (ht : 0 ≤ t)
    (hw : isWildcardValue x = false) :
    calculate_field_score x x (some t) Option.none = some 0 := by
  unfold calculate_field_score
  rw [hw]
  simp only [Bool.false_eq_true, if_false, containsTruthy]
  cases x with
  | num q => simp [Value.isSeq, Value.isNum, Value.asNum, ht]
  | str s =>
      simp [Value.isSeq, Value.isNum, pyStr, levenshtein_self, MAX_DIFF_SCORE]
  | none =>
      simp [Value.isSeq, Value.isNum, pyStr, levenshtein_self, MAX_DIFF_SCORE]
  | vlist l =>
      simp only [Value.isSeq, Bool.true_or, if_true, toTupleElems]
      by_cases hall : (l.all Value.isNum && l.all Value.isNum && l.length == l.length) = true
      · rw [if_pos (by rw [hall]; rfl)]
        have hzero : ((l.zip l).map fun p =>
            if abs (p.1.asNum - p.2.asNum) > t then abs (p.1.asNum - p.2.asNum)
            else 0).sum = 0 := by
          apply List.sum_eq_zero
          intro x hx
          simp only [List.mem_map] at hx
          obtain ⟨p, hp, hpe⟩ := hx
          rw [zip_self_eq l p hp] at hpe
          simp only [sub_self, abs_zero] at hpe
          rw [← hpe]
          rw [if_neg (by push_neg; exact ht)]
        simp [hzero, MAX_DIFF_SCORE]
      · rw [if_neg (by intro hcond; rw [Bool.and_eq_true] at hcond; exact hall hcond.1)]
        have hzero : ((l.zip l).map
            fun p => (levenshtein_distance (pyStr p.1) (pyStr p.2) : ℚ)).sum = 0 := by
          apply List.sum_eq_zero
          intro x hx
          simp only [List.mem_map] at hx
          obtain ⟨p, hp, hpe⟩ := hx
          rw [zip_self_eq _ p hp] at hpe
          rw [levenshtein_self] at hpe
          simpa using hpe.symm
        simp [hzero, MAX_DIFF_SCORE]
  | tup l =>
      simp only [Value.isSeq, Bool.true_or, if_true, toTupleElems]
      by_cases hall : (l.all Value.isNum && l.all Value.isNum && l.length == l.length) = true
      · rw [if_pos (by rw [hall]; rfl)]
        have hzero : ((l.zip l).map fun p =>
            if abs (p.1.asNum - p.2.asNum) > t then abs (p.1.asNum - p.2.asNum)
            else 0).sum = 0 := by
          apply List.sum_eq_zero
          intro x hx
          simp only [List.mem_map] at hx
          obtain ⟨p, hp, hpe⟩ := hx
          rw [zip_self_eq l p hp] at hpe
          simp only [sub_self, abs_zero] at hpe
          rw [← hpe]
          rw [if_neg (by push_neg; exact ht)]
        simp [hzero, MAX_DIFF_SCORE]
      · rw [if_neg (by intro hcond; rw [Bool.and_eq_true] at hcond; exact hall hcond.1)]
        have hzero : ((l.zip l).map
            fun p => (levenshtein_distance (pyStr p.1) (pyStr p.2) : ℚ)).sum = 0 := by
          apply List.sum_eq_zero
          intro x hx
          simp only [List.mem_map] at hx
          obtain ⟨p, hp, hpe⟩ := hx
          rw [zip_self_eq _ p hp] at hpe
          rw [levenshtein_self] at hpe
          simpa using hpe.symm
        simp [hzero, MAX_DIFF_SCORE]

/-- C5 witness: the amended reflexivity theorem applied at `x = 3`,
`t = 1`. -/
theorem c5_score_reflexive_amended_witness :
    calculate_field_score (.num 3) (.num 3) (some 1) Option.none = some 0 :=
  c5_score_reflexive_amended (.num 3) 1 (by norm_num) rfl

/-!
### Claims C2 and C6 — the session matcher

Helper lemmas about the assignment-candidate enumeration, the
first-occurrence deduplication, and Python-dict insertion, leading to the
bidirectional injectivity of the returned mapping and the (amended)
totality statement.
-/

theorem dedupFirst_go_spec {α : Type} [DecidableEq α] :
    ∀ (l seen : List α),
      (dedupFirst.go seen l).Nodup ∧ ∀ x ∈ dedupFirst.go seen l, x ∉ seen
  | [], seen => by simp [dedupFirst.go]
  | x :: xs, seen => by
      by_cases hx : x ∈ seen
      · simpa [dedupFirst.go, hx] using dedupFirst_go_spec xs seen
      · have ih := dedupFirst_go_spec xs (x :: seen)
        simp only [dedupFirst.go, hx, if_false, Bool.false_eq_true]
        constructor
        · rw [List.nodup_cons]
          exact ⟨fun hmem => (ih.2 x hmem) (List.mem_cons_self x seen), ih.1⟩
        · intro y hy
          rcases List.mem_cons.mp hy with h | h
          · subst h; exact hx
          · exact fun hys => (ih.2 y h) (List.mem_cons_of_mem x hys)

/-- `dedupFirst` returns a duplicate-free list. -/
theorem dedupFirst_nodup {α : Type} [DecidableEq α] (l : List α) :
    (dedupFirst l).Nodup := (dedupFirst_go_spec l []).1

theorem dedupFirst_go_sub {α : Type} [DecidableEq α] :
    ∀ (l seen : List α) (x : α), x ∈ dedupFirst.go seen l → x ∈ l
  | [], _, x, h => by simp [dedupFirst.go] at h
  | a :: l, seen, x, h => by
      by_cases ha : a ∈ seen
      · simp only [dedupFirst.go, ha, if_true] at h
        exact List.mem_cons_of_mem a (dedupFirst_go_sub l seen x h)
      · simp only [dedupFirst.go, ha, if_false, Bool.false_eq_true] at h
        rcases List.mem_cons.mp h with h1 | h1
        · subst h1; exact List.mem_cons_self _ _
        · exact List.mem_cons_of_mem a (dedupFirst_go_sub l (a :: seen) x h1)

/-- Membership in `dedupFirst` implies membership in the original list. -/
theorem dedupFirst_sub {α : Type} [DecidableEq α] (l : List α) (x : α)
    (h : x ∈ dedupFirst l) : x ∈ l := dedupFirst_go_sub l [] x h

theorem argminFirst_mem {α : Type} (f : α → ℚ) :
    ∀ (l : List α) (a : α), argminFirst f l = some a → a ∈ l
  | x :: xs, a, h => by
      cases hrec : argminFirst f xs with
      | none =>
          simp only [argminFirst, hrec] at h
          cases h
          exact List.mem_cons_self x xs
      | some y =>
          simp only [argminFirst, hrec] at h
          by_cases hlt : f y < f x
          · rw [if_pos hlt] at h
            cases h
            exact List.mem_cons_of_mem x (argminFirst_mem f xs _ hrec)
          · rw [if_neg hlt] at h
            cases h
            exact List.mem_cons_self x xs

theorem argminFirst_isSome {α : Type} (f : α → ℚ) (l : List α) (hne : l ≠ []) :
    ∃ a, argminFirst f l = some a := by
  cases l with
  | nil => exact absurd rfl hne
  | cons x xs =>
      cases hrec : argminFirst f xs with
      | none => exact ⟨x, by simp only [argminFirst, hrec]⟩
      | some y =>
          by_cases hlt : f y < f x
          · exact ⟨y, by simp only [argminFirst, hrec]; rw [if_pos hlt]⟩
          · exact ⟨x, by simp only [argminFirst, hrec]; rw [if_neg hlt]⟩

theorem mem_insertEverywhere_perm {α : Type} (x : α) :
    ∀ (ys : List α) (p : List α), p ∈ insertEverywhere x ys → List.Perm p (x :: ys)
  | [], p, hp => by
      simp only [insertEverywhere, List.mem_singleton] at hp
      subst hp
      exact List.Perm.refl _
  | y :: ys, p, hp => by
      simp only [insertEverywhere, List.mem_cons, List.mem_map] at hp
      rcases hp with h | ⟨q, hq, rfl⟩
      · subst h; exact List.Perm.refl _
      · exact (List.Perm.cons y (mem_insertEverywhere_perm x ys q hq)).trans
          (List.Perm.swap x y ys)

theorem mem_permsOf_perm {α : Type} :
    ∀ (l : List α) (p : List α), p ∈ permsOf l → List.Perm p l
  | [], p, hp => by
      simp only [permsOf, List.mem_singleton] at hp
      subst hp
      exact List.Perm.refl _
  | x :: xs, p, hp => by
      simp only [permsOf, List.mem_flatMap] at hp
      obtain ⟨q, hq, hpq⟩ := hp
      exact (mem_insertEverywhere_perm x q p hpq).trans
        (List.Perm.cons x (mem_permsOf_perm xs q hq))

theorem permsOf_mem_exists {α : Type} : ∀ (l : List α), ∃ p, p ∈ permsOf l
  | [] => ⟨[], by simp [permsOf]⟩
  | x :: xs => by
      obtain ⟨p, hp⟩ := permsOf_mem_exists xs
      refine ⟨?_, ?_⟩
      · exact (match p with
          | [] => [x]
          | y :: ys => x :: y :: ys)
      · simp only [permsOf, List.mem_flatMap]
        refine ⟨p, hp, ?_⟩
        cases p <;> simp [insertEverywhere]

/-- Every candidate assignment pairs distinct in-range rows with distinct
in-range columns. -/
theorem assignmentCandidates_spec (n m : Nat) (cand : List (Nat × Nat))
    (h : cand ∈ assignmentCandidates n m) :
    (cand.map Prod.fst).Nodup ∧ (cand.map Prod.snd).Nodup ∧
      ∀ rc ∈ cand, rc.1 < n ∧ rc.2 < m := by
  unfold assignmentCandidates at h
  split at h
  case isTrue hnm =>
    simp only [List.mem_map] at h
    obtain ⟨p, hp, rfl⟩ := h
    have hperm : List.Perm p (List.range m) := mem_permsOf_perm _ p hp
    have hplen : p.length = m := by
      rw [hperm.length_eq, List.length_range]
    have htl : (p.take n).length = n := by
      rw [List.length_take]; omega
    have hpnodup : p.Nodup := hperm.nodup_iff.mpr (List.nodup_range m)
    refine ⟨?_, ?_, ?_⟩
    · rw [List.map_fst_zip _ _ (by rw [List.length_range, htl])]
      exact List.nodup_range n
    · rw [List.map_snd_zip _ _ (by rw [List.length_range, htl])]
      exact (List.take_sublist n p).nodup hpnodup
    · intro rc hrc
      have hmem := List.of_mem_zip (show (rc.1, rc.2) ∈ _ from hrc)
      refine ⟨List.mem_range.mp hmem.1, ?_⟩
      exact List.mem_range.mp (hperm.mem_iff.mp (List.mem_of_mem_take hmem.2))
  case isFalse hnm =>
    simp only [List.mem_map] at h
    obtain ⟨p, hp, rfl⟩ := h
    have hperm : List.Perm p (List.range n) := mem_permsOf_perm _ p hp
    have hplen : p.length = n := by
      rw [hperm.length_eq, List.length_range]
    have htl : (p.take m).length = m := by
      rw [List.length_take]; omega
    have hpnodup : p.Nodup := hperm.nodup_iff.mpr (List.nodup_range n)
    refine ⟨?_, ?_, ?_⟩
    · rw [List.map_fst_zip _ _ (by rw [List.length_range, htl])]
      exact (List.take_sublist m p).nodup hpnodup
    · rw [List.map_snd_zip _ _ (by rw [List.length_range, htl])]
      exact List.nodup_range m
    · intro rc hrc
      have hmem := List.of_mem_zip (show (rc.1, rc.2) ∈ _ from hrc)
      refine ⟨?_, List.mem_range.mp hmem.2⟩
      exact List.mem_range.mp (hperm.mem_iff.mp (List.mem_of_mem_take hmem.1))

theorem dictInsert_fst_nodup {K V : Type} [DecidableEq K]
    (m : List (K × V)) (k : K) (v : V)
    (h : (m.map Prod.fst).Nodup) : ((dictInsert m k v).map Prod.fst).Nodup := by
  unfold dictInsert
  split
  case isTrue hany =>
    have hsame : (m.map fun p => if p.1 = k then (k, v) else p).map Prod.fst
        = m.map Prod.fst := by
      rw [List.map_map]
      apply List.map_congr_left
      intro p _
      by_cases hp : p.1 = k <;> simp [hp]
    rw [hsame]; exact h
  case isFalse hany =>
    rw [List.map_append]
    rw [List.nodup_append]
    refine ⟨h, by simp, ?_⟩
    intro a ha hb
    simp only [List.map_cons, List.map_nil, List.mem_singleton] at hb
    subst hb
    simp only [List.mem_map] at ha
    obtain ⟨p, hp, hpk⟩ := ha
    exact hany (List.any_eq_true.mpr ⟨p, hp, by simp [hpk]⟩)

theorem replaceVals_snd_subset {K V : Type} [DecidableEq K] (k : K) (v : V)
    (m : List (K × V)) :
    ∀ x ∈ (m.map fun p => if p.1 = k then (k, v) else p).map Prod.snd,
      x = v ∨ x ∈ m.map Prod.snd := by
  intro x hx
  rw [List.map_map] at hx
  simp only [List.mem_map, Function.comp] at hx
  obtain ⟨p, hp, hpe⟩ := hx
  by_cases hpk : p.1 = k
  · left; rw [← hpe]; simp [hpk]
  · right
    rw [← hpe]
    simp only [hpk, if_false, Bool.false_eq_true]
    exact List.mem_map_of_mem Prod.snd hp

theorem replaceVals_snd_nodup {K V : Type} [DecidableEq K] (k : K) (v : V) :
    ∀ (m : List (K × V)), (m.map Prod.fst).Nodup → (m.map Prod.snd).Nodup →
      v ∉ m.map Prod.snd →
      ((m.map fun p => if p.1 = k then (k, v) else p).map Prod.snd).Nodup
  | [], _, _, _ => by simp
  | p :: rest, hk, hv, hfresh => by
      simp only [List.map_cons, List.nodup_cons] at hk hv
      have hfresh' : v ∉ rest.map Prod.snd := fun hmem =>
        hfresh (List.mem_cons_of_mem _ hmem)
      by_cases hp : p.1 = k
      · have hknok : ∀ q ∈ rest, ¬ q.1 = k := by
          intro q hq hqk
          exact hk.1 (by rw [hp, ← hqk]; exact List.mem_map_of_mem Prod.fst hq)
        have hrest_id : rest.map (fun q => if q.1 = k then (k, v) else q) = rest := by
          have hcongr : rest.map (fun q => if q.1 = k then (k, v) else q)
              = rest.map (fun q => q) :=
            List.map_congr_left (fun q hq => if_neg (hknok q hq))
          simpa using hcongr
        simp only [List.map_cons, hp, if_true, hrest_id]
        rw [List.nodup_cons]
        exact ⟨hfresh', hv.2⟩
      · have ih := replaceVals_snd_nodup k v rest hk.2 hv.2 hfresh'
        simp only [List.map_cons, hp, if_false, Bool.false_eq_true]
        rw [List.nodup_cons]
        refine ⟨?_, ih⟩
        intro hmem
        rcases replaceVals_snd_subset k v rest p.2 hmem with h | h
        · exact hfresh (h ▸ (by simp : p.2 ∈ List.map Prod.snd (p :: rest)))
        · exact hv.1 h

theorem dictInsert_snd_nodup {K V : Type} [DecidableEq K]
    (m : List (K × V)) (k : K) (v : V)
    (hk : (m.map Prod.fst).Nodup) (hv : (m.map Prod.snd).Nodup)
    (hfresh : v ∉ m.map Prod.snd) :
    ((dictInsert m k v).map Prod.snd).Nodup := by
  unfold dictInsert
  split
  case isTrue hany => exact replaceVals_snd_nodup k v m hk hv hfresh
  case isFalse hany =>
    rw [List.map_append]
    rw [List.nodup_append]
    refine ⟨hv, by simp, ?_⟩
    intro a ha hb
    simp only [List.map_cons, List.map_nil, List.mem_singleton] at hb
    subst hb
    exact hfresh ha

theorem dictInsert_snd_subset {K V : Type} [DecidableEq K]
    (m : List (K × V)) (k : K) (v : V) :
    ∀ x ∈ (dictInsert m k v).map Prod.snd, x = v ∨ x ∈ m.map Prod.snd := by
  intro x hx
  unfold dictInsert at hx
  split at hx
  case isTrue => exact replaceVals_snd_subset k v m x hx
  case isFalse =>
    rw [List.map_append] at hx
    rcases List.mem_append.mp hx with h | h
    · right; exact h
    · left; simpa using h

/-- The mapping loop keeps keys and values duplicate-free, provided the
prospective reference values (one per in-range assignment pair) are
fresh and mutually distinct — which the distinct column indices of a
valid assignment guarantee. -/
theorem buildMapping_loop_nodup (inKeys refKeys : List (String × String))
    (hrk : refKeys.Nodup) :
    ∀ (pairs : List (Nat × Nat)) (acc : List ((String × String) × (String × String))),
      (acc.map Prod.fst).Nodup → (acc.map Prod.snd).Nodup →
      (pairs.map Prod.snd).Nodup →
      (∀ v ∈ acc.map Prod.snd, ∀ rc ∈ pairs, refKeys.get? rc.2 ≠ some v) →
      ((pairs.foldl (mappingStep inKeys refKeys) acc).map Prod.fst).Nodup ∧
        ((pairs.foldl (mappingStep inKeys refKeys) acc).map Prod.snd).Nodup
  | [], acc, hk, hv, _, _ => ⟨hk, hv⟩
  | rc :: rest, acc, hk, hv, hcols, hfresh => by
      rw [List.foldl_cons]
      have hcols' : (rest.map Prod.snd).Nodup := (List.nodup_cons.mp hcols).2
      have hcolhead : rc.2 ∉ rest.map Prod.snd := (List.nodup_cons.mp hcols).1
      cases hik : inKeys.get? rc.1 with
      | none =>
          have hstep : mappingStep inKeys refKeys acc rc = acc := by
            unfold mappingStep; rw [hik]
          rw [hstep]
          exact buildMapping_loop_nodup inKeys refKeys hrk rest acc hk hv hcols'
            (fun v hvmem rc' hrc' => hfresh v hvmem rc' (List.mem_cons_of_mem rc hrc'))
      | some ik =>
          cases hrk2 : refKeys.get? rc.2 with
          | none =>
              have hstep : mappingStep inKeys refKeys acc rc = acc := by
                unfold mappingStep; rw [hik, hrk2]
              rw [hstep]
              exact buildMapping_loop_nodup inKeys refKeys hrk rest acc hk hv hcols'
                (fun v hvmem rc' hrc' => hfresh v hvmem rc' (List.mem_cons_of_mem rc hrc'))
          | some rk =>
              have hstep : mappingStep inKeys refKeys acc rc = dictInsert acc ik rk := by
                unfold mappingStep; rw [hik, hrk2]
              rw [hstep]
              have hrkfresh : rk ∉ acc.map Prod.snd := fun hmem =>
                hfresh rk hmem rc (List.mem_cons_self rc rest) hrk2
              refine buildMapping_loop_nodup inKeys refKeys hrk rest _
                (dictInsert_fst_nodup acc ik rk hk)
                (dictInsert_snd_nodup acc ik rk hk hv hrkfresh)
                hcols' ?_
              intro v hvmem rc' hrc' hv'
              rcases dictInsert_snd_subset acc ik rk v hvmem with h | h
              · -- v = rk: then refKeys.get? rc'.2 = some rk = refKeys.get? rc.2,
                -- so rc'.2 = rc.2, contradicting the distinct columns
                subst h
                have hlt : rc'.2 < refKeys.length :=
                  (List.get?_eq_some.mp hv').choose
                have heq : rc'.2 = rc.2 :=
                  List.get?_inj hlt hrk (by rw [hv', hrk2])
                exact hcolhead (heq ▸ List.mem_map_of_mem Prod.snd hrc')
              · exact hfresh v h rc' (List.mem_cons_of_mem rc hrc') hv'

/-- C2: for every pair of input and reference sessions, a successfully
returned mapping is injective in both directions: input identities appear
as keys at most once, and no reference identity is the target of two
different keys. -/
theorem c2_map_session_injective (inS refS : Session)
    (mp : List ((String × String) × (String × String)))
    (h : map_session inS refS = .ok mp) :
    (mp.map Prod.fst).Nodup ∧ (mp.map Prod.snd).Nodup := by
  unfold map_session at h
  split at h
  case h_2 => cases h
  case h_1 cost hcm =>
    split at h
    case h_2 e hla => cases h
    case h_1 pairs hla =>
      have hmp : mp = buildMapping (inputKeysOf inS) (refKeysOf refS) pairs := by
        cases h; rfl
      subst hmp
      unfold linear_sum_assignment at hla
      split at hla
      · cases hla
      · split at hla
        case h_2 => cases hla
        case h_1 cand harg =>
          have hcand : cand = pairs := by cases hla; rfl
          subst hcand
          have hmem := argminFirst_mem _ _ _ harg
          obtain ⟨_, hsnd, _⟩ :=
            assignmentCandidates_spec cost.length (cost.headD []).length _ hmem
          exact buildMapping_loop_nodup (inputKeysOf inS) (refKeysOf refS)
            (dedupFirst_nodup _) _ [] (by simp) (by simp) hsnd (by simp)

/-- C2 witness: the injectivity theorem applied to a concrete two-series
session pair. -/
theorem c2_map_session_injective_witness :
    (([((("acqA", "a") : String × String), (("T1w", "s1") : String × String)),
        ((("acqA", "b") : String × String), (("T1w", "s2") : String × String))].map
          Prod.fst).Nodup ∧
      ([((("acqA", "a") : String × String), (("T1w", "s1") : String × String)),
        ((("acqA", "b") : String × String), (("T1w", "s2") : String × String))].map
          Prod.snd).Nodup) :=
  c2_map_session_injective inSessionEx refSessionEx2 _ (by with_unfolding_all rfl)

/-- C6 (counterexample): `map_session` is *not* total: on an empty input
session the cost matrix is the empty list, `np.array([])` is not a
two-dimensional matrix, and the assignment routine raises `ValueError`
instead of returning an empty mapping. -/
theorem c6_empty_input_raises :
    map_session ⟨[]⟩ refSessionEx = .error "expected a matrix (2-D array)" := rfl

/-- Auxiliary: `traverseOpt` preserves list length. -/
theorem traverseOpt_length {α β : Type} (f : α → Option β) :
    ∀ (l : List α) (l' : List β), traverseOpt f l = some l' → l'.length = l.length
  | [], l', h => by
      simp only [traverseOpt, Option.some.injEq] at h
      subst h; rfl
  | x :: xs, l', h => by
      simp only [traverseOpt] at h
      cases hfx : f x with
      | none => rw [hfx] at h; cases h
      | some y =>
          rw [hfx] at h
          cases hrec : traverseOpt f xs with
          | none => rw [hrec] at h; cases h
          | some ys =>
              rw [hrec] at h
              cases h
              simp [traverseOpt_length f xs ys hrec]

/-- C6 (amended): when the input session contains at least one series and
every per-pair score computation completes (no wildcard-versus-missing
`TypeError`, no list-versus-`None` coercion error), `map_session` returns
a mapping; the empty-input case instead raises from the assignment
routine. -/
theorem c6_map_session_total_amended (inS refS : Session) (cost : List (List ℚ))
    (hne : sessionEntries inS ≠ [])
    (hcm : costMatrixOf inS refS = some cost) :
    ∃ mp, map_session inS refS = .ok mp := by
  have hlen : cost.length = (sessionEntries inS).length :=
    traverseOpt_length _ _ _ hcm
  have hcne : cost.isEmpty = false := by
    cases cost with
    | nil =>
        exfalso
        exact hne (List.length_eq_zero.mp hlen.symm)
    | cons r rs => rfl
  obtain ⟨p, hp⟩ := permsOf_mem_exists
    (if cost.length ≤ (cost.headD []).length
      then List.range (cost.headD []).length else List.range cost.length)
  have hcand : assignmentCandidates cost.length (cost.headD []).length ≠ [] := by
    unfold assignmentCandidates
    by_cases hc : cost.length ≤ (cost.headD []).length
    · rw [if_pos hc]
      rw [if_pos hc] at hp
      exact List.ne_nil_of_mem (List.mem_map_of_mem _ hp)
    · rw [if_neg hc]
      rw [if_neg hc] at hp
      exact List.ne_nil_of_mem (List.mem_map_of_mem _ hp)
  obtain ⟨a, ha⟩ := argminFirst_isSome (assignmentCost cost) _ hcand
  refine ⟨buildMapping (inputKeysOf inS) (refKeysOf refS) a, ?_⟩
  simp only [map_session, hcm, linear_sum_assignment, hcne, Bool.false_eq_true,
    if_false, ha]

/-- C6 witness: the amended totality theorem applied to the concrete
one-series input session. -/
theorem c6_map_session_total_amended_witness :
    ∃ mp, map_session inSessionEx refSessionEx2 = .ok mp :=
  c6_map_session_total_amended inSessionEx refSessionEx2 [[0, 0], [0, 0]]
    (by decide) (by with_unfolding_all rfl)

/-!
### Claim C3 — the acquisition-level phase

Branch lemmas connecting each `invalid_values` collection to the
row-filter predicate `_row_passes_constraint`, then the per-field
characterization.
-/

theorem pyIn_isSome_of_str (c : Value) (hc : c.isStr = true) (v : Value)
    (hv : v.isContainer = true) : ∃ b, pyIn c v = some b := by
  cases v with
  | str s =>
      cases c with
      | str cs => exact ⟨_, rfl⟩
      | num q => cases hc
      | vlist l => cases hc
      | tup l => cases hc
      | none => cases hc
  | vlist l => exact ⟨_, rfl⟩
  | tup l => exact ⟨_, rfl⟩
  | num q => cases hv
  | none => cases hv

theorem containsInvalid_eq (c : Value) (hc : c.isStr = true) :
    ∀ vs : List Value, containsInvalid c vs
      = some (vs.filter fun v => !(v.isContainer && (pyIn c v).getD false))
  | [] => rfl
  | v :: vs => by
      rw [List.filter_cons]
      by_cases hv : v.isContainer = true
      · obtain ⟨b, hb⟩ := pyIn_isSome_of_str c hc v hv
        rw [containsInvalid, if_pos hv, hb, containsInvalid_eq c hc vs]
        cases b <;> simp [hv, hb]
      · rw [containsInvalid, if_neg hv, containsInvalid_eq c hc vs]
        simp only [Bool.not_eq_true] at hv
        simp [hv]

theorem rowPasses_contains (c : Value) (hc : c.isStr = true) (v : Value)
    (e : Option Value) (t : Option ℚ) :
    _row_passes_constraint v e t (some c)
      = some (v.isContainer && (pyIn c v).getD false) := by
  by_cases hv : v.isContainer = true
  · obtain ⟨b, hb⟩ := pyIn_isSome_of_str c hc v hv
    simp only [_row_passes_constraint, hv, if_true, hb, Option.getD_some]
    simp
  · simp only [_row_passes_constraint, hv, Bool.false_eq_true, if_false]
    simp only [Bool.not_eq_true] at hv
    simp [hv]

theorem tolInvalid_eq (q : ℚ) (tol : ℚ) :
    ∀ vs : List Value, tolInvalid (some (.num q)) tol vs
      = some (vs.filter fun v =>
          !(decide (q - tol ≤ v.asNum ∧ v.asNum ≤ q + tol)))
  | [] => rfl
  | v :: vs => by
      have ih := tolInvalid_eq q tol vs
      simp only [tolInvalid, Value.isNum, if_true, ih, Option.map_some',
        Value.asNum, List.filter_cons]
      by_cases hw : q - tol ≤ v.asNum ∧ v.asNum ≤ q + tol
      · simp only [Value.asNum] at hw
        rw [if_pos hw, if_neg (by
          intro hcontra
          rw [decide_eq_true hw] at hcontra
          exact absurd hcontra (by decide))]
      · simp only [Value.asNum] at hw
        rw [if_neg hw, if_pos (by rw [decide_eq_false hw]; rfl)]

theorem rowPasses_tol_num (q tol : ℚ) (v : Value) (hv : v.isNum = true) :
    _row_passes_constraint v (some (.num q)) (some tol) Option.none
      = some (decide (q - tol ≤ v.asNum ∧ v.asNum ≤ q + tol)) := by
  cases v with
  | num x => rfl
  | str s => cases hv
  | vlist l => cases hv
  | tup l => cases hv
  | none => cases hv

theorem rowPasses_tol_nonnum (e : Option Value) (tol : ℚ) (v : Value)
    (hv : v.isNum = false) :
    _row_passes_constraint v e (some tol) Option.none = some false := by
  cases v with
  | num x => cases hv
  | str s => rfl
  | vlist l => rfl
  | tup l => rfl
  | none => rfl

theorem listInvalid_eq (el : List Value) (hel : Value.allHashable el = true) :
    ∀ vs : List Value,
      (∀ v ∈ vs, ∀ al, v = .vlist al → Value.allHashable al = true) →
      listInvalid el vs = some (vs.filter fun v => !(listEqCheck el v))
  | [], _ => rfl
  | v :: vs, hdata => by
      have ih := listInvalid_eq el hel vs
        (fun w hw => hdata w (List.mem_cons_of_mem v hw))
      cases v with
      | vlist al =>
          have hal : Value.allHashable al = true :=
            hdata (.vlist al) (List.mem_cons_self _ _) al rfl
          simp only [listInvalid, hal, hel, Bool.and_self, if_true, ih,
            Option.map_some', List.filter_cons, listEqCheck]
          by_cases he : al.toFinset = el.toFinset <;> simp [he]
      | num q => simp [listInvalid, ih, List.filter_cons, listEqCheck]
      | str s => simp [listInvalid, ih, List.filter_cons, listEqCheck]
      | tup l => simp [listInvalid, ih, List.filter_cons, listEqCheck]
      | none => simp [listInvalid, ih, List.filter_cons, listEqCheck]

theorem rowPasses_list (el : List Value) (hel : Value.allHashable el = true)
    (v : Value) (hv : ∀ al, v = .vlist al → Value.allHashable al = true) :
    _row_passes_constraint v (some (.vlist el)) Option.none Option.none
      = some (listEqCheck el v) := by
  cases v with
  | vlist al =>
      have hal := hv al rfl
      simp [_row_passes_constraint, hal, hel, listEqCheck]
  | num q => rfl
  | str s => rfl
  | tup l => rfl
  | none => rfl

/-- `invalid_values` is empty exactly when no distinct value fails the
row-filter predicate. -/
theorem invalidEmpty_iff_noFalse (dv : List Value) (P : Value → Bool)
    (e : Option Value) (t : Option ℚ) (c : Option Value)
    (hrow : ∀ v ∈ dv, _row_passes_constraint v e t c = some (P v)) :
    ((dv.filter fun v => !(P v)).isEmpty = true) ↔
      ¬ ∃ v ∈ dv, _row_passes_constraint v e t c = some false := by
  rw [List.isEmpty_iff, List.filter_eq_nil_iff]
  constructor
  · rintro h ⟨v, hv, hfalse⟩
    rw [hrow v hv] at hfalse
    have hp : P v = false := Option.some.inj hfalse
    have h2 := h v hv
    rw [hp] at h2
    exact h2 (by decide)
  · intro h v hv hnp
    apply h
    refine ⟨v, hv, ?_⟩
    rw [hrow v hv]
    cases hp : P v
    · rfl
    · rw [hp] at hnp
      exact absurd hnp (by decide)

theorem rowPasses_scalar (e : Value) (he : ∀ el, e ≠ .vlist el) (v : Value) :
    _row_passes_constraint v (some e) Option.none Option.none
      = some (decide (v = e)) := by
  cases e with
  | vlist el => exact absurd rfl (he el)
  | num q => rfl
  | str s => rfl
  | tup l => rfl
  | none => rfl

/-- Per-field behaviour of the acquisition phase: under schema/data
well-formedness, each field definition yields exactly one record
satisfying the claimed characterization. -/
theorem checkAcqField_spec (refn inn : String) (inAcq : DFrame) (fdef : FieldDef)
    (hwf : FieldDefWF fdef) (hdata : FieldDataOK inAcq fdef) :
    ∃ r, checkAcqField refn inn inAcq fdef = some r ∧ AcqFieldClaim inAcq fdef r := by
  by_cases hcol : fdef.field ∈ inAcq.cols
  case neg =>
    refine ⟨_, by rw [checkAcqField, if_neg hcol], ?_, ?_⟩
    · intro _
      exact ⟨rfl, rfl, rfl⟩
    · intro hmem
      exact absurd hmem hcol
  case pos =>
    set dv := dedupFirst (inAcq.colValues fdef.field) with hdv
    have hhash : (inAcq.colValues fdef.field).all Value.isHashable = true := by
      rw [List.all_eq_true]
      intro v hv
      exact hdata v hv
    have huniq : uniqueVals (inAcq.colValues fdef.field) = some dv := by
      rw [uniqueVals, if_pos hhash, hdv]
    have hvl : ∀ v ∈ dv, ∀ al, v = .vlist al → Value.allHashable al = true := by
      intro v hv al hal
      have hmem : v ∈ inAcq.colValues fdef.field := dedupFirst_sub _ v (hdv ▸ hv)
      have hh := hdata v hmem
      rw [hal] at hh
      simp [Value.isHashable] at hh
    have mk : ∀ (P : Value → Bool) (failRec : CRecord),
        (∀ v ∈ dv, _row_passes_constraint v fdef.value fdef.tolerance fdef.contains
          = some (P v)) →
        failRec.passed = false →
        failRec.value = .vals dv →
        (checkAcqField refn inn inAcq fdef
          = if (dv.filter fun v => !(P v)).isEmpty then
              some ⟨some refn, some inn, Option.none, some fdef.field,
                .triple fdef.value fdef.tolerance fdef.contains, .vals dv,
                .passedMsg, true⟩
            else some failRec) →
        ∃ r, checkAcqField refn inn inAcq fdef = some r ∧ AcqFieldClaim inAcq fdef r := by
      intro P failRec hrow hfp hfv hres
      by_cases hie : (dv.filter fun v => !(P v)).isEmpty = true
      · rw [hres, if_pos hie]
        refine ⟨_, rfl, fun hmem => absurd hcol hmem, fun _ => ⟨rfl, ?_⟩⟩
        constructor
        · intro hcontra
          simp at hcontra
        · intro hex
          exact absurd hex ((invalidEmpty_iff_noFalse dv P _ _ _ hrow).mp hie)
      · rw [hres, if_neg hie]
        refine ⟨_, rfl, fun hmem => absurd hcol hmem, fun _ => ⟨hfv, ?_⟩⟩
        constructor
        · intro _
          by_contra hnex
          exact hie ((invalidEmpty_iff_noFalse dv P _ _ _ hrow).mpr hnex)
        · intro _
          exact hfp
    rcases hwf with ⟨hwft, hwfc, hwfl⟩
    cases hcont : fdef.contains with
    | some c =>
        have hc := hwfc c hcont
        refine mk (fun v => v.isContainer && (pyIn c v).getD false)
          ⟨some refn, some inn, Option.none, some fdef.field, .containsDesc c, .vals dv,
            .expectedContains c (dv.filter fun v =>
              !(v.isContainer && (pyIn c v).getD false)), false⟩
          ?_ rfl rfl ?_
        · intro v hv
          rw [hcont]
          exact rowPasses_contains c hc v _ _
        · simp only [checkAcqField, if_pos hcol, huniq, hcont, ← hdv, containsInvalid_eq c hc dv]
    | none =>
    cases htol : fdef.tolerance with
    | some tol =>
        obtain ⟨q, hq⟩ := hwft tol htol
        by_cases hnn : (dv.filter fun v => !v.isNum).isEmpty = true
        · have hall : ∀ v ∈ dv, v.isNum = true := by
            rw [List.isEmpty_iff, List.filter_eq_nil_iff] at hnn
            intro v hv
            have h2 := hnn v hv
            cases hb : v.isNum
            · exfalso
              apply h2
              rw [hb]
              rfl
            · rfl
          refine mk (fun v => decide (q - tol ≤ v.asNum ∧ v.asNum ≤ q + tol))
            ⟨some refn, some inn, Option.none, some fdef.field,
              .tolDesc (fdef.value.getD Value.none) tol, .vals dv,
              .invalidValues (dv.filter fun v =>
                !(decide (q - tol ≤ v.asNum ∧ v.asNum ≤ q + tol))) dv, false⟩
            ?_ rfl rfl ?_
          · intro v hv
            rw [hcont, htol, hq]
            exact rowPasses_tol_num q tol v (hall v hv)
          · simp only [checkAcqField, if_pos hcol, huniq, hcont, htol, hq, ← hdv,
              tolInvalid_eq q tol dv, Option.getD_some]
            rw [if_neg (by rw [hnn]; exact fun hcontra => hcontra rfl)]
        · -- some distinct value is non-numeric: the mustBeNumeric failure
          have hne : (dv.filter fun v => !v.isNum) ≠ [] :=
            fun h => hnn (List.isEmpty_iff.mpr h)
          obtain ⟨v0, hv0⟩ := List.exists_mem_of_ne_nil _ hne
          rw [List.mem_filter] at hv0
          have hv0num : v0.isNum = false := by
            have := hv0.2
            cases hb : v0.isNum
            · rfl
            · rw [hb] at this
              exact absurd this (by decide)
          refine ⟨⟨some refn, some inn, Option.none, some fdef.field,
              .tolDesc (fdef.value.getD Value.none) tol, .vals dv,
              .mustBeNumeric (dv.filter fun v => !v.isNum), false⟩,
            ?_, fun hmem => absurd hcol hmem, fun _ => ⟨rfl, ?_⟩⟩
          · simp only [checkAcqField, if_pos hcol, huniq, hcont, htol, ← hdv]
            rw [if_pos (by
              intro h2
              exact hnn (by rw [h2]))]
          · constructor
            · intro _
              exact ⟨v0, hv0.1, by
                rw [hcont, htol]
                exact rowPasses_tol_nonnum _ tol v0 hv0num⟩
            · intro _
              rfl
    | none =>
    cases hval : fdef.value with
    | some e =>
        cases e with
        | vlist el =>
            have hel := hwfl el hval
            refine mk (listEqCheck el)
              ⟨some refn, some inn, Option.none, some fdef.field,
                .valueDesc (.vlist el), .vals dv,
                .listMismatch (dv.filter fun v => !(listEqCheck el v)), false⟩
              ?_ rfl rfl ?_
            · intro v hv
              rw [hcont, htol, hval]
              exact rowPasses_list el hel v (fun al hal => hvl v hv al hal)
            · simp only [checkAcqField, if_pos hcol, huniq, hcont, htol, hval, ← hdv,
                listInvalid_eq el hel dv hvl]
        | num x =>
            refine mk (fun v => decide (v = Value.num x))
              ⟨some refn, some inn, Option.none, some fdef.field,
                .valueDesc (.num x), .vals dv,
                .mismatch (dv.filter fun v => !(decide (v = Value.num x))), false⟩
              ?_ rfl rfl ?_
            · intro v hv
              rw [hcont, htol, hval]
              exact rowPasses_scalar _ (by intro el h; cases h) v
            · simp only [checkAcqField, if_pos hcol, huniq, hcont, htol, hval, ← hdv]
        | str s =>
            refine mk (fun v => decide (v = Value.str s))
              ⟨some refn, some inn, Option.none, some fdef.field,
                .valueDesc (.str s), .vals dv,
                .mismatch (dv.filter fun v => !(decide (v = Value.str s))), false⟩
              ?_ rfl rfl ?_
            · intro v hv
              rw [hcont, htol, hval]
              exact rowPasses_scalar _ (by intro el h; cases h) v
            · simp only [checkAcqField, if_pos hcol, huniq, hcont, htol, hval, ← hdv]
        | tup l =>
            refine mk (fun v => decide (v = Value.tup l))
              ⟨some refn, some inn, Option.none, some fdef.field,
                .valueDesc (.tup l), .vals dv,
                .mismatch (dv.filter fun v => !(decide (v = Value.tup l))), false⟩
              ?_ rfl rfl ?_
            · intro v hv
              rw [hcont, htol, hval]
              exact rowPasses_scalar _ (by intro el h; cases h) v
            · simp only [checkAcqField, if_pos hcol, huniq, hcont, htol, hval, ← hdv]
        | none =>
            refine mk (fun v => decide (v = Value.none))
              ⟨some refn, some inn, Option.none, some fdef.field,
                .valueDesc .none, .vals dv,
                .mismatch (dv.filter fun v => !(decide (v = Value.none))), false⟩
              ?_ rfl rfl ?_
            · intro v hv
              rw [hcont, htol, hval]
              exact rowPasses_scalar _ (by intro el h; cases h) v
            · simp only [checkAcqField, if_pos hcol, huniq, hcont, htol, hval, ← hdv]
    | none =>
        refine mk (fun _ => true) ⟨some refn, some inn, Option.none, some fdef.field,
            .triple fdef.value fdef.tolerance fdef.contains, .vals dv, .passedMsg,
            false⟩ ?_ rfl rfl ?_
        · intro v hv
          rw [hcont, htol, hval]
          cases v <;> rfl
        · have hnilf : (dv.filter fun _ => !(true : Bool)) = [] := by
            simp
          rw [hnilf]
          simp only [checkAcqField, if_pos hcol, huniq, hcont, htol, hval, ← hdv,
            List.isEmpty_nil, if_true]

/-- C3 amended: in the acquisition-level phase, for every well-formed
field constraint of a mapped pair whose column data is hashable (no
Python-list cells — otherwise `unique()` raises `TypeError` and no
record is emitted), exactly one compliance record is produced, pairwise
in order: a failing "field not found" record when the field is absent;
otherwise a record listing the distinct values of the field that fails
precisely when some distinct value violates the per-value constraint,
and passes otherwise. -/
theorem c3_acquisition_field_records (refn inn : String) (inAcq : DFrame)
    (fields : List FieldDef)
    (hwf : ∀ fdef ∈ fields, FieldDefWF fdef)
    (hdata : ∀ fdef ∈ fields, FieldDataOK inAcq fdef) :
    ∃ recs, traverseOpt (checkAcqField refn inn inAcq) fields = some recs ∧
      recs.length = fields.length ∧
      List.Forall₂ (AcqFieldClaim inAcq) fields recs := by
  induction fields with
  | nil => exact ⟨[], rfl, rfl, List.Forall₂.nil⟩
  | cons f fs ih =>
      obtain ⟨r, hr, hclaim⟩ := checkAcqField_spec refn inn inAcq f
        (hwf f (List.mem_cons_self f fs)) (hdata f (List.mem_cons_self f fs))
      obtain ⟨recs, hrecs, hlen, hall⟩ :=
        ih (fun g hg => hwf g (List.mem_cons_of_mem f hg))
          (fun g hg => hdata g (List.mem_cons_of_mem f hg))
      refine ⟨r :: recs, ?_, by simp [hlen], List.Forall₂.cons hclaim hall⟩
      simp only [traverseOpt, hr, hrecs]

/-- C3 witness: the acquisition-phase theorem applied to the concrete
`SliceThickness = 1.0 ± 0` constraint over the three-row table. -/
theorem c3_acquisition_field_records_witness :
    ∃ recs, traverseOpt (checkAcqField "T1" "acq-a" inAcqEx) [fdefEx] = some recs ∧
      recs.length = [fdefEx].length ∧
      List.Forall₂ (AcqFieldClaim inAcqEx) [fdefEx] recs := by
  apply c3_acquisition_field_records
  · intro fdef hf
    rw [List.mem_singleton] at hf
    subst hf
    refine ⟨?_, ?_, ?_⟩
    · intro t ht
      exact ⟨1, rfl⟩
    · intro c hc
      simp [fdefEx] at hc
    · intro el hel
      simp [fdefEx] at hel
  · intro fdef hf
    rw [List.mem_singleton] at hf
    subst hf
    intro v hv
    have hcv : inAcqEx.colValues fdefEx.field = [.num 1, .num 1, .num 3] := by
      with_unfolding_all rfl
    rw [hcv] at hv
    simp only [List.mem_cons, List.not_mem_nil, or_false] at hv
    rcases hv with h | h | h <;> rw [h] <;> rfl

/-!
### Claim C10 — the second pass over the surviving subset never fails

Rows surviving the sequential filter satisfy every series constraint, and
the second validation pass applies the same per-value predicate, so the
aggregated record always passes.
-/

theorem optionFilter_mem {α : Type} (p : α → Option Bool) :
    ∀ (l kept : List α), optionFilter p l = some kept →
      ∀ x ∈ kept, p x = some true ∧ x ∈ l
  | [], kept, h => by
      simp only [optionFilter, Option.some.injEq] at h
      subst h
      intro x hx
      cases hx
  | a :: l, kept, h => by
      simp only [optionFilter] at h
      cases hp : p a with
      | none => rw [hp] at h; cases h
      | some b =>
          rw [hp] at h
          cases hrec : optionFilter p l with
          | none => rw [hrec] at h; cases h
          | some ys =>
              rw [hrec] at h
              have hys := optionFilter_mem p l ys hrec
              cases b
              · simp only [Option.some.injEq, if_false, Bool.false_eq_true] at h
                subst h
                intro x hx
                obtain ⟨h1, h2⟩ := hys x hx
                exact ⟨h1, List.mem_cons_of_mem a h2⟩
              · simp only [Option.some.injEq, if_true] at h
                subst h
                intro x hx
                rcases List.mem_cons.mp hx with h1 | h1
                · subst h1
                  exact ⟨hp, List.mem_cons_self _ _⟩
                · obtain ⟨h1', h2⟩ := hys x h1
                  exact ⟨h1', List.mem_cons_of_mem a h2⟩

theorem seriesFilterLoop_sub (inAcq : DFrame) :
    ∀ (fields : List FieldDef) (rows kept : List (List Value)),
      seriesFilterLoop inAcq fields rows = some (.rows kept) →
      ∀ r ∈ kept, r ∈ rows
  | [], rows, kept, h => by
      simp only [seriesFilterLoop, Option.some.injEq, SeriesFilterOutcome.rows.injEq] at h
      subst h
      exact fun r hr => hr
  | fdef :: rest, rows, kept, h => by
      simp only [seriesFilterLoop] at h
      by_cases hcol : fdef.field ∈ inAcq.cols
      · rw [if_pos hcol] at h
        cases hflt : optionFilter
            (fun r => _row_passes_constraint (inAcq.cell r fdef.field)
              fdef.value fdef.tolerance fdef.contains) rows with
        | none => rw [hflt] at h; cases h
        | some kept0 =>
            simp only [hflt] at h
            by_cases hie : kept0.isEmpty = true
            · rw [if_pos hie] at h
              simp only [Option.some.injEq, SeriesFilterOutcome.rows.injEq] at h
              subst h
              exact fun r hr => (optionFilter_mem _ rows kept0 hflt r hr).2
            · rw [if_neg hie] at h
              intro r hr
              have hr0 := seriesFilterLoop_sub inAcq rest kept0 kept h r hr
              exact (optionFilter_mem _ rows kept0 hflt r hr0).2
      · rw [if_neg hcol] at h
        cases h

theorem seriesFilterLoop_pass (inAcq : DFrame) :
    ∀ (fields : List FieldDef) (rows kept : List (List Value)),
      seriesFilterLoop inAcq fields rows = some (.rows kept) → kept ≠ [] →
      ∀ fdef ∈ fields, ∀ row ∈ kept,
        _row_passes_constraint (inAcq.cell row fdef.field)
          fdef.value fdef.tolerance fdef.contains = some true
  | [], rows, kept, _, _ => fun fdef hf => absurd hf (List.not_mem_nil fdef)
  | f :: fs, rows, kept, h, hne => by
      simp only [seriesFilterLoop] at h
      by_cases hcol : f.field ∈ inAcq.cols
      · rw [if_pos hcol] at h
        cases hflt : optionFilter
            (fun r => _row_passes_constraint (inAcq.cell r f.field)
              f.value f.tolerance f.contains) rows with
        | none => rw [hflt] at h; cases h
        | some kept0 =>
            simp only [hflt] at h
            by_cases hie : kept0.isEmpty = true
            · rw [if_pos hie] at h
              simp only [Option.some.injEq, SeriesFilterOutcome.rows.injEq] at h
              subst h
              exact absurd (List.isEmpty_iff.mp hie) hne
            · rw [if_neg hie] at h
              intro fdef hf row hrow
              rcases List.mem_cons.mp hf with h1 | h1
              · subst h1
                have hr0 := seriesFilterLoop_sub inAcq fs kept0 kept h row hrow
                exact (optionFilter_mem _ rows kept0 hflt row hr0).1
              · exact seriesFilterLoop_pass inAcq fs kept0 kept h hne fdef h1 row hrow
      · rw [if_neg hcol] at h
        cases h

theorem traverseOpt_of_forall {α β : Type} (f : α → Option β) (g : α → β) :
    ∀ l : List α, (∀ x ∈ l, f x = some (g x)) → traverseOpt f l = some (l.map g)
  | [], _ => rfl
  | x :: xs, h => by
      simp only [traverseOpt, h x (List.mem_cons_self x xs),
        traverseOpt_of_forall f g xs (fun y hy => h y (List.mem_cons_of_mem x hy)),
        List.map_cons]

theorem rowPasses_contains_inv (c : Value) (v : Value) (e : Option Value)
    (t : Option ℚ) (h : _row_passes_constraint v e t (some c) = some true) :
    v.isContainer = true ∧ pyIn c v = some true := by
  by_cases hv : v.isContainer = true
  · refine ⟨hv, ?_⟩
    simp only [_row_passes_constraint, hv, if_true] at h
    exact h
  · simp only [_row_passes_constraint, hv, Bool.false_eq_true, if_false] at h
    cases h

theorem rowPasses_tol_inv (v : Value) (e : Option Value) (tol : ℚ)
    (h : _row_passes_constraint v e (some tol) Option.none = some true) :
    v.isNum = true ∧ ∃ q, e = some (.num q) ∧
      q - tol ≤ v.asNum ∧ v.asNum ≤ q + tol := by
  by_cases hv : v.isNum = true
  · refine ⟨hv, ?_⟩
    cases e with
    | none => simp only [_row_passes_constraint, hv, if_true] at h; cases h
    | some ev =>
        cases hek : ev.isNum with
        | false =>
            simp only [_row_passes_constraint, hv, if_true, hek,
              Bool.false_eq_true, if_false] at h
            cases h
        | true =>
            cases ev with
            | num q =>
                refine ⟨q, rfl, ?_⟩
                rw [rowPasses_tol_num q tol v hv] at h
                exact of_decide_eq_true (Option.some.inj h)
            | str s => cases hek
            | vlist l => cases hek
            | tup l => cases hek
            | none => cases hek
  · rw [rowPasses_tol_nonnum e tol v (by
        cases hb : v.isNum
        · rfl
        · exact absurd hb hv)] at h
    cases h

theorem rowPasses_list_inv (el : List Value) (v : Value)
    (h : _row_passes_constraint v (some (.vlist el)) Option.none Option.none
      = some true) :
    ∃ al, v = .vlist al ∧ Value.allHashable al = true ∧
      Value.allHashable el = true ∧ al.toFinset = el.toFinset := by
  cases v with
  | vlist al =>
      cases hh : (Value.allHashable al && Value.allHashable el) with
      | false =>
          simp only [_row_passes_constraint, hh, Bool.false_eq_true, if_false] at h
          cases h
      | true =>
          rw [Bool.and_eq_true] at hh
          refine ⟨al, rfl, hh.1, hh.2, ?_⟩
          simp only [_row_passes_constraint, hh.1, hh.2, Bool.and_self, if_true] at h
          exact of_decide_eq_true (Option.some.inj h)
  | num q => cases h
  | str s => cases h
  | tup l => cases h
  | none => cases h

theorem rowPasses_scalar_inv (e : Value) (he : ∀ el, e ≠ .vlist el) (v : Value)
    (h : _row_passes_constraint v (some e) Option.none Option.none = some true) :
    v = e := by
  rw [rowPasses_scalar e he v] at h
  exact of_decide_eq_true (Option.some.inj h)

theorem containsInvalid_allPass (c : Value) :
    ∀ vs : List Value, (∀ v ∈ vs, v.isContainer = true ∧ pyIn c v = some true) →
      containsInvalid c vs = some []
  | [], _ => rfl
  | v :: vs, h => by
      obtain ⟨h1, h2⟩ := h v (List.mem_cons_self v vs)
      simp only [containsInvalid, h1, if_true, h2,
        containsInvalid_allPass c vs (fun w hw => h w (List.mem_cons_of_mem v hw)),
        Option.map_some', if_true]

theorem listInvalid_allPass :
    ∀ (el : List Value) (vs : List Value),
      (∀ v ∈ vs, ∃ al, v = .vlist al ∧ Value.allHashable al = true ∧
        Value.allHashable el = true ∧ al.toFinset = el.toFinset) →
      listInvalid el vs = some []
  | _, [], _ => rfl
  | el, v :: vs, h => by
      obtain ⟨al, hal, hh1, hh2, heq⟩ := h v (List.mem_cons_self v vs)
      subst hal
      simp only [listInvalid, hh1, hh2, Bool.and_self, if_true,
        listInvalid_allPass el vs (fun w hw => h w (List.mem_cons_of_mem _ hw)),
        Option.map_some', heq, if_pos]

/-- If every distinct surviving value satisfies the row predicate, the
second-pass check of that field reports no failure. -/
theorem traverseOpt_mem {α β : Type} (f : α → Option β) :
    ∀ (l : List α) (ys : List β), traverseOpt f l = some ys →
      ∀ y ∈ ys, ∃ x ∈ l, f x = some y
  | [], ys, h, y, hy => by
      cases h
      cases hy
  | x :: xs, ys, h, y, hy => by
      simp only [traverseOpt] at h
      cases hfx : f x with
      | none => rw [hfx] at h; cases h
      | some b =>
          rw [hfx] at h
          cases hrec : traverseOpt f xs with
          | none => rw [hrec] at h; cases h
          | some bs =>
              rw [hrec] at h
              injection h with h
              subst h
              rcases List.mem_cons.mp hy with h1 | h1
              · exact ⟨x, List.mem_cons_self x xs, h1 ▸ hfx⟩
              · obtain ⟨x2, hx2, hfx2⟩ := traverseOpt_mem f xs bs hrec y h1
                exact ⟨x2, List.mem_cons_of_mem x hx2, hfx2⟩

theorem seriesFieldCheck_noFail (fdef : FieldDef) (values : List Value)
    (h : ∀ v ∈ values, _row_passes_constraint v fdef.value fdef.tolerance
      fdef.contains = some true) :
    seriesFieldCheck fdef values = some Option.none := by
  cases hcont : fdef.contains with
  | some c =>
      have hall : ∀ v ∈ values, v.isContainer = true ∧ pyIn c v = some true :=
        fun v hv => rowPasses_contains_inv c v _ _ (hcont ▸ h v hv)
      simp only [seriesFieldCheck, hcont, containsInvalid_allPass c values hall,
        List.isEmpty_nil, if_true]
  | none =>
  cases htol : fdef.tolerance with
  | some tol =>
      have hall : ∀ v ∈ values, v.isNum = true ∧ ∃ q,
          fdef.value = some (.num q) ∧ q - tol ≤ v.asNum ∧ v.asNum ≤ q + tol :=
        fun v hv => rowPasses_tol_inv v fdef.value tol (by
          have hh := h v hv
          rw [hcont, htol] at hh
          exact hh)
      have hnn : (values.filter fun v => !v.isNum) = [] := by
        rw [List.filter_eq_nil_iff]
        intro v hv
        rw [(hall v hv).1]
        decide
      by_cases hvempty : values = []
      · subst hvempty
        simp [seriesFieldCheck, htol, hcont, tolInvalid]
      · obtain ⟨v0, hv0⟩ := List.exists_mem_of_ne_nil values hvempty
        obtain ⟨q, hq, _, _⟩ := (hall v0 hv0).2
        have hinv : tolInvalid fdef.value tol values = some [] := by
          rw [hq, tolInvalid_eq q tol values]
          rw [List.filter_eq_nil_iff.mpr]
          intro v hv
          obtain ⟨hnum, q2, hq2, hw1, hw2⟩ := hall v hv
          rw [hq] at hq2
          have hqq : q2 = q := (Value.num.inj (Option.some.inj hq2)).symm
          rw [hqq] at hw1 hw2
          rw [decide_eq_true ⟨hw1, hw2⟩]
          decide
        simp only [seriesFieldCheck, hcont, htol, hnn, List.isEmpty_nil,
          Bool.not_true, hinv, if_true]
        rw [if_neg (by intro hcontra; exact hcontra trivial)]
  | none =>
  cases hval : fdef.value with
  | some e =>
      cases e with
      | vlist el =>
          have hall : ∀ v ∈ values, ∃ al, v = .vlist al ∧
              Value.allHashable al = true ∧ Value.allHashable el = true ∧
              al.toFinset = el.toFinset :=
            fun v hv => rowPasses_list_inv el v (by
              have hh := h v hv
              rw [hcont, htol, hval] at hh
              exact hh)
          simp only [seriesFieldCheck, hcont, htol, hval,
            listInvalid_allPass el values hall, List.isEmpty_nil, if_true]
      | num x =>
          have hfil : (values.filter fun v => !(decide (v = Value.num x))) = [] := by
            rw [List.filter_eq_nil_iff]
            intro v hv
            have := rowPasses_scalar_inv (Value.num x) (by intro el hcontra; cases hcontra)
              v (by have hh := h v hv; rw [hcont, htol, hval] at hh; exact hh)
            rw [decide_eq_true this]
            decide
          simp only [seriesFieldCheck, hcont, htol, hval, hfil, List.isEmpty_nil, if_true]
      | str s =>
          have hfil : (values.filter fun v => !(decide (v = Value.str s))) = [] := by
            rw [List.filter_eq_nil_iff]
            intro v hv
            have := rowPasses_scalar_inv (Value.str s) (by intro el hcontra; cases hcontra)
              v (by have hh := h v hv; rw [hcont, htol, hval] at hh; exact hh)
            rw [decide_eq_true this]
            decide
          simp only [seriesFieldCheck, hcont, htol, hval, hfil, List.isEmpty_nil, if_true]
      | tup l =>
          have hfil : (values.filter fun v => !(decide (v = Value.tup l))) = [] := by
            rw [List.filter_eq_nil_iff]
            intro v hv
            have := rowPasses_scalar_inv (Value.tup l) (by intro el hcontra; cases hcontra)
              v (by have hh := h v hv; rw [hcont, htol, hval] at hh; exact hh)
            rw [decide_eq_true this]
            decide
          simp only [seriesFieldCheck, hcont, htol, hval, hfil, List.isEmpty_nil, if_true]
      | none =>
          have hfil : (values.filter fun v => !(decide (v = Value.none))) = [] := by
            rw [List.filter_eq_nil_iff]
            intro v hv
            have := rowPasses_scalar_inv Value.none (by intro el hcontra; cases hcontra)
              v (by have hh := h v hv; rw [hcont, htol, hval] at hh; exact hh)
            rw [decide_eq_true this]
            decide
          simp only [seriesFieldCheck, hcont, htol, hval, hfil, List.isEmpty_nil, if_true]
  | none => simp only [seriesFieldCheck, hcont, htol, hval]

/-- C10: whenever the sequential row filter of the series phase leaves a
non-empty surviving subset, the single aggregated record emitted always
passes — the second validation pass applies the same per-value predicate
that every surviving row already satisfied. -/
theorem c10_second_pass_never_fails (refn inn : String) (inAcq : DFrame)
    (sdef : SeriesDef) (r : CRecord) (kept : List (List Value))
    (hloop : seriesFilterLoop inAcq sdef.fields inAcq.rows = some (.rows kept))
    (hne : kept ≠ [])
    (hr : checkSeriesFields refn inn inAcq sdef = some r) :
    r.passed = true ∧ r.message = .seriesPassed := by
  have hpass := seriesFilterLoop_pass inAcq sdef.fields inAcq.rows kept hloop hne
  have hvalpass : ∀ fdef ∈ sdef.fields,
      ∀ v ∈ dedupFirst ((DFrame.mk inAcq.cols kept).colValues fdef.field),
        _row_passes_constraint v fdef.value fdef.tolerance fdef.contains
          = some true := by
    intro fdef hf v hv
    have hv2 := dedupFirst_sub _ v hv
    simp only [DFrame.colValues, List.mem_map] at hv2
    obtain ⟨row, hrow, hcell⟩ := hv2
    have := hpass fdef hf row hrow
    have hcells : (DFrame.mk inAcq.cols kept).cell row fdef.field
        = inAcq.cell row fdef.field := by
      simp [DFrame.cell, DFrame.colIdx]
    rw [← hcell, hcells]
    exact this
  have hkne : kept.isEmpty = false := by
    cases kept with
    | nil => exact absurd rfl hne
    | cons a l => rfl
  simp only [checkSeriesFields, hloop, hkne, Bool.false_eq_true, if_false] at hr
  split at hr
  next checks htr =>
    have hmsg : ∀ t ∈ checks, t.2.2 = (Option.none : Option SeriesFieldMsg) := by
      intro t ht
      obtain ⟨fdef, hf, hft⟩ := traverseOpt_mem _ sdef.fields checks htr t ht
      cases huv : uniqueVals ((DFrame.mk inAcq.cols kept).colValues fdef.field) with
      | none =>
          simp only [huv] at hft
          exact Option.noConfusion hft
      | some uvals =>
          simp only [huv] at hft
          cases hsc : seriesFieldCheck fdef uvals with
          | none =>
              rw [hsc] at hft
              simp at hft
          | some m =>
              rw [hsc, Option.map_some'] at hft
              injection hft with hft
              have huvals : uvals =
                  dedupFirst ((DFrame.mk inAcq.cols kept).colValues fdef.field) := by
                rw [uniqueVals] at huv
                by_cases hall : (((DFrame.mk inAcq.cols kept).colValues
                    fdef.field).all Value.isHashable) = true
                · rw [if_pos hall] at huv
                  exact (Option.some.inj huv).symm
                · rw [if_neg hall] at huv
                  cases huv
              have hmnone : m = Option.none := by
                have hnf := seriesFieldCheck_noFail fdef uvals (by
                  rw [huvals]
                  exact hvalpass fdef hf)
                rw [hsc] at hnf
                exact Option.some.inj hnf
              subst hft
              exact hmnone
    have hfail : (checks.filterMap fun t => t.2.2) = [] := by
      rw [List.filterMap_eq_nil_iff]
      exact hmsg
    simp only [hfail, List.isEmpty_nil, if_true] at hr
    cases hr
    exact ⟨rfl, rfl⟩
  next htr => cases hr

/-- C10 witness: the concrete `SliceThickness` scenario — rows `1.0, 1.0`
survive and the aggregated record passes. -/
theorem c10_second_pass_never_fails_witness :
    scenarioRec.passed = true ∧ scenarioRec.message = .seriesPassed :=
  c10_second_pass_never_fails "T1" "acq-a" inAcqEx sdefEx scenarioRec
    [[.str "acq-a", .num 1], [.str "acq-a", .num 1]]
    (by with_unfolding_all rfl) (by decide) (by with_unfolding_all rfl)

/-!
### Claim C4 — the sequential series filter and the "not found" records
-/

theorem seriesFilterLoop_missing (inAcq : DFrame) :
    ∀ (fields : List FieldDef) (rows : List (List Value)) (fdef : FieldDef),
      seriesFilterLoop inAcq fields rows = some (.missing fdef) →
      fdef ∈ fields ∧ fdef.field ∉ inAcq.cols
  | [], rows, fdef, h => by cases h
  | f :: fs, rows, fdef, h => by
      simp only [seriesFilterLoop] at h
      by_cases hcol : f.field ∈ inAcq.cols
      · rw [if_pos hcol] at h
        cases hflt : optionFilter
            (fun r => _row_passes_constraint (inAcq.cell r f.field)
              f.value f.tolerance f.contains) rows with
        | none => rw [hflt] at h; cases h
        | some kept0 =>
            simp only [hflt] at h
            by_cases hie : kept0.isEmpty = true
            · rw [if_pos hie] at h; cases h
            · rw [if_neg hie] at h
              obtain ⟨h1, h2⟩ := seriesFilterLoop_missing inAcq fs kept0 fdef h
              exact ⟨List.mem_cons_of_mem f h1, h2⟩
      · rw [if_neg hcol] at h
        have : f = fdef := by
          cases h; rfl
        subst this
        exact ⟨List.mem_cons_self f fs, hcol⟩

theorem seriesFilterLoop_all_present (inAcq : DFrame) :
    ∀ (fields : List FieldDef) (rows kept : List (List Value)),
      seriesFilterLoop inAcq fields rows = some (.rows kept) → kept ≠ [] →
      ∀ f ∈ fields, f.field ∈ inAcq.cols
  | [], _, _, _, _ => fun f hf => absurd hf (List.not_mem_nil f)
  | f :: fs, rows, kept, h, hne => by
      simp only [seriesFilterLoop] at h
      by_cases hcol : f.field ∈ inAcq.cols
      · rw [if_pos hcol] at h
        cases hflt : optionFilter
            (fun r => _row_passes_constraint (inAcq.cell r f.field)
              f.value f.tolerance f.contains) rows with
        | none => rw [hflt] at h; cases h
        | some kept0 =>
            simp only [hflt] at h
            by_cases hie : kept0.isEmpty = true
            · rw [if_pos hie] at h
              simp only [Option.some.injEq, SeriesFilterOutcome.rows.injEq] at h
              subst h
              exact absurd (List.isEmpty_iff.mp hie) hne
            · rw [if_neg hie] at h
              intro g hg
              rcases List.mem_cons.mp hg with h1 | h1
              · subst h1; exact hcol
              · exact seriesFilterLoop_all_present inAcq fs kept0 kept h hne g h1
      · rw [if_neg hcol] at h
        cases h

theorem seqFilterAll_nil (inAcq : DFrame) :
    ∀ fields : List FieldDef, seqFilterAll inAcq fields [] = some []
  | [] => rfl
  | f :: fs => by
      simp only [seqFilterAll, optionFilter]
      exact seqFilterAll_nil inAcq fs

/-- With every constrained field present, the short-circuiting filter loop
and the spec-side full sequential filter agree. -/
theorem seriesFilterLoop_eq_seqFilterAll (inAcq : DFrame) :
    ∀ (fields : List FieldDef) (rows : List (List Value)),
      (∀ f ∈ fields, f.field ∈ inAcq.cols) →
      ∀ res, (seriesFilterLoop inAcq fields rows = some (.rows res) ↔
        seqFilterAll inAcq fields rows = some res)
  | [], rows, _, res => by
      simp [seriesFilterLoop, seqFilterAll]
  | f :: fs, rows, hall, res => by
      have hcol := hall f (List.mem_cons_self f fs)
      simp only [seriesFilterLoop, seqFilterAll, if_pos hcol]
      cases hflt : optionFilter
          (fun r => _row_passes_constraint (inAcq.cell r f.field)
            f.value f.tolerance f.contains) rows with
      | none => simp
      | some kept0 =>
          simp only []
          by_cases hie : kept0.isEmpty = true
          · rw [if_pos hie]
            rw [List.isEmpty_iff] at hie
            subst hie
            rw [seqFilterAll_nil inAcq fs]
            constructor
            · intro h
              cases h
              rfl
            · intro h
              cases h
              rfl
          · rw [if_neg hie]
            exact seriesFilterLoop_eq_seqFilterAll inAcq fs kept0
              (fun g hg => hall g (List.mem_cons_of_mem f hg)) res

/-- C4: in the series-level phase, rows are filtered sequentially by each
series field constraint, and (first conjunct) the emitted record is a
failing "not found" record if and only if some constrained field is
absent from the input columns or the full sequential filter empties the
surviving set; (second conjunct) in the scenario `SliceThickness = 1.0`
with tolerance 0 over input values `[1.0, 1.0, 3.0]`, the series is
reported as found and the aggregated record passes on the surviving
subset. -/
theorem c4_series_notfound_iff_and_scenario :
    (∀ (refn inn : String) (inAcq : DFrame) (sdef : SeriesDef) (r : CRecord),
      checkSeriesFields refn inn inAcq sdef = some r →
      (recordIsNotFound r = true ↔
        ((∃ fdef ∈ sdef.fields, fdef.field ∉ inAcq.cols) ∨
          seqFilterAll inAcq sdef.fields inAcq.rows = some []))) ∧
    checkSeriesFields "T1" "acq-a" inAcqEx sdefEx = some scenarioRec := by
  constructor
  · intro refn inn inAcq sdef r hr
    unfold checkSeriesFields at hr
    split at hr
    case h_1 heq => exact Option.noConfusion hr
    case h_2 fdef heq =>
      injection hr with hr
      subst hr
      constructor
      · intro _
        obtain ⟨h1, h2⟩ := seriesFilterLoop_missing inAcq sdef.fields inAcq.rows fdef heq
        exact Or.inl ⟨fdef, h1, h2⟩
      · intro _
        rfl
    case h_3 kept heq =>
      by_cases hie : kept.isEmpty = true
      · rw [if_pos hie] at hr
        injection hr with hr
        subst hr
        constructor
        · intro _
          by_cases hall : ∀ f ∈ sdef.fields, f.field ∈ inAcq.cols
          · refine Or.inr ?_
            have h2 := (seriesFilterLoop_eq_seqFilterAll inAcq sdef.fields
              inAcq.rows hall kept).mp heq
            rw [List.isEmpty_iff] at hie
            rw [hie] at h2
            exact h2
          · push_neg at hall
            exact Or.inl hall
        · intro _
          rfl
      · rw [if_neg hie] at hr
        have hne : kept ≠ [] := fun h => hie (List.isEmpty_iff.mpr h)
        have hall := seriesFilterLoop_all_present inAcq sdef.fields inAcq.rows kept heq hne
        have hseqk := (seriesFilterLoop_eq_seqFilterAll inAcq sdef.fields
          inAcq.rows hall kept).mp heq
        have hLHS : recordIsNotFound r = false := by
          simp only [] at hr
          split at hr
          next checks htr =>
            split at hr
            · injection hr with hr
              subst hr
              rfl
            · injection hr with hr
              subst hr
              rfl
          next htr => exact Option.noConfusion hr
        rw [hLHS]
        constructor
        · intro h
          exact Bool.noConfusion h
        · rintro (⟨f, hf1, hf2⟩ | hseq)
          · exact absurd (hall f hf1) hf2
          · rw [hseqk] at hseq
            injection hseq with h
            exact absurd h hne
  · with_unfolding_all rfl

theorem c4_series_notfound_iff_and_scenario_witness :
    recordIsNotFound scenarioRec = true ↔
      ((∃ fdef ∈ sdefEx.fields, fdef.field ∉ inAcqEx.cols) ∨
        seqFilterAll inAcqEx sdefEx.fields inAcqEx.rows = some []) :=
  c4_series_notfound_iff_and_scenario.1 "T1" "acq-a" inAcqEx sdefEx scenarioRec
    (by with_unfolding_all rfl)

/-- C8: the python-module compliance path does not record validation
failures even with the default `raise_errors=False`: `validate` emits
error dicts with keys acquisition/field/rule/value/message/passed only,
while the summary row reads `error["expected"]`, so the first recorded
failure raises `KeyError("expected")` instead of yielding a record
list. -/
theorem c8_python_module_raises_keyerror :
    check_session_compliance_with_python_module inSessionEx8
        [("ref1", pmodelEx)] [("ref1", "acq-a")] false =
      .error (.keyError "expected") := by
  with_unfolding_all rfl

/-!
### Counterexamples for the acquisition-labeling claims
-/

/-- C1 fails as stated: `build_acquisition_signatures` also groups by
`CoilType` when that column exists, so two records with the same
protocol name and identical values for every settings field present
(`SliceThickness`) still receive different labels. -/
theorem c1_same_settings_different_labels :
    build_acquisition_signatures c1df ["ProtocolName"] ["SliceThickness"] =
        some c1out ∧
      c1out.cell (c1out.rows.getD 0 []) "ProtocolName" =
        c1out.cell (c1out.rows.getD 1 []) "ProtocolName" ∧
      c1out.cell (c1out.rows.getD 0 []) "SliceThickness" =
        c1out.cell (c1out.rows.getD 1 []) "SliceThickness" ∧
      acqLabel c1out 0 ≠ acqLabel c1out 1 := by
  with_unfolding_all decide

/-- C7 fails as stated: distinct settings-tuples are numbered in pandas
sorted key order, not in order of first observation — the first-observed
tuple (`SliceThickness = 2`) gets counter 2, while the spec-side
first-observed numbering would give it counter 1. -/
theorem c7_numbering_is_sorted_not_first_observed :
    build_acquisition_signatures c7df ["ProtocolName"] ["SliceThickness"] =
        some c7out ∧
      acqLabel c7out 0 = .str "acq-a-2" ∧
      sigOfFirstObserved (withBase c7df ["ProtocolName"])
          (groupingFieldsOf (withBase c7df ["ProtocolName"]).cols ["SliceThickness"])
          ((withBase c7df ["ProtocolName"]).rows.getD 0 []) =
        some (.str "acq-a-1") := by
  with_unfolding_all decide

/-- C9 fails as stated: the setup and signature steps mutate the caller's
table in place — a list-valued cell becomes a tuple, and the temporary
`BaseAcquisition`/`AcquisitionSignature` columns remain on the caller's
object (only the function's own return value drops them). -/
theorem c9_caller_frame_mutated :
    setupAndBuildSignatures c9df ["SliceThickness"] = some c9out ∧
      c9df.cell (c9df.rows.getD 0 []) "EchoTimes" = .vlist [.num 1, .num 2] ∧
      c9out.cell (c9out.rows.getD 0 []) "EchoTimes" = .tup [.num 1, .num 2] ∧
      c9out.cols ≠ c9df.cols := by
  with_unfolding_all decide

/-!
### Frame infrastructure for the acquisition-labeling claims
-/

theorem indexOf?_eq_none_of_not_mem {α : Type} [DecidableEq α] :
    ∀ (l : List α) (a : α), a ∉ l → l.indexOf? a = none
  | [], _, _ => rfl
  | x :: xs, a, h => by
      rw [List.indexOf?_cons]
      have hxa : ¬ ((x == a) = true) := by
        simp only [beq_iff_eq]
        intro he
        exact h (List.mem_cons.mpr (Or.inl he.symm))
      rw [if_neg hxa,
        indexOf?_eq_none_of_not_mem xs a (fun hm => h (List.mem_cons_of_mem x hm))]
      rfl

theorem indexOf?_append_self {α : Type} [DecidableEq α] :
    ∀ (l : List α) (a : α), a ∉ l → (l ++ [a]).indexOf? a = some l.length
  | [], a, _ => by simp [List.indexOf?_cons]
  | x :: xs, a, h => by
      rw [List.cons_append, List.indexOf?_cons]
      have hxa : ¬ ((x == a) = true) := by
        simp only [beq_iff_eq]
        intro he
        exact h (List.mem_cons.mpr (Or.inl he.symm))
      rw [if_neg hxa,
        indexOf?_append_self xs a (fun hm => h (List.mem_cons_of_mem x hm))]
      rfl

theorem indexOf?_append_left {α : Type} [DecidableEq α] :
    ∀ (l l2 : List α) (a : α), a ∈ l → (l ++ l2).indexOf? a = l.indexOf? a
  | [], _, a, h => absurd h (List.not_mem_nil a)
  | x :: xs, l2, a, h => by
      rw [List.cons_append, List.indexOf?_cons, List.indexOf?_cons]
      by_cases hxa : (x == a) = true
      · rw [if_pos hxa, if_pos hxa]
      · have hmem : a ∈ xs := by
          rcases List.mem_cons.mp h with h1 | h1
          · exact absurd (beq_iff_eq.mpr h1.symm) hxa
          · exact h1
        rw [if_neg hxa, if_neg hxa, indexOf?_append_left xs l2 a hmem]

theorem indexOf?_getElem {α : Type} [DecidableEq α] :
    ∀ (l : List α) (a : α) (i : Nat), l.indexOf? a = some i → l[i]? = some a
  | [], _, _, h => by cases h
  | x :: xs, a, i, h => by
      rw [List.indexOf?_cons] at h
      by_cases hxa : (x == a) = true
      · rw [if_pos hxa] at h
        cases h
        simp only [List.getElem?_cons_zero, Option.some.injEq]
        exact beq_iff_eq.mp hxa
      · rw [if_neg hxa] at h
        cases hi : xs.indexOf? a with
        | none => rw [hi] at h; cases h
        | some j =>
            rw [hi] at h
            injection h with h
            subst h
            simp only [List.getElem?_cons_succ]
            exact indexOf?_getElem xs a j hi

theorem indexOf?_lt_length {α : Type} [DecidableEq α] (l : List α) (a : α) (i : Nat)
    (h : l.indexOf? a = some i) : i < l.length := by
  have := indexOf?_getElem l a i h
  exact (List.getElem?_eq_some.mp this).1

theorem indexOf?_isSome_of_mem {α : Type} [DecidableEq α] :
    ∀ (l : List α) (a : α), a ∈ l → (l.indexOf? a).isSome = true
  | [], a, h => absurd h (List.not_mem_nil a)
  | x :: xs, a, h => by
      rw [List.indexOf?_cons]
      by_cases hxa : (x == a) = true
      · rw [if_pos hxa]; rfl
      · have hmem : a ∈ xs := by
          rcases List.mem_cons.mp h with h1 | h1
          · exact absurd (beq_iff_eq.mpr h1.symm) hxa
          · exact h1
        rw [if_neg hxa]
        have hrec := indexOf?_isSome_of_mem xs a hmem
        cases hi : xs.indexOf? a with
        | none => rw [hi] at hrec; cases hrec
        | some j => rfl

theorem getD_map_of_lt {α β : Type} (f : α → β) :
    ∀ (l : List α) (i : Nat), i < l.length → ∀ (d : β) (e : α),
      (l.map f).getD i d = f (l.getD i e)
  | [], i, h, _, _ => absurd h (Nat.not_lt_zero i)
  | _ :: _, 0, _, _, _ => rfl
  | _ :: l, i + 1, h, d, e => getD_map_of_lt f l i (Nat.lt_of_succ_lt_succ h) d e

theorem getD_zip_of_lt {α β : Type} :
    ∀ (l1 : List α) (l2 : List β) (i : Nat), i < l1.length → i < l2.length →
      ∀ (d : α × β), (l1.zip l2).getD i d = (l1.getD i d.1, l2.getD i d.2)
  | [], _, i, h1, _, _ => absurd h1 (Nat.not_lt_zero i)
  | _ :: _, [], i, _, h2, _ => absurd h2 (Nat.not_lt_zero i)
  | _ :: _, _ :: _, 0, _, _, _ => rfl
  | _ :: l1, _ :: l2, i + 1, h1, h2, d =>
      getD_zip_of_lt l1 l2 i (Nat.lt_of_succ_lt_succ h1) (Nat.lt_of_succ_lt_succ h2) d

theorem getD_mem_of_lt {α : Type} (l : List α) (i : Nat) (h : i < l.length) (d : α) :
    l.getD i d ∈ l := by
  rw [List.getD_eq_getElem l d h]
  exact List.getElem_mem h

theorem setCol_cols_of_not_mem (df : DFrame) (c : String) (vals : List Value)
    (h : c ∉ df.cols) : (df.setCol c vals).cols = df.cols ++ [c] := by
  simp only [DFrame.setCol, DFrame.colIdx, indexOf?_eq_none_of_not_mem df.cols c h]

theorem setCol_cols_sub (df : DFrame) (c : String) (vals : List Value) :
    (df.setCol c vals).cols = df.cols ∨ (df.setCol c vals).cols = df.cols ++ [c] := by
  simp only [DFrame.setCol, DFrame.colIdx]
  cases df.cols.indexOf? c with
  | none => exact Or.inr rfl
  | some i => exact Or.inl rfl

theorem setCol_rows_length (df : DFrame) (c : String) (vals : List Value)
    (h : vals.length = df.rows.length) :
    (df.setCol c vals).rows.length = df.rows.length := by
  simp only [DFrame.setCol, DFrame.colIdx]
  cases df.cols.indexOf? c <;> simp [h]

theorem setCol_WF (df : DFrame) (c : String) (vals : List Value)
    (hwf : df.WF) (hlen : vals.length = df.rows.length) : (df.setCol c vals).WF := by
  intro r hr
  cases hidx : df.cols.indexOf? c with
  | some i =>
      simp only [DFrame.setCol, DFrame.colIdx, hidx, List.mem_map] at hr ⊢
      obtain ⟨p, hp, rfl⟩ := hr
      have hp1 := (List.mem_zip hp).1
      simp only [List.length_set]
      exact hwf p.1 hp1
  | none =>
      simp only [DFrame.setCol, DFrame.colIdx, hidx, List.mem_map] at hr ⊢
      obtain ⟨p, hp, rfl⟩ := hr
      have hp1 := (List.mem_zip hp).1
      simp only [List.length_append, List.length_cons, List.length_nil]
      rw [hwf p.1 hp1]

theorem setCol_rows_getD_not_mem (df : DFrame) (c : String) (vals : List Value)
    (hc : c ∉ df.cols) (hlen : vals.length = df.rows.length)
    (i : Nat) (hi : i < df.rows.length) :
    (df.setCol c vals).rows.getD i [] =
      (df.rows.getD i []) ++ [vals.getD i Value.none] := by
  have hizip : i < (df.rows.zip vals).length := by
    simp only [List.length_zip, hlen, Nat.min_self]
    exact hi
  simp only [DFrame.setCol, DFrame.colIdx, indexOf?_eq_none_of_not_mem df.cols c hc]
  rw [getD_map_of_lt _ _ i hizip _ ([], Value.none),
    getD_zip_of_lt df.rows vals i hi (hlen ▸ hi) ([], Value.none)]

theorem setCol_rows_getD_mem (df : DFrame) (c : String) (vals : List Value)
    (idx : Nat) (hidx : df.cols.indexOf? c = some idx)
    (hlen : vals.length = df.rows.length) (i : Nat) (hi : i < df.rows.length) :
    (df.setCol c vals).rows.getD i [] =
      (df.rows.getD i []).set idx (vals.getD i Value.none) := by
  have hizip : i < (df.rows.zip vals).length := by
    simp only [List.length_zip, hlen, Nat.min_self]
    exact hi
  simp only [DFrame.setCol, DFrame.colIdx, hidx]
  rw [getD_map_of_lt _ _ i hizip _ ([], Value.none),
    getD_zip_of_lt df.rows vals i hi (hlen ▸ hi) ([], Value.none)]

theorem setCol_cols_of_mem (df : DFrame) (c : String) (vals : List Value)
    (idx : Nat) (hidx : df.cols.indexOf? c = some idx) :
    (df.setCol c vals).cols = df.cols := by
  simp only [DFrame.setCol, DFrame.colIdx, hidx]

theorem setCol_cell_self (df : DFrame) (c : String) (vals : List Value)
    (hwf : DFrame.WF df) (hlen : vals.length = df.rows.length)
    (i : Nat) (hi : i < df.rows.length) :
    (df.setCol c vals).cell ((df.setCol c vals).rows.getD i []) c =
      vals.getD i Value.none := by
  have hrowmem : df.rows.getD i [] ∈ df.rows := getD_mem_of_lt df.rows i hi []
  have hrowlen : (df.rows.getD i []).length = df.cols.length := hwf _ hrowmem
  cases hidx : df.cols.indexOf? c with
  | some idx =>
      have hidxlt : idx < df.cols.length := indexOf?_lt_length df.cols c idx hidx
      rw [setCol_rows_getD_mem df c vals idx hidx hlen i hi]
      simp only [DFrame.setCol, DFrame.colIdx, hidx, DFrame.cell]
      have hsetlen : idx <
          ((df.rows.getD i []).set idx (vals.getD i Value.none)).length := by
        rw [List.length_set, hrowlen]
        exact hidxlt
      rw [List.getD_eq_getElem _ _ hsetlen, List.getElem_set_self]
  | none =>
      have hcnot : c ∉ df.cols := fun hm => by
        have hs := indexOf?_isSome_of_mem df.cols c hm
        rw [hidx] at hs
        cases hs
      rw [setCol_rows_getD_not_mem df c vals hcnot hlen i hi]
      simp only [DFrame.setCol, DFrame.colIdx, hidx, DFrame.cell,
        indexOf?_append_self df.cols c hcnot]
      rw [List.getD_eq_getElem?_getD,
        List.getElem?_append_right (by rw [hrowlen] : (df.rows.getD i []).length ≤ df.cols.length),
        hrowlen]
      simp

theorem setCol_cell_other (df : DFrame) (c : String) (vals : List Value)
    (hwf : DFrame.WF df) (hlen : vals.length = df.rows.length)
    (i : Nat) (hi : i < df.rows.length) (c' : String) (hne : c' ≠ c) :
    (df.setCol c vals).cell ((df.setCol c vals).rows.getD i []) c' =
      df.cell (df.rows.getD i []) c' := by
  have hrowmem : df.rows.getD i [] ∈ df.rows := getD_mem_of_lt df.rows i hi []
  have hrowlen : (df.rows.getD i []).length = df.cols.length := hwf _ hrowmem
  cases hidx : df.cols.indexOf? c with
  | some idx =>
      rw [setCol_rows_getD_mem df c vals idx hidx hlen i hi]
      simp only [DFrame.setCol, DFrame.colIdx, hidx]
      cases hidx2 : df.cols.indexOf? c' with
      | none => simp only [DFrame.cell, DFrame.colIdx, hidx2]
      | some idx2 =>
          have hne2 : idx ≠ idx2 := by
            intro he
            have h1 := indexOf?_getElem df.cols c idx hidx
            have h2 := indexOf?_getElem df.cols c' idx2 hidx2
            rw [he, h2] at h1
            exact hne (Option.some.inj h1)
          simp only [DFrame.cell, DFrame.colIdx, hidx2]
          simp only [List.getD_eq_getElem?_getD, List.getElem?_set_ne hne2]
  | none =>
      have hcnot : c ∉ df.cols := fun hm => by
        have hs := indexOf?_isSome_of_mem df.cols c hm
        rw [hidx] at hs
        cases hs
      rw [setCol_rows_getD_not_mem df c vals hcnot hlen i hi]
      simp only [DFrame.setCol, DFrame.colIdx, hidx]
      by_cases hc' : c' ∈ df.cols
      · cases hidx2 : df.cols.indexOf? c' with
        | none =>
            have hs := indexOf?_isSome_of_mem df.cols c' hc'
            rw [hidx2] at hs
            cases hs
        | some idx2 =>
            have hlt2 : idx2 < df.cols.length := indexOf?_lt_length df.cols c' idx2 hidx2
            have happ : (df.cols ++ [c]).indexOf? c' = some idx2 := by
              rw [indexOf?_append_left df.cols [c] c' hc', hidx2]
            simp only [DFrame.cell, DFrame.colIdx, happ, hidx2]
            simp only [List.getD_eq_getElem?_getD]
            have hr2 : idx2 < (df.rows[i]?.getD []).length := by
              rw [← List.getD_eq_getElem?_getD, hrowlen]
              exact hlt2
            rw [List.getElem?_append_left hr2]
      · have hc2 : c' ∉ df.cols ++ [c] := by
          intro hm
          rcases List.mem_append.mp hm with h1 | h1
          · exact hc' h1
          · rcases List.mem_cons.mp h1 with h2 | h2
            · exact hne h2
            · exact absurd h2 (List.not_mem_nil c')
        simp only [DFrame.cell, DFrame.colIdx,
          indexOf?_eq_none_of_not_mem _ c' hc2, indexOf?_eq_none_of_not_mem _ c' hc']

theorem makeHashableList_length : ∀ l : List Value,
    (makeHashableList l).length = l.length
  | [] => rfl
  | v :: vs => by simp [makeHashableList, makeHashableList_length vs]

theorem hashFrame_WF (df : DFrame) (hwf : DFrame.WF df) : DFrame.WF (hashFrame df) := by
  intro r hr
  simp only [hashFrame, List.mem_map] at hr
  obtain ⟨q, hq, rfl⟩ := hr
  rw [makeHashableList_length]
  exact hwf q hq

theorem withBase_rows_length (df0 : DFrame) (acqF : List String) :
    (withBase df0 acqF).rows.length = df0.rows.length := by
  rw [withBase, setCol_rows_length _ _ _ (by rw [List.length_map])]
  simp [hashFrame]

theorem withBase_WF (df0 : DFrame) (acqF : List String) (hwf : DFrame.WF df0) :
    DFrame.WF (withBase df0 acqF) :=
  setCol_WF _ _ _ (hashFrame_WF df0 hwf) (by rw [List.length_map])

theorem withBase_cols (df0 : DFrame) (acqF : List String) :
    (withBase df0 acqF).cols = df0.cols ∨
      (withBase df0 acqF).cols = df0.cols ++ ["BaseAcquisition"] := by
  rw [withBase]
  rcases setCol_cols_sub (hashFrame df0) "BaseAcquisition"
      ((hashFrame df0).rows.map fun r => .str (baseAcqStr (hashFrame df0) acqF r)) with
    h | h
  · exact Or.inl h
  · exact Or.inr h

theorem sig_not_mem_withBase (df0 : DFrame) (acqF : List String)
    (hnos : "AcquisitionSignature" ∉ df0.cols) :
    "AcquisitionSignature" ∉ (withBase df0 acqF).cols := by
  rcases withBase_cols df0 acqF with h | h <;> rw [h]
  · exact hnos
  · intro hm
    rcases List.mem_append.mp hm with h1 | h1
    · exact hnos h1
    · simp at h1

theorem insertSorted_perm {α : Type} (le : α → α → Bool) (x : α) :
    ∀ l : List α, (insertSorted le x l).Perm (x :: l)
  | [] => List.Perm.refl _
  | y :: ys => by
      simp only [insertSorted]
      by_cases h : le x y = true
      · rw [if_pos h]
      · rw [if_neg h]
        exact ((insertSorted_perm le x ys).cons y).trans (List.Perm.swap x y ys)

theorem sortByLe_perm {α : Type} (le : α → α → Bool) :
    ∀ l : List α, (sortByLe le l).Perm l
  | [] => List.Perm.refl _
  | x :: xs =>
      (insertSorted_perm le x (sortByLe le xs)).trans ((sortByLe_perm le xs).cons x)

theorem mem_dedupFirst_go_of_mem {α : Type} [DecidableEq α] :
    ∀ (l : List α) (seen : List α) (x : α), x ∈ l → x ∉ seen →
      x ∈ dedupFirst.go seen l
  | [], _, x, h, _ => absurd h (List.not_mem_nil x)
  | a :: l, seen, x, h, hs => by
      by_cases ha : a ∈ seen
      · simp only [dedupFirst.go, ha, if_true]
        have hxl : x ∈ l := by
          rcases List.mem_cons.mp h with h1 | h1
          · exact absurd (h1 ▸ ha) hs
          · exact h1
        exact mem_dedupFirst_go_of_mem l seen x hxl hs
      · simp only [dedupFirst.go, ha, if_false, Bool.false_eq_true]
        by_cases hxa : x = a
        · exact List.mem_cons.mpr (Or.inl hxa)
        · have hxl : x ∈ l := by
            rcases List.mem_cons.mp h with h1 | h1
            · exact absurd h1 hxa
            · exact h1
          have hxs : x ∉ a :: seen := by
            intro hm
            rcases List.mem_cons.mp hm with h1 | h1
            · exact hxa h1
            · exact hs h1
          exact List.mem_cons.mpr (Or.inr (mem_dedupFirst_go_of_mem l (a :: seen) x hxl hxs))

theorem mem_dedupFirst_of_mem {α : Type} [DecidableEq α] (l : List α) (x : α)
    (h : x ∈ l) : x ∈ dedupFirst l :=
  mem_dedupFirst_go_of_mem l [] x h (List.not_mem_nil x)

theorem charOfDigit_inj :
    ∀ d1 < 10, ∀ d2 < 10, Char.ofNat (48 + d1) = Char.ofNat (48 + d2) → d1 = d2 := by
  decide

theorem mapCharOfDigit_inj :
    ∀ (l1 l2 : List Nat), (∀ d ∈ l1, d < 10) → (∀ d ∈ l2, d < 10) →
      l1.map (fun d => Char.ofNat (48 + d)) = l2.map (fun d => Char.ofNat (48 + d)) →
      l1 = l2
  | [], [], _, _, _ => rfl
  | [], _ :: _, _, _, h => by cases h
  | _ :: _, [], _, _, h => by cases h
  | d1 :: l1, d2 :: l2, h1, h2, h => by
      simp only [List.map_cons, List.cons.injEq] at h
      have hd := charOfDigit_inj d1 (h1 d1 (List.mem_cons_self d1 l1)) d2
        (h2 d2 (List.mem_cons_self d2 l2)) h.1
      rw [hd, mapCharOfDigit_inj l1 l2 (fun d hd2 => h1 d (List.mem_cons_of_mem _ hd2))
        (fun d hd2 => h2 d (List.mem_cons_of_mem _ hd2)) h.2]

theorem natStr_digits_eq (m n : Nat) (hm : m ≠ 0) (hn : n ≠ 0)
    (h : natStr m = natStr n) : Nat.digits 10 m = Nat.digits 10 n := by
  simp only [natStr, if_neg hm, if_neg hn] at h
  have hd := congrArg String.data h
  have hrev := List.reverse_injective hd
  exact mapCharOfDigit_inj _ _
    (fun d hdm => Nat.digits_lt_base (by norm_num) hdm)
    (fun d hdn => Nat.digits_lt_base (by norm_num) hdn) hrev

theorem natStr_inj (m n : Nat) (h : natStr m = natStr n) : m = n := by
  by_cases hm : m = 0 <;> by_cases hn : n = 0
  · rw [hm, hn]
  · exfalso
    rw [hm] at h
    rw [show natStr 0 = "0" from rfl] at h
    simp only [natStr, if_neg hn] at h
    have h4 : (['0'] : List Char) =
        (List.map (fun d => Char.ofNat (48 + d)) (Nat.digits 10 n)).reverse :=
      congrArg String.data h
    have h5 := congrArg List.reverse h4
    have hd2 : List.map (fun d => Char.ofNat (48 + d)) (Nat.digits 10 n) = ['0'] := by
      simpa using h5.symm
    have hdig : Nat.digits 10 n = [0] := mapCharOfDigit_inj _ [0]
      (fun d hdn => Nat.digits_lt_base (by norm_num) hdn) (by norm_num)
      (by rw [hd2]; rfl)
    have h6 := Nat.ofDigits_digits 10 n
    rw [hdig] at h6
    simp [Nat.ofDigits] at h6
    exact hn h6.symm
  · exfalso
    rw [hn] at h
    rw [show natStr 0 = "0" from rfl] at h
    simp only [natStr, if_neg hm] at h
    have h4 : (['0'] : List Char) =
        (List.map (fun d => Char.ofNat (48 + d)) (Nat.digits 10 m)).reverse :=
      congrArg String.data h.symm
    have h5 := congrArg List.reverse h4
    have hd2 : List.map (fun d => Char.ofNat (48 + d)) (Nat.digits 10 m) = ['0'] := by
      simpa using h5.symm
    have hdig : Nat.digits 10 m = [0] := mapCharOfDigit_inj _ [0]
      (fun d hdn => Nat.digits_lt_base (by norm_num) hdn) (by norm_num)
      (by rw [hd2]; rfl)
    have h6 := Nat.ofDigits_digits 10 m
    rw [hdig] at h6
    simp [Nat.ofDigits] at h6
    exact hm h6.symm
  · have hdig := natStr_digits_eq m n hm hn h
    have h1 := Nat.ofDigits_digits 10 m
    have h2 := Nat.ofDigits_digits 10 n
    rw [hdig] at h1
    exact h1.symm.trans h2

theorem zip_map_self {α β : Type} (f : α → β) :
    ∀ l : List α, l.zip (l.map f) = l.map fun a => (a, f a)
  | [] => rfl
  | x :: xs => by
      simp only [List.map_cons, List.zip_cons_cons, zip_map_self f xs]

theorem headD_mem_of_ne_nil {α : Type} : ∀ (l : List α) (d : α), l ≠ [] → l.headD d ∈ l
  | [], _, h => absurd rfl h
  | x :: xs, _, _ => List.mem_cons_self x xs

theorem string_append_left_cancel (a b c : String) (h : a ++ b = a ++ c) : b = c := by
  have hd := congrArg String.data h
  rw [String.data_append, String.data_append] at hd
  have h2 := List.append_cancel_left hd
  cases b
  cases c
  exact congrArg String.mk h2

theorem withBase_rows_eq (df0 : DFrame) (acqF : List String)
    (hnob : "BaseAcquisition" ∉ df0.cols) :
    (withBase df0 acqF).rows = (hashFrame df0).rows.map fun r =>
      r ++ [.str (baseAcqStr (hashFrame df0) acqF r)] := by
  rw [withBase]
  simp only [DFrame.setCol, DFrame.colIdx,
    indexOf?_eq_none_of_not_mem (hashFrame df0).cols "BaseAcquisition" hnob]
  rw [zip_map_self, List.map_map]
  rfl

theorem withBase_cols_eq (df0 : DFrame) (acqF : List String)
    (hnob : "BaseAcquisition" ∉ df0.cols) :
    (withBase df0 acqF).cols = df0.cols ++ ["BaseAcquisition"] := by
  have hnob2 : "BaseAcquisition" ∉ (hashFrame df0).cols := hnob
  rw [withBase, setCol_cols_of_not_mem _ _ _ hnob2]
  rfl

theorem withBase_cell_base (df0 : DFrame) (hwf : DFrame.WF df0)
    (hnob : "BaseAcquisition" ∉ df0.cols) (hpn : "ProtocolName" ∈ df0.cols)
    (q : List Value) (hq : q ∈ (withBase df0 ["ProtocolName"]).rows) :
    (withBase df0 ["ProtocolName"]).cell q "BaseAcquisition" =
      .str ("acq-" ++ clean_string
        (match (withBase df0 ["ProtocolName"]).cell q "ProtocolName" with
          | Value.none => "NA"
          | v => pyStr v)) := by
  have hhw := hashFrame_WF df0 hwf
  rw [withBase_rows_eq df0 ["ProtocolName"] hnob] at hq
  obtain ⟨q0, hq0, rfl⟩ := List.mem_map.mp hq
  have hlen0 : q0.length = (hashFrame df0).cols.length := hhw q0 hq0
  have hcols := withBase_cols_eq df0 ["ProtocolName"] hnob
  have hbase : (withBase df0 ["ProtocolName"]).cell
      (q0 ++ [.str (baseAcqStr (hashFrame df0) ["ProtocolName"] q0)]) "BaseAcquisition" =
      .str (baseAcqStr (hashFrame df0) ["ProtocolName"] q0) := by
    simp only [DFrame.cell, DFrame.colIdx, hcols,
      indexOf?_append_self df0.cols "BaseAcquisition" hnob]
    have hlen0q : q0.length = df0.cols.length := hlen0
    rw [List.getD_eq_getElem?_getD,
      List.getElem?_append_right (Nat.le_of_eq hlen0q)]
    simp [hlen0q]
  rw [hbase]
  have hpcell : (withBase df0 ["ProtocolName"]).cell
      (q0 ++ [.str (baseAcqStr (hashFrame df0) ["ProtocolName"] q0)]) "ProtocolName" =
      (hashFrame df0).cell q0 "ProtocolName" := by
    cases hidx2 : df0.cols.indexOf? "ProtocolName" with
    | none =>
        have hs := indexOf?_isSome_of_mem df0.cols "ProtocolName" hpn
        rw [hidx2] at hs
        cases hs
    | some idx2 =>
        have hlt2 := indexOf?_lt_length df0.cols "ProtocolName" idx2 hidx2
        have happ : (df0.cols ++ ["BaseAcquisition"]).indexOf? "ProtocolName" = some idx2 := by
          rw [indexOf?_append_left df0.cols ["BaseAcquisition"] "ProtocolName" hpn, hidx2]
        have hidx2h : (hashFrame df0).cols.indexOf? "ProtocolName" = some idx2 := hidx2
        simp only [DFrame.cell, DFrame.colIdx, hcols, happ, hidx2h]
        simp only [List.getD_eq_getElem?_getD]
        have hq2 : idx2 < q0.length := by
          have hlen0q : q0.length = df0.cols.length := hlen0
          rw [hlen0q]
          exact hlt2
        rw [List.getElem?_append_left hq2]
  rw [hpcell]
  simp only [baseAcqStr, List.map_cons, List.map_nil]
  rfl

theorem sigOf_congr (df : DFrame) (gf : List String) (r1 r2 : List Value)
    (hp : df.cell r1 "ProtocolName" = df.cell r2 "ProtocolName")
    (hk : keyTuple df gf r1 = keyTuple df gf r2) :
    sigOf df gf r1 = sigOf df gf r2 := by
  simp only [sigOf, hp, hk]

theorem acqLabel_eq_sigOf (df0 : DFrame) (acqF refF : List String) (out : DFrame)
    (hwf : DFrame.WF df0) (hnos : "AcquisitionSignature" ∉ df0.cols)
    (hb : build_acquisition_signatures df0 acqF refF = some out)
    (i : Nat) (hi : i < df0.rows.length) :
    acqLabel out i =
      (sigOf (withBase df0 acqF) (groupingFieldsOf (withBase df0 acqF).cols refF)
        ((withBase df0 acqF).rows.getD i [])).getD Value.none := by
  have hwf2 := withBase_WF df0 acqF hwf
  have hi2 : i < (withBase df0 acqF).rows.length := by
    rw [withBase_rows_length df0 acqF]
    exact hi
  have hnos2 := sig_not_mem_withBase df0 acqF hnos
  simp only [build_acquisition_signatures] at hb
  by_cases hg : (acqF.all (· ∈ df0.cols) && decide ("ProtocolName" ∈ df0.cols)) = true
  · rw [if_pos hg] at hb
    by_cases hany : ((withBase df0 acqF).rows.any fun r =>
        (sigOf (withBase df0 acqF)
          (groupingFieldsOf (withBase df0 acqF).cols refF) r).isSome) = true
    · rw [if_pos hany] at hb
      injection hb with hb
      subst hb
      rw [acqLabel, setCol_cell_self _ _ _ hwf2 (by rw [List.length_map]) i hi2]
      rw [getD_map_of_lt _ _ i hi2 Value.none []]
    · rw [if_neg hany] at hb
      injection hb with hb
      subst hb
      have hrow : (withBase df0 acqF).rows.getD i [] ∈ (withBase df0 acqF).rows :=
        getD_mem_of_lt _ i hi2 []
      cases hopt : sigOf (withBase df0 acqF)
          (groupingFieldsOf (withBase df0 acqF).cols refF)
          ((withBase df0 acqF).rows.getD i []) with
      | some v =>
          exact absurd (List.any_eq_true.mpr ⟨_, hrow, by rw [hopt]; rfl⟩) hany
      | none =>
          rw [acqLabel]
          simp only [DFrame.cell, DFrame.colIdx,
            indexOf?_eq_none_of_not_mem _ "AcquisitionSignature" hnos2]
          rfl
  · rw [if_neg hg] at hb
    cases hb

theorem indexOf_get_of_mem {α : Type} [BEq α] [LawfulBEq α] :
    ∀ (l : List α) (a : α), a ∈ l →
      l.indexOf a < l.length ∧ l.getD (l.indexOf a) a = a
  | [], a, h => absurd h (List.not_mem_nil a)
  | b :: l, a, h => by
      by_cases hba : (b == a) = true
      · constructor
        · simp [List.indexOf_cons, hba]
        · simp only [List.indexOf_cons, hba, cond_true, List.getD_cons_zero]
          exact eq_of_beq hba
      · have hmem : a ∈ l := by
          rcases List.mem_cons.mp h with h1 | h1
          · exact absurd (beq_iff_eq.mpr h1.symm) hba
          · exact h1
        obtain ⟨ih1, ih2⟩ := indexOf_get_of_mem l a hmem
        have hcond : (b == a) = false := Bool.eq_false_iff.mpr hba
        constructor
        · simp only [List.indexOf_cons, hcond, cond_false, List.length_cons]
          exact Nat.succ_lt_succ ih1
        · simp only [List.indexOf_cons, hcond, cond_false, List.getD_cons_succ]
          exact ih2

theorem sigOf_eq_suffix (df : DFrame) (gf : List String) (r : List Value)
    (hp : df.cell r "ProtocolName" ≠ Value.none)
    (hgf : gf.isEmpty = false)
    (hnf : noneFree (keyTuple df gf r) = true)
    (hlen : 1 < (combosOf df gf (df.cell r "ProtocolName")).length) :
    sigOf df gf r = some (.str
      ((match df.cell (((protocolGroup df (df.cell r "ProtocolName")).filter
          fun q => decide (keyTuple df gf q = keyTuple df gf r)).headD [])
          "BaseAcquisition" with
        | .str s => s
        | v => pyStr v) ++ "-" ++
        natStr (1 + (combosOf df gf (df.cell r "ProtocolName")).indexOf
          (keyTuple df gf r)))) := by
  simp only [sigOf]
  rw [if_neg (show ¬(decide (df.cell r "ProtocolName" = Value.none) = true) by
    simp [hp])]
  rw [if_neg (show ¬(gf.isEmpty = true) by simp [hgf])]
  rw [if_pos hnf, if_pos hlen]

theorem mem_combosOf (df : DFrame) (gf : List String) (p : Value) (r : List Value)
    (hr : r ∈ df.rows) (hp : df.cell r "ProtocolName" = p)
    (hnf : noneFree (keyTuple df gf r) = true) :
    keyTuple df gf r ∈ combosOf df gf p := by
  have h1 : r ∈ protocolGroup df p :=
    List.mem_filter.mpr ⟨hr, decide_eq_true hp⟩
  have h2 : keyTuple df gf r ∈ (protocolGroup df p).map (keyTuple df gf) :=
    List.mem_map.mpr ⟨r, h1, rfl⟩
  have h3 : keyTuple df gf r ∈
      ((protocolGroup df p).map (keyTuple df gf)).filter noneFree :=
    List.mem_filter.mpr ⟨h2, hnf⟩
  exact (sortByLe_perm _ _).mem_iff.mpr (mem_dedupFirst_of_mem _ _ h3)

/-- C1 amended: the grouping tuple of `build_acquisition_signatures` is
the settings fields present in the columns plus `CoilType` whenever that
column exists, over the hashable-normalized frame. Within one protocol
group, records with equal grouping tuples always receive equal
`AcquisitionSignature` labels, and (grouping acquisitions by
`ProtocolName`, the default) records with different, fully non-missing
grouping tuples always receive different labels. -/
theorem c1_grouping_tuple_determines_label (df0 : DFrame) (refF : List String)
    (out : DFrame) (hwf : DFrame.WF df0)
    (hnos : "AcquisitionSignature" ∉ df0.cols)
    (hnob : "BaseAcquisition" ∉ df0.cols)
    (hb : build_acquisition_signatures df0 ["ProtocolName"] refF = some out)
    (i j : Nat) (hi : i < df0.rows.length) (hj : j < df0.rows.length)
    (hp : (withBase df0 ["ProtocolName"]).cell
        ((withBase df0 ["ProtocolName"]).rows.getD i []) "ProtocolName" =
      (withBase df0 ["ProtocolName"]).cell
        ((withBase df0 ["ProtocolName"]).rows.getD j []) "ProtocolName") :
    (keyTuple (withBase df0 ["ProtocolName"])
        (groupingFieldsOf (withBase df0 ["ProtocolName"]).cols refF)
        ((withBase df0 ["ProtocolName"]).rows.getD i []) =
      keyTuple (withBase df0 ["ProtocolName"])
        (groupingFieldsOf (withBase df0 ["ProtocolName"]).cols refF)
        ((withBase df0 ["ProtocolName"]).rows.getD j []) →
      acqLabel out i = acqLabel out j) ∧
    ((withBase df0 ["ProtocolName"]).cell
        ((withBase df0 ["ProtocolName"]).rows.getD i []) "ProtocolName" ≠ Value.none →
      noneFree (keyTuple (withBase df0 ["ProtocolName"])
        (groupingFieldsOf (withBase df0 ["ProtocolName"]).cols refF)
        ((withBase df0 ["ProtocolName"]).rows.getD i [])) = true →
      noneFree (keyTuple (withBase df0 ["ProtocolName"])
        (groupingFieldsOf (withBase df0 ["ProtocolName"]).cols refF)
        ((withBase df0 ["ProtocolName"]).rows.getD j [])) = true →
      keyTuple (withBase df0 ["ProtocolName"])
        (groupingFieldsOf (withBase df0 ["ProtocolName"]).cols refF)
        ((withBase df0 ["ProtocolName"]).rows.getD i []) ≠
      keyTuple (withBase df0 ["ProtocolName"])
        (groupingFieldsOf (withBase df0 ["ProtocolName"]).cols refF)
        ((withBase df0 ["ProtocolName"]).rows.getD j []) →
      acqLabel out i ≠ acqLabel out j) := by
  have hbl_i := acqLabel_eq_sigOf df0 ["ProtocolName"] refF out hwf hnos hb i hi
  have hbl_j := acqLabel_eq_sigOf df0 ["ProtocolName"] refF out hwf hnos hb j hj
  have hi2 : i < (withBase df0 ["ProtocolName"]).rows.length := by
    rw [withBase_rows_length]
    exact hi
  have hj2 : j < (withBase df0 ["ProtocolName"]).rows.length := by
    rw [withBase_rows_length]
    exact hj
  have hpn : "ProtocolName" ∈ df0.cols := by
    simp only [build_acquisition_signatures] at hb
    by_cases hg : ((["ProtocolName"].all (· ∈ df0.cols)) &&
        decide ("ProtocolName" ∈ df0.cols)) = true
    · exact of_decide_eq_true (Bool.and_elim_right hg)
    · rw [if_neg hg] at hb
      cases hb
  constructor
  · intro hk
    rw [hbl_i, hbl_j,
      sigOf_congr (withBase df0 ["ProtocolName"]) _ _ _ hp hk]
  · intro hpne hnfi hnfj hkk
    set df2 := withBase df0 ["ProtocolName"] with hdf2
    set gf := groupingFieldsOf (withBase df0 ["ProtocolName"]).cols refF with hgfdef
    set ri := (withBase df0 ["ProtocolName"]).rows.getD i [] with hri
    set rj := (withBase df0 ["ProtocolName"]).rows.getD j [] with hrj
    have hgfne : gf.isEmpty = false := by
      cases hgfc : gf with
      | nil =>
          exfalso
          apply hkk
          rw [hgfc]
          rfl
      | cons a l => rfl
    have hmem_i : ri ∈ df2.rows := getD_mem_of_lt _ i hi2 []
    have hmem_j : rj ∈ df2.rows := getD_mem_of_lt _ j hj2 []
    have hki : keyTuple df2 gf ri ∈ combosOf df2 gf (df2.cell ri "ProtocolName") :=
      mem_combosOf df2 gf _ ri hmem_i rfl hnfi
    have hkj : keyTuple df2 gf rj ∈ combosOf df2 gf (df2.cell ri "ProtocolName") :=
      mem_combosOf df2 gf _ rj hmem_j hp.symm hnfj
    have hlen2 : 1 < (combosOf df2 gf (df2.cell ri "ProtocolName")).length := by
      cases hcc : combosOf df2 gf (df2.cell ri "ProtocolName") with
      | nil => rw [hcc] at hki; cases hki
      | cons a l =>
          cases hl : l with
          | nil =>
              rw [hcc, hl] at hki hkj
              simp only [List.mem_singleton] at hki hkj
              exact absurd (hki.trans hkj.symm) hkk
          | cons b l2 => simp [hcc, hl]
    have hsig_i := sigOf_eq_suffix df2 gf ri hpne hgfne hnfi hlen2
    have hpj : df2.cell rj "ProtocolName" = df2.cell ri "ProtocolName" := hp.symm
    have hpnej : df2.cell rj "ProtocolName" ≠ Value.none := by
      rw [hpj]
      exact hpne
    have hlen2j : 1 < (combosOf df2 gf (df2.cell rj "ProtocolName")).length := by
      rw [hpj]
      exact hlen2
    have hsig_j := sigOf_eq_suffix df2 gf rj hpnej hgfne hnfj hlen2j
    -- the two base strings agree: both first rows lie in the same protocol group
    have hbase : ∀ q ∈ protocolGroup df2 (df2.cell ri "ProtocolName"),
        df2.cell q "BaseAcquisition" =
          .str ("acq-" ++ clean_string
            (match df2.cell ri "ProtocolName" with
              | Value.none => "NA"
              | v => pyStr v)) := by
      intro q hq
      have hqrows : q ∈ df2.rows := (List.mem_filter.mp hq).1
      have hqp : df2.cell q "ProtocolName" = df2.cell ri "ProtocolName" :=
        of_decide_eq_true (List.mem_filter.mp hq).2
      rw [withBase_cell_base df0 hwf hnob hpn q hqrows, hqp]
    have hfilter_ne : ∀ (r : List Value), r ∈ df2.rows →
        df2.cell r "ProtocolName" = df2.cell ri "ProtocolName" →
        ((protocolGroup df2 (df2.cell ri "ProtocolName")).filter
          fun q => decide (keyTuple df2 gf q = keyTuple df2 gf r)) ≠ [] := by
      intro r hrm hrp hnil
      have hmem : r ∈ (protocolGroup df2 (df2.cell ri "ProtocolName")).filter
          fun q => decide (keyTuple df2 gf q = keyTuple df2 gf r) :=
        List.mem_filter.mpr ⟨List.mem_filter.mpr ⟨hrm, decide_eq_true hrp⟩,
          decide_eq_true rfl⟩
      rw [hnil] at hmem
      cases hmem
    have hfr_i : ((protocolGroup df2 (df2.cell ri "ProtocolName")).filter
        fun q => decide (keyTuple df2 gf q = keyTuple df2 gf ri)).headD [] ∈
        protocolGroup df2 (df2.cell ri "ProtocolName") :=
      (List.mem_filter.mp (headD_mem_of_ne_nil _ []
        (hfilter_ne ri hmem_i rfl))).1
    have hfr_j : ((protocolGroup df2 (df2.cell ri "ProtocolName")).filter
        fun q => decide (keyTuple df2 gf q = keyTuple df2 gf rj)).headD [] ∈
        protocolGroup df2 (df2.cell ri "ProtocolName") :=
      (List.mem_filter.mp (headD_mem_of_ne_nil _ []
        (hfilter_ne rj hmem_j hpj))).1
    rw [hpj] at hsig_j
    simp only [hbase _ hfr_i] at hsig_i
    simp only [hbase _ hfr_j] at hsig_j
    rw [hbl_i, hbl_j, hsig_i, hsig_j]
    simp only [Option.getD_some]
    intro heq
    have hstr := Value.str.inj heq
    have hnat := string_append_left_cancel _ _ _ hstr
    have hidx := Nat.add_left_cancel (natStr_inj _ _ hnat)
    obtain ⟨hii, hgi⟩ := indexOf_get_of_mem _ _ hki
    obtain ⟨hjj, hgj⟩ := indexOf_get_of_mem _ _ hkj
    apply hkk
    rw [← hgi, ← hgj, List.getD_eq_getElem _ _ hii, List.getD_eq_getElem _ _ hjj]
    simp only [hidx]

theorem c1_grouping_tuple_determines_label_witness :
    acqLabel c1out 0 ≠ acqLabel c1out 1 :=
  (c1_grouping_tuple_determines_label c1df ["SliceThickness"] c1out
      (by unfold DFrame.WF; decide) (by decide) (by decide) (by with_unfolding_all rfl)
      0 1 (by decide) (by decide) (by with_unfolding_all decide)).2
    (by with_unfolding_all decide) (by with_unfolding_all decide)
    (by with_unfolding_all decide) (by with_unfolding_all decide)

theorem sigOf_eq_nosuffix (df : DFrame) (gf : List String) (r : List Value)
    (hp : df.cell r "ProtocolName" ≠ Value.none)
    (hgf : gf.isEmpty = false)
    (hnf : noneFree (keyTuple df gf r) = true)
    (hlen : (combosOf df gf (df.cell r "ProtocolName")).length ≤ 1) :
    sigOf df gf r = some (df.cell
      (((protocolGroup df (df.cell r "ProtocolName")).filter
        fun q => decide (keyTuple df gf q = keyTuple df gf r)).headD [])
      "BaseAcquisition") := by
  simp only [sigOf]
  rw [if_neg (show ¬(decide (df.cell r "ProtocolName" = Value.none) = true) by
    simp [hp])]
  rw [if_neg (show ¬(gf.isEmpty = true) by simp [hgf])]
  rw [if_pos hnf, if_neg (by omega : ¬(1 < (combosOf df gf (df.cell r "ProtocolName")).length))]

theorem sigOf_eq_empty_gf (df : DFrame) (r : List Value)
    (hp : df.cell r "ProtocolName" ≠ Value.none) :
    sigOf df [] r = some (df.cell
      ((protocolGroup df (df.cell r "ProtocolName")).headD []) "BaseAcquisition") := by
  simp only [sigOf]
  rw [if_neg (show ¬(decide (df.cell r "ProtocolName" = Value.none) = true) by
    simp [hp])]
  rfl

theorem length_le_one_of_nodup_const {α : Type} (l : List α) (a : α)
    (hnd : l.Nodup) (h : ∀ x ∈ l, x = a) : l.length ≤ 1 := by
  cases l with
  | nil => simp
  | cons x xs =>
      cases xs with
      | nil => simp
      | cons y ys =>
          exfalso
          have hx := h x (List.mem_cons_self _ _)
          have hy := h y (List.mem_cons_of_mem _ (List.mem_cons_self _ _))
          rw [List.nodup_cons] at hnd
          exact hnd.1 (List.mem_cons.mpr (Or.inl (hx.trans hy.symm)))

/-- C7 amended: with acquisitions grouped by `ProtocolName` (the
default), a record whose protocol is present and whose grouping tuple is
fully non-missing is labeled `"acq-" + clean_string(str(protocol))`,
with `"-" + counter` appended exactly when the protocol partition has
more than one distinct none-free grouping tuple; the counter is one plus
the position of the record's tuple in the pandas-sorted enumeration of
those distinct tuples (sorted key order, not first-observed order). With
no grouping fields at all the label is the bare base label. -/
theorem c7_counter_in_sorted_order (df0 : DFrame) (refF : List String)
    (out : DFrame) (hwf : DFrame.WF df0)
    (hnos : "AcquisitionSignature" ∉ df0.cols)
    (hnob : "BaseAcquisition" ∉ df0.cols)
    (hb : build_acquisition_signatures df0 ["ProtocolName"] refF = some out)
    (i : Nat) (hi : i < df0.rows.length)
    (hpne : (withBase df0 ["ProtocolName"]).cell
      ((withBase df0 ["ProtocolName"]).rows.getD i []) "ProtocolName" ≠ Value.none) :
    (groupingFieldsOf (withBase df0 ["ProtocolName"]).cols refF = [] →
      acqLabel out i = .str ("acq-" ++ clean_string
        (pyStr ((withBase df0 ["ProtocolName"]).cell
          ((withBase df0 ["ProtocolName"]).rows.getD i []) "ProtocolName")))) ∧
    (noneFree (keyTuple (withBase df0 ["ProtocolName"])
        (groupingFieldsOf (withBase df0 ["ProtocolName"]).cols refF)
        ((withBase df0 ["ProtocolName"]).rows.getD i [])) = true →
      (combosOf (withBase df0 ["ProtocolName"])
        (groupingFieldsOf (withBase df0 ["ProtocolName"]).cols refF)
        ((withBase df0 ["ProtocolName"]).cell
          ((withBase df0 ["ProtocolName"]).rows.getD i []) "ProtocolName")).length = 1 →
      acqLabel out i = .str ("acq-" ++ clean_string
        (pyStr ((withBase df0 ["ProtocolName"]).cell
          ((withBase df0 ["ProtocolName"]).rows.getD i []) "ProtocolName")))) ∧
    (noneFree (keyTuple (withBase df0 ["ProtocolName"])
        (groupingFieldsOf (withBase df0 ["ProtocolName"]).cols refF)
        ((withBase df0 ["ProtocolName"]).rows.getD i [])) = true →
      1 < (combosOf (withBase df0 ["ProtocolName"])
        (groupingFieldsOf (withBase df0 ["ProtocolName"]).cols refF)
        ((withBase df0 ["ProtocolName"]).cell
          ((withBase df0 ["ProtocolName"]).rows.getD i []) "ProtocolName")).length →
      acqLabel out i = .str (("acq-" ++ clean_string
        (pyStr ((withBase df0 ["ProtocolName"]).cell
          ((withBase df0 ["ProtocolName"]).rows.getD i []) "ProtocolName"))) ++ "-" ++
        natStr (1 + (combosOf (withBase df0 ["ProtocolName"])
          (groupingFieldsOf (withBase df0 ["ProtocolName"]).cols refF)
          ((withBase df0 ["ProtocolName"]).cell
            ((withBase df0 ["ProtocolName"]).rows.getD i []) "ProtocolName")).indexOf
          (keyTuple (withBase df0 ["ProtocolName"])
            (groupingFieldsOf (withBase df0 ["ProtocolName"]).cols refF)
            ((withBase df0 ["ProtocolName"]).rows.getD i []))))) := by
  have hbl := acqLabel_eq_sigOf df0 ["ProtocolName"] refF out hwf hnos hb i hi
  have hi2 : i < (withBase df0 ["ProtocolName"]).rows.length := by
    rw [withBase_rows_length]
    exact hi
  have hpn : "ProtocolName" ∈ df0.cols := by
    simp only [build_acquisition_signatures] at hb
    by_cases hg : ((["ProtocolName"].all (· ∈ df0.cols)) &&
        decide ("ProtocolName" ∈ df0.cols)) = true
    · rw [Bool.and_eq_true] at hg
      exact of_decide_eq_true hg.2
    · rw [if_neg hg] at hb
      cases hb
  set df2 := withBase df0 ["ProtocolName"] with hdf2
  set gf := groupingFieldsOf (withBase df0 ["ProtocolName"]).cols refF with hgfdef
  set ri := (withBase df0 ["ProtocolName"]).rows.getD i [] with hridef
  have hmem_i : ri ∈ df2.rows := getD_mem_of_lt _ i hi2 []
  have hbase : ∀ q ∈ protocolGroup df2 (df2.cell ri "ProtocolName"),
      df2.cell q "BaseAcquisition" =
        .str ("acq-" ++ clean_string (pyStr (df2.cell ri "ProtocolName"))) := by
    intro q hq
    have hqrows : q ∈ df2.rows := (List.mem_filter.mp hq).1
    have hqp : df2.cell q "ProtocolName" = df2.cell ri "ProtocolName" :=
      of_decide_eq_true (List.mem_filter.mp hq).2
    rw [withBase_cell_base df0 hwf hnob hpn q hqrows, hqp]
    cases hterm : df2.cell ri "ProtocolName" with
    | none => exact absurd hterm hpne
    | num qq => rfl
    | str ss => rfl
    | vlist ll => rfl
    | tup ll => rfl
  refine ⟨?_, ?_, ?_⟩
  · intro hgfnil
    have hpg : ri ∈ protocolGroup df2 (df2.cell ri "ProtocolName") :=
      List.mem_filter.mpr ⟨hmem_i, decide_eq_true rfl⟩
    have hpgne : protocolGroup df2 (df2.cell ri "ProtocolName") ≠ [] := by
      intro hnil
      rw [hnil] at hpg
      cases hpg
    have hsig := sigOf_eq_empty_gf df2 ri hpne
    rw [hbl, hgfnil, hsig, Option.getD_some,
      hbase _ (headD_mem_of_ne_nil _ [] hpgne)]
  · intro hnf hlen1
    by_cases hgfc : gf = []
    · have hpg : ri ∈ protocolGroup df2 (df2.cell ri "ProtocolName") :=
        List.mem_filter.mpr ⟨hmem_i, decide_eq_true rfl⟩
      have hpgne : protocolGroup df2 (df2.cell ri "ProtocolName") ≠ [] := by
        intro hnil
        rw [hnil] at hpg
        cases hpg
      have hsig := sigOf_eq_empty_gf df2 ri hpne
      rw [hbl, hgfc, hsig, Option.getD_some,
        hbase _ (headD_mem_of_ne_nil _ [] hpgne)]
    · have hfilterne : ((protocolGroup df2 (df2.cell ri "ProtocolName")).filter
          fun q => decide (keyTuple df2 gf q = keyTuple df2 gf ri)) ≠ [] := by
        intro hnil
        have hmm : ri ∈ (protocolGroup df2 (df2.cell ri "ProtocolName")).filter
            fun q => decide (keyTuple df2 gf q = keyTuple df2 gf ri) :=
          List.mem_filter.mpr ⟨List.mem_filter.mpr ⟨hmem_i, decide_eq_true rfl⟩,
            decide_eq_true rfl⟩
        rw [hnil] at hmm
        cases hmm
      have hgfne : gf.isEmpty = false := by
        cases hg2 : gf with
        | nil => exact absurd hg2 hgfc
        | cons a l => rfl
      have hsig := sigOf_eq_nosuffix df2 gf ri hpne hgfne hnf (by omega)
      rw [hbl, hsig, Option.getD_some,
        hbase _ ((List.mem_filter.mp (headD_mem_of_ne_nil _ [] hfilterne)).1)]
  · intro hnf hlen2
    have hfilterne : ((protocolGroup df2 (df2.cell ri "ProtocolName")).filter
        fun q => decide (keyTuple df2 gf q = keyTuple df2 gf ri)) ≠ [] := by
      intro hnil
      have hmm : ri ∈ (protocolGroup df2 (df2.cell ri "ProtocolName")).filter
          fun q => decide (keyTuple df2 gf q = keyTuple df2 gf ri) :=
        List.mem_filter.mpr ⟨List.mem_filter.mpr ⟨hmem_i, decide_eq_true rfl⟩,
          decide_eq_true rfl⟩
      rw [hnil] at hmm
      cases hmm
    have hgfne : gf.isEmpty = false := by
      cases hgfc : gf with
      | nil =>
          exfalso
          rw [hgfc] at hlen2
          have hperm := sortByLe_perm (fun a b => !(Value.cmpList a b == Ordering.gt))
            (dedupFirst ((((protocolGroup df2 (df2.cell ri "ProtocolName")).map
              (keyTuple df2 [])).filter noneFree)))
          rw [combosOf, hperm.length_eq] at hlen2
          have hle := length_le_one_of_nodup_const _ ([] : List Value)
            (dedupFirst_nodup _)
            (fun x hx => by
              have hx2 : x ∈ List.filter noneFree (List.map (keyTuple df2 [])
                  (protocolGroup df2 (df2.cell ri "ProtocolName"))) :=
                dedupFirst_sub _ _ hx
              have hx3 := (List.mem_filter.mp hx2).1
              obtain ⟨q, hq, rfl⟩ := List.mem_map.mp hx3
              rfl)
          omega
      | cons a l => rfl
    have hsig := sigOf_eq_suffix df2 gf ri hpne hgfne hnf hlen2
    rw [hbl, hsig, Option.getD_some]
    simp only [hbase _ ((List.mem_filter.mp (headD_mem_of_ne_nil _ [] hfilterne)).1)]

theorem c7_counter_in_sorted_order_witness :
    acqLabel c7out 0 = .str (("acq-" ++ clean_string
      (pyStr ((withBase c7df ["ProtocolName"]).cell
        ((withBase c7df ["ProtocolName"]).rows.getD 0 []) "ProtocolName"))) ++ "-" ++
      natStr (1 + (combosOf (withBase c7df ["ProtocolName"])
        (groupingFieldsOf (withBase c7df ["ProtocolName"]).cols ["SliceThickness"])
        ((withBase c7df ["ProtocolName"]).cell
          ((withBase c7df ["ProtocolName"]).rows.getD 0 []) "ProtocolName")).indexOf
        (keyTuple (withBase c7df ["ProtocolName"])
          (groupingFieldsOf (withBase c7df ["ProtocolName"]).cols ["SliceThickness"])
          ((withBase c7df ["ProtocolName"]).rows.getD 0 [])))) :=
  (c7_counter_in_sorted_order c7df ["SliceThickness"] c7out
      (by unfold DFrame.WF; decide) (by decide) (by decide)
      (by with_unfolding_all rfl) 0 (by decide)
      (by with_unfolding_all decide)).2.2
    (by with_unfolding_all decide) (by with_unfolding_all decide)

theorem makeHashableList_getD (r : List Value) :
    ∀ idx : Nat, (makeHashableList r).getD idx Value.none =
      make_hashable (r.getD idx Value.none) := by
  induction r with
  | nil => intro idx; cases idx <;> rfl
  | cons v vs ih =>
      intro idx
      cases idx with
      | zero => rfl
      | succ n =>
          simp only [makeHashableList, List.getD_cons_succ]
          exact ih n

theorem hashFrame_cell (df : DFrame) (i : Nat) (hi : i < df.rows.length) (c : String) :
    (hashFrame df).cell ((hashFrame df).rows.getD i []) c =
      make_hashable (df.cell (df.rows.getD i []) c) := by
  have hrow : (hashFrame df).rows.getD i [] =
      makeHashableList (df.rows.getD i []) := by
    simp only [hashFrame]
    exact getD_map_of_lt _ _ i hi [] []
  rw [hrow]
  cases hidx : df.cols.indexOf? c with
  | none => simp only [DFrame.cell, DFrame.colIdx, hashFrame, hidx]; rfl
  | some idx =>
      simp only [DFrame.cell, DFrame.colIdx, hashFrame, hidx]
      exact makeHashableList_getD _ idx

theorem setup_cols (df0 : DFrame) (hpn : "ProtocolName" ∈ df0.cols) :
    (_validate_and_setup_fields df0).cols = df0.cols := by
  simp only [_validate_and_setup_fields, if_pos hpn]
  cases hidx : df0.cols.indexOf? "ProtocolName" with
  | none =>
      have hs := indexOf?_isSome_of_mem df0.cols "ProtocolName" hpn
      rw [hidx] at hs
      cases hs
  | some idx => exact setCol_cols_of_mem df0 "ProtocolName" _ idx hidx

theorem setup_rows_length (df0 : DFrame) (hpn : "ProtocolName" ∈ df0.cols) :
    (_validate_and_setup_fields df0).rows.length = df0.rows.length := by
  simp only [_validate_and_setup_fields, if_pos hpn]
  exact setCol_rows_length df0 "ProtocolName" _ (by rw [List.length_map])

theorem setup_WF (df0 : DFrame) (hwf : DFrame.WF df0)
    (hpn : "ProtocolName" ∈ df0.cols) :
    DFrame.WF (_validate_and_setup_fields df0) := by
  simp only [_validate_and_setup_fields, if_pos hpn]
  exact setCol_WF df0 "ProtocolName" _ hwf (by rw [List.length_map])

theorem setup_cell_other (df0 : DFrame) (hwf : DFrame.WF df0)
    (hpn : "ProtocolName" ∈ df0.cols) (i : Nat) (hi : i < df0.rows.length)
    (c : String) (hc : c ≠ "ProtocolName") :
    (_validate_and_setup_fields df0).cell
        ((_validate_and_setup_fields df0).rows.getD i []) c =
      df0.cell (df0.rows.getD i []) c := by
  simp only [_validate_and_setup_fields, if_pos hpn]
  exact setCol_cell_other df0 "ProtocolName" _ hwf (by rw [List.length_map]) i hi c hc

theorem setup_cell_pn (df0 : DFrame) (hwf : DFrame.WF df0)
    (hpn : "ProtocolName" ∈ df0.cols) (i : Nat) (hi : i < df0.rows.length) :
    (_validate_and_setup_fields df0).cell
        ((_validate_and_setup_fields df0).rows.getD i []) "ProtocolName" =
      (match df0.cell (df0.rows.getD i []) "ProtocolName" with
        | Value.none => .str "Unknown"
        | v => .str (pyStr v)) := by
  simp only [_validate_and_setup_fields, if_pos hpn]
  rw [setCol_cell_self df0 "ProtocolName" _ hwf (by rw [List.length_map]) i hi]
  exact getD_map_of_lt _ _ i hi Value.none []

theorem build_cols (df1 : DFrame) (acqF refF : List String) (out : DFrame)
    (hnos1 : "AcquisitionSignature" ∉ df1.cols)
    (hnob1 : "BaseAcquisition" ∉ df1.cols)
    (hb : build_acquisition_signatures df1 acqF refF = some out) :
    out.cols = df1.cols ++ ["BaseAcquisition", "AcquisitionSignature"] ∨
      out.cols = df1.cols ++ ["BaseAcquisition"] := by
  have hnos2 := sig_not_mem_withBase df1 acqF hnos1
  have hwb := withBase_cols_eq df1 acqF hnob1
  simp only [build_acquisition_signatures] at hb
  by_cases hg : (acqF.all (· ∈ df1.cols) && decide ("ProtocolName" ∈ df1.cols)) = true
  · rw [if_pos hg] at hb
    by_cases hany : ((withBase df1 acqF).rows.any fun r =>
        (sigOf (withBase df1 acqF)
          (groupingFieldsOf (withBase df1 acqF).cols refF) r).isSome) = true
    · rw [if_pos hany] at hb
      injection hb with hb
      subst hb
      left
      rw [setCol_cols_of_not_mem _ _ _ hnos2, hwb, List.append_assoc]
      rfl
    · rw [if_neg hany] at hb
      injection hb with hb
      subst hb
      right
      exact hwb
  · rw [if_neg hg] at hb
    cases hb

theorem build_rows_length (df1 : DFrame) (acqF refF : List String) (out : DFrame)
    (hb : build_acquisition_signatures df1 acqF refF = some out) :
    out.rows.length = df1.rows.length := by
  simp only [build_acquisition_signatures] at hb
  by_cases hg : (acqF.all (· ∈ df1.cols) && decide ("ProtocolName" ∈ df1.cols)) = true
  · rw [if_pos hg] at hb
    by_cases hany : ((withBase df1 acqF).rows.any fun r =>
        (sigOf (withBase df1 acqF)
          (groupingFieldsOf (withBase df1 acqF).cols refF) r).isSome) = true
    · rw [if_pos hany] at hb
      injection hb with hb
      subst hb
      rw [setCol_rows_length _ _ _ (by rw [List.length_map])]
      exact withBase_rows_length df1 acqF
    · rw [if_neg hany] at hb
      injection hb with hb
      subst hb
      exact withBase_rows_length df1 acqF
  · rw [if_neg hg] at hb
    cases hb

theorem build_cell_preserved (df1 : DFrame) (acqF refF : List String) (out : DFrame)
    (hwf1 : DFrame.WF df1) (hnos1 : "AcquisitionSignature" ∉ df1.cols)
    (hnob1 : "BaseAcquisition" ∉ df1.cols)
    (hb : build_acquisition_signatures df1 acqF refF = some out)
    (i : Nat) (hi : i < df1.rows.length) (c : String)
    (hcS : c ≠ "AcquisitionSignature") (hcB : c ≠ "BaseAcquisition") :
    out.cell (out.rows.getD i []) c =
      make_hashable (df1.cell (df1.rows.getD i []) c) := by
  have hwf2 := withBase_WF df1 acqF hwf1
  have hi2 : i < (withBase df1 acqF).rows.length := by
    rw [withBase_rows_length]
    exact hi
  have hwbcell : (withBase df1 acqF).cell ((withBase df1 acqF).rows.getD i []) c =
      make_hashable (df1.cell (df1.rows.getD i []) c) := by
    rw [withBase,
      setCol_cell_other (hashFrame df1) "BaseAcquisition" _ (hashFrame_WF df1 hwf1)
        (by rw [List.length_map]) i (by simp [hashFrame]; exact hi) c hcB]
    exact hashFrame_cell df1 i hi c
  simp only [build_acquisition_signatures] at hb
  by_cases hg : (acqF.all (· ∈ df1.cols) && decide ("ProtocolName" ∈ df1.cols)) = true
  · rw [if_pos hg] at hb
    by_cases hany : ((withBase df1 acqF).rows.any fun r =>
        (sigOf (withBase df1 acqF)
          (groupingFieldsOf (withBase df1 acqF).cols refF) r).isSome) = true
    · rw [if_pos hany] at hb
      injection hb with hb
      subst hb
      rw [setCol_cell_other (withBase df1 acqF) "AcquisitionSignature" _ hwf2
        (by rw [List.length_map]) i hi2 c hcS]
      exact hwbcell
    · rw [if_neg hany] at hb
      injection hb with hb
      subst hb
      exact hwbcell
  · rw [if_neg hg] at hb
    cases hb

/-- C9 amended: the setup and signature-building steps do mutate the
caller's table, in exactly this way: every cell of every original
non-`ProtocolName` column is replaced by its `make_hashable` image
(lists become tuples), the `ProtocolName` column is coerced to strings
with missing values becoming `"Unknown"`, and the caller's object gains
the `BaseAcquisition` (and, when any row is assigned, the
`AcquisitionSignature`) column; no column is removed and the row count
is unchanged. The later steps add only the `RunNumber` and `Acquisition`
columns, which the claim already permits. -/
theorem c9_mutation_characterized (df0 : DFrame) (refF : List String)
    (out : DFrame) (hwf : DFrame.WF df0)
    (hpn : "ProtocolName" ∈ df0.cols)
    (hnos : "AcquisitionSignature" ∉ df0.cols)
    (hnob : "BaseAcquisition" ∉ df0.cols)
    (hb : setupAndBuildSignatures df0 refF = some out) :
    (out.cols = df0.cols ++ ["BaseAcquisition", "AcquisitionSignature"] ∨
      out.cols = df0.cols ++ ["BaseAcquisition"]) ∧
    out.rows.length = df0.rows.length ∧
    (∀ i, i < df0.rows.length → ∀ c, c ∈ df0.cols → c ≠ "ProtocolName" →
      out.cell (out.rows.getD i []) c =
        make_hashable (df0.cell (df0.rows.getD i []) c)) ∧
    (∀ i, i < df0.rows.length →
      out.cell (out.rows.getD i []) "ProtocolName" =
        (match df0.cell (df0.rows.getD i []) "ProtocolName" with
          | Value.none => .str "Unknown"
          | v => .str (pyStr v))) := by
  rw [setupAndBuildSignatures] at hb
  have hscols := setup_cols df0 hpn
  have hswf := setup_WF df0 hwf hpn
  have hslen := setup_rows_length df0 hpn
  have hsnos : "AcquisitionSignature" ∉ (_validate_and_setup_fields df0).cols := by
    rw [hscols]
    exact hnos
  have hsnob : "BaseAcquisition" ∉ (_validate_and_setup_fields df0).cols := by
    rw [hscols]
    exact hnob
  refine ⟨?_, ?_, ?_, ?_⟩
  · rcases build_cols _ _ refF out hsnos hsnob hb with h | h <;> rw [hscols] at h
    · exact Or.inl h
    · exact Or.inr h
  · rw [build_rows_length _ _ refF out hb, hslen]
  · intro i hi c hc hcpn
    have hcS : c ≠ "AcquisitionSignature" := fun he => hnos (he ▸ hc)
    have hcB : c ≠ "BaseAcquisition" := fun he => hnob (he ▸ hc)
    rw [build_cell_preserved _ _ refF out hswf hsnos hsnob hb i
        (by rw [hslen]; exact hi) c hcS hcB,
      setup_cell_other df0 hwf hpn i hi c hcpn]
  · intro i hi
    have hcS : "ProtocolName" ≠ "AcquisitionSignature" := by decide
    have hcB : "ProtocolName" ≠ "BaseAcquisition" := by decide
    rw [build_cell_preserved _ _ refF out hswf hsnos hsnob hb i
        (by rw [hslen]; exact hi) "ProtocolName" hcS hcB,
      setup_cell_pn df0 hwf hpn i hi]
    cases df0.cell (df0.rows.getD i []) "ProtocolName" <;> rfl

theorem c9_mutation_characterized_witness :
    c9out.cell (c9out.rows.getD 0 []) "EchoTimes" =
      make_hashable (c9df.cell (c9df.rows.getD 0 []) "EchoTimes") ∧
    (c9out.cols = c9df.cols ++ ["BaseAcquisition", "AcquisitionSignature"] ∨
      c9out.cols = c9df.cols ++ ["BaseAcquisition"]) :=
  ⟨(c9_mutation_characterized c9df ["SliceThickness"] c9out
      (by unfold DFrame.WF; decide) (by decide) (by decide) (by decide)
      (by with_unfolding_all rfl)).2.2.1 0 (by decide) "EchoTimes"
      (by decide) (by decide),
    (c9_mutation_characterized c9df ["SliceThickness"] c9out
      (by unfold DFrame.WF; decide) (by decide) (by decide) (by decide)
      (by with_unfolding_all rfl)).1⟩

/-- C3 fails as stated: `in_acq[field].unique()` hashes every cell, so a
Python-list cell in the constrained column raises `TypeError` and the
acquisition-level loop emits no record at all for that field. -/
theorem c3_unhashable_cell_raises :
    fdefEx3.field ∈ c3df.cols ∧
      checkAcqField "T1" "acq-a" c3df fdefEx3 = Option.none := by
  with_unfolding_all decide
